import Mathlib

/-!
A shallow embedding of the streaming JSON query engine of the
codebase-knowledge-extractor repository (path evaluator, filter
predicate engine, query/aggregate engine, join engine, relationship
finder, schema extractor), together with theorems settling the frozen
claims about it.

Files are modelled as the list of elements their `entities` array
yields in document order; the streaming machinery is replaced by
folds over that list, which is observationally equivalent for the
properties considered here.  JavaScript numbers are modelled as exact
fractions (`JsNum`): the JSON documents handled by the engine contain
only finite decimal numbers, and none of the claims concerns binary
rounding.  The runtime's string-to-date parser (`new Date(string)`)
is an external facility and is passed around as an abstract parameter
`dp : String → Option JsNum` giving the epoch value of strings it can
parse.
-/

namespace JsonGenius

/-! ## Numbers

An exact fraction kept unnormalized so that every operation is a
plain integer computation; the denominator is stored as its
predecessor, making it positive by construction.  Value comparisons
cross-multiply. -/

structure JsNum where
  num : Int
  denPred : Nat
deriving Repr, DecidableEq

def JsNum.den (a : JsNum) : Int := ((a.denPred + 1 : Nat) : Int)

instance (n : Nat) : OfNat JsNum n := ⟨⟨(n : Int), 0⟩⟩

def JsNum.ofInt (n : Int) : JsNum := ⟨n, 0⟩

def JsNum.ofNat (n : Nat) : JsNum := ⟨(n : Int), 0⟩

instance : Neg JsNum := ⟨fun a => ⟨-a.num, a.denPred⟩⟩

instance : Add JsNum :=
  ⟨fun a b => ⟨a.num * b.den + b.num * a.den, (a.denPred + 1) * (b.denPred + 1) - 1⟩⟩

instance : Sub JsNum :=
  ⟨fun a b => ⟨a.num * b.den - b.num * a.den, (a.denPred + 1) * (b.denPred + 1) - 1⟩⟩

instance : Mul JsNum :=
  ⟨fun a b => ⟨a.num * b.num, (a.denPred + 1) * (b.denPred + 1) - 1⟩⟩

/-- Division.  A zero divisor yields 0 here; in JavaScript it yields
an infinity or `NaN`, and every use below either guards against it or
is observationally equivalent under this choice (noted at the use
sites). -/
instance : Div JsNum :=
  ⟨fun a b =>
    if b.num = 0 then ⟨0, 0⟩
    else if b.num < 0 then ⟨-(a.num * b.den), (a.denPred + 1) * b.num.natAbs - 1⟩
    else ⟨a.num * b.den, (a.denPred + 1) * b.num.natAbs - 1⟩⟩

def JsNum.beq (a b : JsNum) : Bool := a.num * b.den == b.num * a.den

instance : BEq JsNum := ⟨JsNum.beq⟩

def JsNum.ble (a b : JsNum) : Bool := decide (a.num * b.den ≤ b.num * a.den)

def JsNum.blt (a b : JsNum) : Bool := decide (a.num * b.den < b.num * a.den)

/-- `Math.floor`. -/
def JsNum.floor (a : JsNum) : Int := a.num.fdiv a.den

/-- `Math.min` (total here: the modelled numbers carry no `NaN`). -/
def JsNum.minOp (a b : JsNum) : JsNum := if a.ble b then a else b

/-- `Math.max`. -/
def JsNum.maxOp (a b : JsNum) : JsNum := if a.ble b then b else a

/-- The value as a `Rat`, used only in proofs. -/
def JsNum.toRat (a : JsNum) : Rat := Rat.divInt a.num a.den

/-- Decimal rendering of a number, as `String(n)` produces for the
integral values that occur as keys in practice; the JavaScript
shortest-round-trip decimal formatting of non-integral doubles is
abstracted to a `num/den` rendering. -/
def jsNumToString (a : JsNum) : String :=
  if a.num % a.den = 0 then toString (a.num / a.den)
  else toString a.num ++ "/" ++ toString a.den

/-! ## Values -/

/-- A JavaScript value as seen by the query engine: the six JSON value
kinds plus `undef`, the `undefined` value, which never occurs inside a
materialized document but arises from `getValueAtPath` misses and from
`select` projections.  Objects are association lists in key insertion
order with unique keys (the shape `JSON.parse` produces). -/
inductive JsonValue where
  | null
  | undef
  | bool (b : Bool)
  | num (q : JsNum)
  | str (s : String)
  | arr (elems : List JsonValue)
  | obj (fields : List (String × JsonValue))
deriving Repr, Inhabited

mutual

/-- JavaScript `String(v)` on engine values. -/
def jsToString : JsonValue → String
  | .null => "null"
  | .undef => "undefined"
  | .bool b => if b then "true" else "false"
  | .num q => jsNumToString q
  | .str s => s
  | .arr l => String.intercalate "," (jsArrayElemStrings l)
  | .obj _ => "[object Object]"

/-- Array elements joined by `,`: `null`/`undefined` render empty
inside `Array.prototype.toString`. -/
def jsArrayElemStrings : List JsonValue → List String
  | [] => []
  | v :: rest =>
    (match v with
      | .null => ""
      | .undef => ""
      | w => jsToString w) :: jsArrayElemStrings rest

end

/-- JavaScript strict equality `===` on the values compared by the
filter engine.  Objects and arrays compare by reference; a filter
literal is a freshly parsed primitive, never reference-equal to a
streamed value, so those cases are `false`. -/
def jsStrictEq : JsonValue → JsonValue → Bool
  | .null, .null => true
  | .undef, .undef => true
  | .bool a, .bool b => a == b
  | .num a, .num b => a.beq b
  | .str a, .str b => a == b
  | _, _ => false

/-! ## Character and string helpers (kernel-computable replacements
for the runtime's string methods) -/

def isWsChar (c : Char) : Bool := c.isWhitespace

/-- `String.prototype.trim`. -/
def trimChars (cs : List Char) : List Char :=
  ((cs.dropWhile isWsChar).reverse.dropWhile isWsChar).reverse

def trimString (s : String) : String := String.mk (trimChars s.toList)

/-- `String.prototype.split` with a single-character separator. -/
def splitOnChar (sep : Char) : List Char → List (List Char)
  | [] => [[]]
  | c :: rest =>
    let r := splitOnChar sep rest
    if c = sep then [] :: r
    else
      match r with
      | h :: t => (c :: h) :: t
      | [] => [[c]]

def strStartsWith (s pat : String) : Bool := pat.toList.isPrefixOf s.toList

def strEndsWith (s pat : String) : Bool := pat.toList.isSuffixOf s.toList

/-- `String.prototype.includes`: `pat` occurs contiguously in `a`. -/
def containsSub (a pat : List Char) : Bool :=
  (List.range (a.length + 1)).any fun p => pat.isPrefixOf (a.drop p)

def toLowerList (l : List Char) : List Char := l.map Char.toLower

def natOfDigits (l : List Char) : Nat :=
  l.foldl (fun a c => a * 10 + (c.toNat - 48)) 0

/-- Leftmost occurrence position of `pat` in `s`. -/
def findSubIndex (s pat : List Char) : Option Nat :=
  (List.range (s.length + 1)).find? fun p => pat.isPrefixOf (s.drop p)

/-- `String.prototype.replace` with a plain-string pattern and empty
replacement: removes the first occurrence only. -/
def replaceFirst (s pat : String) : String :=
  match findSubIndex s.toList pat.toList with
  | some p => String.mk (s.toList.take p ++ s.toList.drop (p + pat.toList.length))
  | none => s

/-! ## Path expression evaluator (src/unnamed/part_003, `parsePath`,
`getValuesAtPath`, `getValueAtPath`) -/

inductive PathSegment where
  | key (k : String)
  | wildcard
  | index (i : Nat)
deriving Repr, DecidableEq

/-- A character usable inside a named-key segment: `[^.\[\]]`. -/
def isKeyChar (ch : Char) : Bool := ch ≠ '.' && ch ≠ '[' && ch ≠ ']'

/-- Tokenizer behind `parsePath`: successive leftmost matches of the
regex `([^.\[\]]+)|\[(\*|\d+)\]`, characters that start no match being
skipped.  The fuel argument (one unit per input character, each step
consuming at least one) keeps the recursion structural. -/
def parsePathCharsF : Nat → List Char → List PathSegment
  | 0, _ => []
  | _ + 1, [] => []
  | fuel + 1, c :: rest =>
    if c = '.' ∨ c = ']' then parsePathCharsF fuel rest
    else if c = '[' then
      if rest.take 2 = ['*', ']'] then .wildcard :: parsePathCharsF fuel (rest.drop 2)
      else if (rest.takeWhile Char.isDigit) ≠ [] ∧
          (rest.drop (rest.takeWhile Char.isDigit).length).head? = some ']' then
        .index (natOfDigits (rest.takeWhile Char.isDigit)) ::
          parsePathCharsF fuel (rest.drop ((rest.takeWhile Char.isDigit).length + 1))
      else
        parsePathCharsF fuel rest
    else
      .key (String.mk (c :: rest.takeWhile isKeyChar)) ::
        parsePathCharsF fuel (rest.drop (rest.takeWhile isKeyChar).length)

def parsePath (path : String) : List PathSegment :=
  parsePathCharsF path.toList.length path.toList

/-- First binding for `k` (JSON objects carry unique keys). -/
def lookupField (fields : List (String × JsonValue)) (k : String) : Option JsonValue :=
  match fields.find? fun f => f.1 == k with
  | some f => some f.2
  | none => none

/-- `k` names an own array slot (`"0"`, `"1"`, ... canonical) or
`length`; prototype-chain properties are outside the JSON data
model. -/
def arrayKeySelect (l : List JsonValue) (k : String) : List JsonValue :=
  if k = "length" then [.num (JsNum.ofNat l.length)]
  else if k.toList ≠ [] ∧ k.toList.all Char.isDigit then
    let i := natOfDigits k.toList
    if h : i < l.length ∧ toString i = k then [l.get ⟨i, h.1⟩] else []
  else []

def stepSegment (seg : PathSegment) (item : JsonValue) : List JsonValue :=
  match seg, item with
  | _, .null => []
  | _, .undef => []
  | .key k, .obj fields =>
    (match lookupField fields k with
      | some v => [v]
      | none => [])
  | .key k, .arr l => arrayKeySelect l k
  | .key _, _ => []
  | .wildcard, .arr l => l
  | .wildcard, .obj fields => fields.map (·.2)
  | .wildcard, _ => []
  | .index i, .arr l => if h : i < l.length then [l.get ⟨i, h⟩] else []
  | .index _, _ => []

/-- `getValuesAtPath`: breadth-first evaluation of the parsed path
(the source's early `break` on an empty candidate list is an
optimization with the same value). -/
def getValuesAtPath (obj : JsonValue) (path : String) : List JsonValue :=
  (parsePath path).foldl (fun current seg => current.flatMap (stepSegment seg)) [obj]

/-- `getValueAtPath`: first match or `undefined`. -/
def getValueAtPath (obj : JsonValue) (path : String) : JsonValue :=
  match getValuesAtPath obj path with
  | [] => .undef
  | v :: _ => v

/-! ## Filter predicate engine (src/unnamed/part_002 `parseFilter`,
`parseDate`, `compareValues`, `matchesFilter`; identical copies live in
src/unnamed/part_003 for the query engine) -/

inductive Op where
  | eq | ne | gt | lt | ge | le
  | contains | startsWith | endsWith | existsOp
deriving Repr, DecidableEq

structure FilterCondition where
  path : String
  operator : Op
  value : JsonValue
deriving Repr

/-- `Number(s)` on an already-trimmed string, restricted to the
decimal grammar (hex/octal/binary literals and `Infinity` are outside
the inputs considered; they would parse in JavaScript). `none` models
`NaN`. -/
def jsNumberParse (s : String) : Option JsNum :=
  let cs := s.toList
  if cs.isEmpty then some 0
  else
    let neg : Bool := cs.head? = some '-'
    let cs1 := match cs with
      | '-' :: r => r
      | '+' :: r => r
      | _ => cs
    let intDigits := cs1.takeWhile Char.isDigit
    let cs2 := cs1.drop intDigits.length
    let fracDigits := match cs2 with
      | '.' :: r => r.takeWhile Char.isDigit
      | _ => []
    let cs3 := match cs2 with
      | '.' :: r => r.drop fracDigits.length
      | _ => cs2
    if intDigits.isEmpty ∧ fracDigits.isEmpty then none
    else
      let mantissa : JsNum :=
        ⟨(natOfDigits intDigits : Int) * (10 : Int) ^ fracDigits.length
            + (natOfDigits fracDigits : Int),
          10 ^ fracDigits.length - 1⟩
      let signed : JsNum := if neg then -mantissa else mantissa
      match cs3 with
      | [] => some signed
      | e :: r =>
        if e = 'e' ∨ e = 'E' then
          let eneg : Bool := r.head? = some '-'
          let r1 := match r with
            | '-' :: rr => rr
            | '+' :: rr => rr
            | _ => r
          let eDigits := r1.takeWhile Char.isDigit
          if eDigits.isEmpty ∨ r1.drop eDigits.length ≠ [] then none
          else if eneg then some (signed / ⟨(10 : Int) ^ natOfDigits eDigits, 0⟩)
          else some (signed * ⟨(10 : Int) ^ natOfDigits eDigits, 0⟩)
        else none

/-- Literal coercion applied to the matched right-hand side: quoted →
string, `true`/`false`/`null` keywords, numeric-parseable → number,
else the raw string. -/
def coerceLiteral (valueStr : String) : JsonValue :=
  let cs := valueStr.toList
  if cs ≠ [] ∧ cs.head? = some '"' ∧ cs.getLast? = some '"' then
    .str (String.mk ((cs.drop 1).dropLast))
  else if valueStr = "true" then .bool true
  else if valueStr = "false" then .bool false
  else if valueStr = "null" then .null
  else
    match jsNumberParse valueStr with
    | some q => .num q
    | none => .str valueStr

/-- Position of the leftmost occurrence of `o` in `s` usable by the
pattern `^(.+?)\s*o\s*(.+)$`: at least one character before it and at
least one after it. -/
def findSymOpIndex (s o : List Char) : Option Nat :=
  (List.range' 1 s.length).find? fun p =>
    (o.isPrefixOf (s.drop p)) && decide (p + o.length + 1 ≤ s.length)

/-- Position of the leftmost occurrence of the word `w`
(case-insensitive) usable by `^(.+?)\s+w\s+(.+)$`: whitespace directly
before and after the word, at least one character before the leading
whitespace and one after the trailing whitespace. -/
def findWordOpIndex (s w : List Char) : Option Nat :=
  (List.range' 2 s.length).find? fun p =>
    ((toLowerList w).isPrefixOf (toLowerList (s.drop p)))
      && (match s.get? (p - 1) with | some c => c.isWhitespace | none => false)
      && (match s.get? (p + w.length) with | some c => c.isWhitespace | none => false)
      && decide (p + w.length + 2 ≤ s.length)

def mkSymCondition (cs : List Char) (o : String) (op : Op) (p : Nat) : FilterCondition :=
  { path := trimString (String.mk (cs.take p))
    operator := op
    value := coerceLiteral (trimString (String.mk (cs.drop (p + o.length)))) }

def trySymOp (cs : List Char) (o : String) (op : Op) : Option FilterCondition :=
  (findSymOpIndex cs o.toList).map (mkSymCondition cs o op)

def tryWordOp (cs : List Char) (w : String) (op : Op) : Option FilterCondition :=
  (findWordOpIndex cs w.toList).map fun p =>
    { path := trimString (String.mk (cs.take p))
      operator := op
      value := coerceLiteral (trimString (String.mk (cs.drop (p + w.length)))) }

/-- `^(.+?)\s+exists$` (case-insensitive); the placeholder literal
`'true'` coerces to the boolean `true`. -/
def tryExistsOp (cs : List Char) : Option FilterCondition :=
  let w := "exists".toList
  if w.length + 2 ≤ cs.length then
    let p := cs.length - w.length
    if (toLowerList (cs.drop p) == toLowerList w)
        && (match cs.get? (p - 1) with | some c => c.isWhitespace | none => false) then
      some { path := trimString (String.mk (cs.take p)), operator := .existsOp, value := .bool true }
    else none
  else none

/-- `parseFilter`: the operator patterns are tried in the source's
fixed order; no pattern matching yields `none` ("no condition"). -/
def parseFilter (filter : String) : Option FilterCondition :=
  let cs := filter.toList
  (trySymOp cs ">=" .ge) <|> (trySymOp cs "<=" .le) <|> (trySymOp cs "!=" .ne) <|>
  (trySymOp cs "=" .eq) <|> (trySymOp cs ">" .gt) <|> (trySymOp cs "<" .lt) <|>
  (tryWordOp cs "contains" .contains) <|> (tryWordOp cs "startsWith" .startsWith) <|>
  (tryWordOp cs "endsWith" .endsWith) <|> (tryExistsOp cs)

/-- Largest epoch offset (in ms) representable by a JavaScript `Date`;
`new Date(n)` is an invalid date beyond it. -/
def maxDateMs : JsNum := ⟨8640000000000000, 0⟩

/-- `TimeClip`'s integer conversion: an in-range time value is put
through `ToIntegerOrInfinity`, truncating fractional milliseconds
toward zero (`new Date(1.5).getTime() = 1`,
`new Date(-1.5).getTime() = -1`). -/
def timeClipTrunc (n : JsNum) : JsNum := ⟨n.num.tdiv n.den, 0⟩

/-- `parseDate`: `some t` is a `Date` object with time value `t`
(`none` inside means an invalid date, whose `getTime()` is `NaN`);
the outer `none` is the `null` return.  A numeric argument goes
through `TimeClip`: out-of-range values give an invalid date, the
rest are truncated to integer milliseconds.  `dp` abstracts the
runtime's string date parser, returning the time value of strings it
accepts. -/
def parseDate (dp : String → Option JsNum) : JsonValue → Option (Option JsNum)
  | .str s =>
    (match dp s with
      | some t => some (some t)
      | none => none)
  | .num n =>
    some (if ((-maxDateMs).ble n && n.ble maxDateMs) then some (timeClipTrunc n) else none)
  | _ => none

def ordEval (op : Op) (a b : JsNum) : Bool :=
  match op with
  | .gt => b.blt a
  | .lt => a.blt b
  | .ge => b.ble a
  | .le => a.ble b
  | _ => false

def isOrdering (op : Op) : Bool :=
  match op with
  | .gt => true | .lt => true | .ge => true | .le => true
  | _ => false

/-- `v !== undefined && v !== null`. -/
def isNotNullish : JsonValue → Bool
  | .undef => false
  | .null => false
  | _ => true

/-- Ordering branch of `compareValues`: date interpretation first
(numbers as epoch values, strings through the date parser), then a
numeric fallback.  A comparison against an invalid date's `NaN` time
is `false`. -/
def compareOrdering (dp : String → Option JsNum) (actual : JsonValue) (op : Op)
    (expected : JsonValue) : Bool :=
  match parseDate dp actual, parseDate dp expected with
  | some ta, some te =>
    (match ta, te with
      | some x, some y => ordEval op x y
      | _, _ => false)
  | _, _ =>
    match actual, expected with
    | .num a, .num b => ordEval op a b
    | _, _ => false

/-- `compareValues` (the filter/query variant with date support). -/
def compareValues (dp : String → Option JsNum) (actual : JsonValue) (op : Op)
    (expected : JsonValue) : Bool :=
  match op with
  | .eq => jsStrictEq actual expected
  | .ne => !(jsStrictEq actual expected)
  | .existsOp => isNotNullish actual
  | .contains =>
    (match actual, expected with
      | .str a, .str e => containsSub a.toList e.toList
      | _, _ =>
        match actual with
        | .arr l => l.any fun v => jsStrictEq v expected
        | _ => false)
  | .startsWith =>
    (match actual, expected with
      | .str a, .str e => strStartsWith a e
      | _, _ => false)
  | .endsWith =>
    (match actual, expected with
      | .str a, .str e => strEndsWith a e
      | _, _ => false)
  | .gt => compareOrdering dp actual op expected
  | .lt => compareOrdering dp actual op expected
  | .ge => compareOrdering dp actual op expected
  | .le => compareOrdering dp actual op expected

/-- `matchesFilter`: any-match semantics over the wildcard-expanded
values at the condition's path. -/
def matchesFilter (dp : String → Option JsNum) (obj : JsonValue)
    (condition : FilterCondition) : Bool :=
  let values := getValuesAtPath obj condition.path
  if condition.operator == .existsOp then
    decide (values.length > 0) && values.any isNotNullish
  else
    values.any fun v => compareValues dp v condition.operator condition.value

/-! ## Query/aggregate engine (src/unnamed/part_002 `count`, `groupBy`,
`stats`, `distribution`; src/unnamed/part_003 `executeQuery`,
`extractFields`).  A file is modelled by the list of elements its
`entities` array yields in document order. -/

/-- `if (filter) filterCondition = parseFilter(filter)`: an absent or
empty (falsy) filter string yields no condition. -/
def filterCondOf (filter : Option String) : Option FilterCondition :=
  match filter with
  | none => none
  | some f => if f = "" then none else parseFilter f

/-- An element passes when there is no condition or the condition
matches (`if (filterCondition && !matchesFilter(value, filterCondition)) continue`). -/
def passesCond (dp : String → Option JsNum) (cond : Option FilterCondition)
    (v : JsonValue) : Bool :=
  match cond with
  | none => true
  | some c => matchesFilter dp v c

structure CountResult where
  total : Nat
  scanned : Nat
deriving Repr, DecidableEq

/-- `count`. -/
def count (dp : String → Option JsNum) (elems : List JsonValue)
    (filter : Option String) : CountResult :=
  let cond := filterCondOf filter
  elems.foldl
    (fun acc v =>
      if passesCond dp cond v then { total := acc.total + 1, scanned := acc.scanned + 1 }
      else { total := acc.total, scanned := acc.scanned + 1 })
    { total := 0, scanned := 0 }

/-- A value held in the `groups` record.  Counts are numbers; strings
arise when a group key collides with something inherited from
`Object.prototype`, whose truthy value turns `(groups[key] || 0) + 1`
into string concatenation. -/
inductive GroupVal where
  | num (n : Nat)
  | str (s : String)
deriving Repr, DecidableEq

structure GroupByResult where
  groups : List (String × GroupVal)
  total : Nat
  uniqueValues : Nat
  scanned : Nat
deriving Repr, DecidableEq

/-- The own property names of `Object.prototype` (the `__proto__`
accessor is handled separately). -/
def objectProtoMembers : List String :=
  ["constructor", "hasOwnProperty", "isPrototypeOf", "propertyIsEnumerable",
   "toLocaleString", "toString", "valueOf",
   "__defineGetter__", "__defineSetter__", "__lookupGetter__", "__lookupSetter__"]

/-- `String(fn)` for the native `Object.prototype` methods, as the
Node runtime prints them. -/
def nativeFnString (m : String) : String := "function " ++ m ++ "() { [native code] }"

/-- Own-property read on the `groups` record. -/
def lookupGroup : List (String × GroupVal) → String → Option GroupVal
  | [], _ => none
  | (k', v) :: rest, k => if k' = k then some v else lookupGroup rest k

/-- Own-property assignment on the `groups` record: overwrite in
place or append (object key insertion order). -/
def setGroup : List (String × GroupVal) → String → GroupVal → List (String × GroupVal)
  | [], k, v => [(k, v)]
  | (k', v') :: rest, k, v =>
    if k' = k then (k, v) :: rest else (k', v') :: setGroup rest k v

/-- `(v || 0) + 1` on an own value: a positive count increments, zero
and the empty string are falsy and restart at 1, a non-empty string
concatenates the `1`. -/
def bumpVal : GroupVal → GroupVal
  | .num n => if n = 0 then .num 1 else .num (n + 1)
  | .str s => if s = "" then .num 1 else .str (s ++ "1")

/-- `groups[key] = (groups[key] || 0) + 1` on the plain object
`groups`: the read falls through to `Object.prototype` when no own
property exists (the `__proto__` accessor yields a truthy object,
method names yield truthy functions, anything else `undefined`), and
the write at `"__proto__"` hits the inherited setter, which swallows
the non-object value and creates no own property. -/
def bumpGroup (groups : List (String × GroupVal)) (key : String) :
    List (String × GroupVal) :=
  let newVal : GroupVal :=
    match lookupGroup groups key with
    | some v => bumpVal v
    | none =>
      if key = "__proto__" then .str "[object Object]1"
      else if objectProtoMembers.contains key then .str (nativeFnString key ++ "1")
      else .num 1
  if key = "__proto__" then groups else setGroup groups key newVal

/-- `v === null ? 'null' : v === undefined ? 'undefined' : String(v)`. -/
def groupKeyOf : JsonValue → String
  | .null => "null"
  | .undef => "undefined"
  | v => jsToString v

structure GroupState where
  groups : List (String × GroupVal)
  total : Nat
  scanned : Nat

def groupStep (dp : String → Option JsNum) (cond : Option FilterCondition)
    (path : String) (st : GroupState) (v : JsonValue) : GroupState :=
  let st := { st with scanned := st.scanned + 1 }
  if !passesCond dp cond v then st
  else
    (getValuesAtPath v path).foldl
      (fun s w => { s with groups := bumpGroup s.groups (groupKeyOf w), total := s.total + 1 })
      st

/-- `groupBy`. -/
def groupBy (dp : String → Option JsNum) (elems : List JsonValue)
    (path : String) (filter : Option String) : GroupByResult :=
  let cond := filterCondOf filter
  let st := elems.foldl (groupStep dp cond path) ⟨[], 0, 0⟩
  { groups := st.groups, total := st.total,
    uniqueValues := st.groups.length, scanned := st.scanned }

structure StatsResult where
  count : Nat
  sum : JsNum
  avg : JsNum
  min : JsNum
  max : JsNum
  scanned : Nat
deriving Repr, DecidableEq

/-- `typeof v === 'number' && !isNaN(v)`; the modelled values carry
only finite numbers. -/
def toFiniteNumber : JsonValue → Option JsNum
  | .num q => some q
  | _ => none

/-- Accumulator of the stats loop; the source's `min = Infinity` /
`max = -Infinity` starting sentinels are modelled by `none`. -/
structure StatsState where
  count : Nat
  sum : JsNum
  min : Option JsNum
  max : Option JsNum
  scanned : Nat

def statsValStep (s : StatsState) (q : JsNum) : StatsState :=
  { s with
    count := s.count + 1
    sum := s.sum + q
    min := some (match s.min with | none => q | some m => m.minOp q)
    max := some (match s.max with | none => q | some m => m.maxOp q) }

def statsStep (dp : String → Option JsNum) (cond : Option FilterCondition)
    (path : String) (s : StatsState) (v : JsonValue) : StatsState :=
  let s := { s with scanned := s.scanned + 1 }
  if !passesCond dp cond v then s
  else ((getValuesAtPath v path).filterMap toFiniteNumber).foldl statsValStep s

/-- `stats`: `avg = sum/count` (0 when empty), `min`/`max` report 0
when no numeric value was seen. -/
def stats (dp : String → Option JsNum) (elems : List JsonValue)
    (path : String) (filter : Option String) : StatsResult :=
  let cond := filterCondOf filter
  let s := elems.foldl (statsStep dp cond path) ⟨0, 0, none, none, 0⟩
  { count := s.count, sum := s.sum,
    avg := if s.count > 0 then s.sum / JsNum.ofNat s.count else 0,
    min := if s.count > 0 then s.min.getD 0 else 0,
    max := if s.count > 0 then s.max.getD 0 else 0,
    scanned := s.scanned }

structure DistributionBucket where
  range : String
  count : Nat
  percentage : JsNum
deriving Repr, DecidableEq

structure DistributionResult where
  buckets : List DistributionBucket
  total : Nat
  scanned : Nat
deriving Repr, DecidableEq

/-- `Number.prototype.toFixed(1)` on the bucket boundaries (decimal
rendering with one digit, ties away from zero). -/
def jsNumToFixed1 (q : JsNum) : String :=
  let half : JsNum := ⟨1, 1⟩
  let n : Int :=
    if (0 : JsNum).ble q then (q * 10 + half).floor
    else -((-q) * 10 + half).floor
  let sgn := if n < 0 then "-" else ""
  sgn ++ toString (n.natAbs / 10) ++ "." ++ toString (n.natAbs % 10)

/-- `Math.min(Math.floor((v - min) / bucketSize), bucketCount - 1)` as
an integer (it is negative only for values below `min`, which the
second pass never produces). -/
def bucketIndexOf (minV bucketSize : JsNum) (bucketCount : Nat) (v : JsNum) : Int :=
  Min.min ((v - minV) / bucketSize).floor ((bucketCount : Int) - 1)

structure DistState where
  counts : List Nat
  total : Nat
  scanned : Nat

/-- `counts[bucketIndex]++; total++`.  A write at an index outside the
array (impossible in the second pass) would create an extra property
that the final `counts.map` never visits, so it is modelled as leaving
`counts` unchanged. -/
def distValStep (minV bucketSize : JsNum) (bucketCount : Nat)
    (st : DistState) (q : JsNum) : DistState :=
  let idx := bucketIndexOf minV bucketSize bucketCount q
  let counts :=
    if 0 ≤ idx ∧ idx.toNat < st.counts.length then
      st.counts.set idx.toNat (st.counts.getD idx.toNat 0 + 1)
    else st.counts
  { st with counts := counts, total := st.total + 1 }

def distStep (dp : String → Option JsNum) (cond : Option FilterCondition)
    (path : String) (minV bucketSize : JsNum) (bucketCount : Nat)
    (st : DistState) (v : JsonValue) : DistState :=
  let st := { st with scanned := st.scanned + 1 }
  if !passesCond dp cond v then st
  else
    ((getValuesAtPath v path).filterMap toFiniteNumber).foldl
      (distValStep minV bucketSize bucketCount) st

/-- `distribution`: a `stats` pass for the range, then a second full
pass into `bucketCount` buckets.  `(max - min) / bucketCount || 1` is
modelled by the test against 0, the value the degenerate divisions
produce here (in JavaScript a zero `bucketCount` would instead give an
infinite or `NaN` bucket size; the observable result — an out-of-range
bucket index whose write never shows up in the reported buckets — is
the same). -/
def distribution (dp : String → Option JsNum) (elems : List JsonValue)
    (path : String) (filter : Option String) (bucketCount : Nat) :
    DistributionResult :=
  let statsResult := stats dp elems path filter
  if statsResult.count = 0 then
    { buckets := [], total := 0, scanned := statsResult.scanned }
  else
    let cond := filterCondOf filter
    let minV := statsResult.min
    let maxV := statsResult.max
    let bucketSize :=
      if ((maxV - minV) / JsNum.ofNat bucketCount).beq 0 then 1
      else (maxV - minV) / JsNum.ofNat bucketCount
    let st := elems.foldl (distStep dp cond path minV bucketSize bucketCount)
      ⟨List.replicate bucketCount 0, 0, 0⟩
    let buckets := st.counts.enum.map fun ic =>
      { range := jsNumToFixed1 (minV + JsNum.ofNat ic.1 * bucketSize) ++ "-"
          ++ jsNumToFixed1 (minV + (JsNum.ofNat ic.1 + 1) * bucketSize)
        count := ic.2
        percentage :=
          if st.total > 0 then (JsNum.ofNat ic.2 / JsNum.ofNat st.total) * 100 else 0 }
    { buckets := buckets, total := st.total, scanned := st.scanned }

/-! ## executeQuery and field selection (src/unnamed/part_003) -/

/-- `field.split('.').pop() || field`. -/
def fieldNameOf (field : String) : String :=
  match (splitOnChar '.' field.toList).getLast? with
  | some last => if last = [] then field else String.mk last
  | none => field

/-- `result[fieldName] = ...`: object assignment overwrites an
existing key in place, otherwise appends. -/
def setField : List (String × JsonValue) → String → JsonValue → List (String × JsonValue)
  | [], k, v => [(k, v)]
  | (k', v') :: rest, k, v =>
    if k' = k then (k, v) :: rest else (k', v') :: setField rest k v

def isArrayValue : JsonValue → Bool
  | .arr _ => true
  | _ => false

def arrayLengthOrZero : JsonValue → JsonValue
  | .arr l => .num (JsNum.ofNat l.length)
  | _ => .num 0

/-- `extractFields`: projects the selected dotted fields, a `.length`
suffix over an array resolving to its length. -/
def extractFields (obj : JsonValue) (select : List String) : JsonValue :=
  .obj (select.foldl
    (fun fields field =>
      let fieldName := fieldNameOf field
      let value := getValueAtPath obj field
      if strEndsWith field ".length"
          && isArrayValue (getValueAtPath obj (replaceFirst field ".length")) then
        setField fields fieldName (arrayLengthOrZero (getValueAtPath obj (replaceFirst field ".length")))
      else setField fields fieldName value)
    [])

/-- `select && select.length > 0 ? extractFields(value, select) : value`:
the value an iteration pushes onto `items`. -/
def projectSelect (select : Option (List String)) (v : JsonValue) : JsonValue :=
  match select with
  | some sel => if sel ≠ [] then extractFields v sel else v
  | none => v

/-- Query options; a `limit` of `none` is the JavaScript `Infinity`
(never reached). -/
structure QueryOptions where
  select : Option (List String)
  filter : Option String
  limit : Option Nat
  offset : Nat

structure QueryResult where
  items : List JsonValue
  totalMatched : Nat
  totalScanned : Nat
deriving Repr

structure QueryState where
  items : List JsonValue
  totalMatched : Nat
  totalScanned : Nat

/-- `items.length >= limit` (`false` against `Infinity`). -/
def limitReached (limit : Option Nat) (len : Nat) : Bool :=
  match limit with
  | none => false
  | some n => decide (n ≤ len)

/-- One loop iteration of `executeQuery`. -/
def queryStep (dp : String → Option JsNum) (cond : Option FilterCondition)
    (select : Option (List String)) (limit : Option Nat) (offset : Nat)
    (st : QueryState) (v : JsonValue) : QueryState :=
  let st := { st with totalScanned := st.totalScanned + 1 }
  if !passesCond dp cond v then st
  else
    let st := { st with totalMatched := st.totalMatched + 1 }
    if st.totalMatched ≤ offset then st
    else if limitReached limit st.items.length then st
    else { st with items := st.items ++ [projectSelect select v] }

/-- `executeQuery`. -/
def executeQuery (dp : String → Option JsNum) (elems : List JsonValue)
    (opts : QueryOptions) : QueryResult :=
  let cond := filterCondOf opts.filter
  let st := elems.foldl (queryStep dp cond opts.select opts.limit opts.offset) ⟨[], 0, 0⟩
  { items := st.items, totalMatched := st.totalMatched, totalScanned := st.totalScanned }

/-! ## Relationship finder
(src/json_genius/src/analyzer, the `relationship-finder` module
imported by src/unnamed/part_003 as `findRelationships`) -/

/-- `ID_FIELD_PATTERNS`: `/Id$/`, `/Ids$/`, `/id$/`, `/ids$/`,
`/entityId/i`, `/^id$/i`. -/
def isIdFieldName (name : String) : Bool :=
  strEndsWith name "Id" || strEndsWith name "Ids"
    || strEndsWith name "id" || strEndsWith name "ids"
    || containsSub (toLowerList name.toList) "entityid".toList
    || toLowerList name.toList == "id".toList

def isAsciiUpper (c : Char) : Bool := 'A' ≤ c && c ≤ 'Z'

def isAsciiLower (c : Char) : Bool := 'a' ≤ c && c ≤ 'z'

def isAsciiLetter (c : Char) : Bool := isAsciiUpper c || isAsciiLower c

def isHexChar (c : Char) : Bool :=
  c.isDigit || ('a' ≤ c && c ≤ 'f') || ('A' ≤ c && c ≤ 'F')

/-- `ENTITY_ID_VALUE_PATTERN = /^[A-Z][a-zA-Z]+:[0-9A-Fa-f]+$/`. -/
def isEntityIdString (s : String) : Bool :=
  match s.toList with
  | [] => false
  | c :: rest =>
    isAsciiUpper c
      && decide (rest.takeWhile isAsciiLetter ≠ [])
      && (match rest.drop (rest.takeWhile isAsciiLetter).length with
        | ':' :: hex => decide (hex ≠ []) && hex.all isHexChar
        | _ => false)

def isEntityIdValue : JsonValue → Bool
  | .str s => isEntityIdString s
  | _ => false

/-- `extractIdValue`: strings and numbers directly, objects through an
own `value` member holding a string or number. -/
def extractIdValue : JsonValue → Option String
  | .str s => some s
  | .num q => some (jsNumToString q)
  | .obj fields =>
    (match lookupField fields "value" with
      | some (.str s) => some s
      | some (.num q) => some (jsNumToString q)
      | _ => none)
  | _ => none

/-- `idFields.get(path)!.add(v)` plus the creation of a fresh set
(insertion-ordered, duplicate-free). -/
def addIdValue : List (String × List String) → String → String → List (String × List String)
  | [], path, v => [(path, [v])]
  | (p, vs) :: rest, path, v =>
    if p = path then (p, if vs.contains v then vs else vs ++ [v]) :: rest
    else (p, vs) :: addIdValue rest path v

/-- `collectIdFields` with its `maxDepth` fuel (20 at every entry
point). -/
def collectIdFields : Nat → JsonValue → String →
    List (String × List String) → List (String × List String)
  | 0, _, _, acc => acc
  | _ + 1, .null, _, acc => acc
  | _ + 1, .undef, _, acc => acc
  | fuel + 1, .arr items, currentPath, acc =>
    items.foldl (fun a item => collectIdFields fuel item (currentPath ++ "[*]") a) acc
  | fuel + 1, .obj fields, currentPath, acc =>
    fields.foldl
      (fun a kv =>
        let newPath := if currentPath = "" then kv.1 else currentPath ++ "." ++ kv.1
        let a :=
          if isIdFieldName kv.1 then
            let a := match extractIdValue kv.2 with
              | some s => addIdValue a newPath s
              | none => a
            match kv.2 with
            | .arr items =>
              items.foldl
                (fun b item =>
                  match extractIdValue item with
                  | some s => addIdValue b (newPath ++ "[*]") s
                  | none => b)
                a
            | _ => a
          else if isEntityIdValue kv.2 then
            match kv.2 with
            | .str s => addIdValue a newPath s
            | _ => a
          else a
        collectIdFields fuel kv.2 newPath a)
      acc
  | _ + 1, _, _, acc => acc

/-- `scanFileForIds`. -/
def scanFileForIds (elems : List JsonValue) : List (String × List String) × Nat :=
  elems.foldl (fun acc v => (collectIdFields 20 v "" acc.1, acc.2 + 1)) ([], 0)

def dedupStrings (l : List String) : List String :=
  l.foldl (fun acc s => if acc.contains s then acc else acc ++ [s]) []

/-- `v.split(':')[0]`. -/
def headBeforeColon (v : String) : String :=
  String.mk ((splitOnChar ':' v.toList).headD [])

/-- `detectValuePattern` over the first 10 set members. -/
def detectValuePattern (values : List String) : Option String :=
  let sample := values.take 10
  if sample.all isEntityIdString then
    let types := dedupStrings (sample.map headBeforeColon)
    if types.length = 1 then some ((types.headD "") ++ ":*")
    else some "EntityId:*"
  else if sample.all (fun v => decide (v.toList.length ≥ 16) && v.toList.all isHexChar) then
    some "hex-id"
  else if sample.all (fun v => decide (v.toList ≠ []) && v.toList.all Char.isDigit) then
    some "numeric-id"
  else none

/-- `inferRelationshipType`. -/
def inferRelationshipType (leftPath rightPath : String)
    (leftCount rightCount : Nat) : String :=
  let leftIsArray := containsSub leftPath.toList "[*]".toList
  let rightIsArray := containsSub rightPath.toList "[*]".toList
  if leftIsArray && !rightIsArray then "one-to-many"
  else if !leftIsArray && rightIsArray then "many-to-one"
  else if leftIsArray && rightIsArray then "many-to-many"
  else if leftCount = rightCount then "one-to-one"
  else "many-to-one"

structure DetectedRelationship where
  leftPath : String
  rightPath : String
  relationshipType : String
  matchedCount : Nat
  totalCount : Nat
  coverage : JsNum
deriving Repr, DecidableEq

structure IdField where
  path : String
  values : List String
  valuePattern : Option String
deriving Repr, DecidableEq

/-- `RelationshipResult` (the echoed file paths are identified with
the element lists in this model and omitted). -/
structure RelationshipResult where
  relationships : List DetectedRelationship
  leftIdFields : List IdField
  rightIdFields : List IdField
  scannedLeft : Nat
  scannedRight : Nat
deriving Repr

/-- The candidate pair loop of `findRelationships`. -/
def relationshipsOf (leftIdFields rightIdFields : List (String × List String))
    (minCoverage : JsNum) : List DetectedRelationship :=
  leftIdFields.foldl
    (fun acc lf =>
      rightIdFields.foldl
        (fun acc2 rf =>
          let matchedCount : Nat := (lf.2.filter fun v => rf.2.contains v).length
          if matchedCount = 0 then acc2
          else
            let coverage : JsNum :=
              (JsNum.ofNat matchedCount / JsNum.ofNat lf.2.length) * 100
            if minCoverage.ble coverage then
              acc2 ++ [{ leftPath := lf.1, rightPath := rf.1
                         relationshipType :=
                           inferRelationshipType lf.1 rf.1 lf.2.length rf.2.length
                         matchedCount := matchedCount
                         totalCount := lf.2.length
                         coverage := coverage }]
            else acc2)
        acc)
    []

/-- Stable insertion of `x` behind every element strictly preferred to
it by the comparator `le` ("`a` sorts no later than `b`"). -/
def insertStable (le : α → α → Bool) (x : α) : List α → List α
  | [] => [x]
  | y :: rest =>
    if le y x && !(le x y) then y :: insertStable le x rest
    else x :: y :: rest

/-- The stable sort `Array.prototype.sort` performs, for a total
comparator: every stable sort of a list under a total preorder is the
same list, so a structural insertion sort models it exactly. -/
def stableSortBy (le : α → α → Bool) (l : List α) : List α :=
  l.foldr (insertStable le) []

/-- The descending-coverage comparator `(a, b) => b.coverage - a.coverage`. -/
def coverageDescLe (a b : DetectedRelationship) : Bool := b.coverage.ble a.coverage

/-- `findRelationships`. -/
def findRelationships (leftElems rightElems : List JsonValue)
    (minCoverage : JsNum) (verbose : Bool) : RelationshipResult :=
  let l := scanFileForIds leftElems
  let r := scanFileForIds rightElems
  let relationships := stableSortBy coverageDescLe (relationshipsOf l.1 r.1 minCoverage)
  let leftIdFieldsResult := l.1.map fun pv =>
    ({ path := pv.1, values := pv.2, valuePattern := detectValuePattern pv.2 } : IdField)
  let rightIdFieldsResult := r.1.map fun pv =>
    ({ path := pv.1, values := pv.2, valuePattern := detectValuePattern pv.2 } : IdField)
  { relationships := relationships
    leftIdFields :=
      if verbose then leftIdFieldsResult
      else leftIdFieldsResult.filter fun f =>
        relationships.any fun rel => rel.leftPath == f.path
    rightIdFields :=
      if verbose then rightIdFieldsResult
      else rightIdFieldsResult.filter fun f =>
        relationships.any fun rel => rel.rightPath == f.path
    scannedLeft := l.2
    scannedRight := r.2 }

/-! ## Join engine (src/unnamed/part_003 `parseJoinFilter`,
`compareValues` join variant, `matchesJoinFilter`,
`extractJoinFields`, `buildRightIndex`, `executeJoin`) -/

inductive JoinSide where
  | a
  | b
deriving Repr, DecidableEq

structure JoinFilterCondition where
  path : String
  operator : Op
  value : JsonValue
  side : Option JoinSide
deriving Repr

/-- The `a.`/`b.` prefix stripping at the head of `parseJoinFilter`'s
match handling. -/
def stripSide (pathStr : String) : Option JoinSide × String :=
  if strStartsWith pathStr "a." then (some .a, String.mk (pathStr.toList.drop 2))
  else if strStartsWith pathStr "b." then (some .b, String.mk (pathStr.toList.drop 2))
  else (none, pathStr)

/-- `parseJoinFilter`: the same operator patterns and literal coercion
as `parseFilter`, plus side-prefix stripping on the path. -/
def parseJoinFilter (filter : String) : Option JoinFilterCondition :=
  (parseFilter filter).map fun c =>
    let s := stripSide c.path
    { path := s.2, operator := c.operator, value := c.value, side := s.1 }

/-- The join engine's `compareValues`: identical to the query
engine's except that the ordering operators compare numbers only (no
date interpretation). -/
def compareValuesJoin (actual : JsonValue) (op : Op) (expected : JsonValue) : Bool :=
  match op with
  | .eq => jsStrictEq actual expected
  | .ne => !(jsStrictEq actual expected)
  | .existsOp => isNotNullish actual
  | .contains =>
    (match actual, expected with
      | .str a, .str e => containsSub a.toList e.toList
      | _, _ =>
        match actual with
        | .arr l => l.any fun v => jsStrictEq v expected
        | _ => false)
  | .startsWith =>
    (match actual, expected with
      | .str a, .str e => strStartsWith a e
      | _, _ => false)
  | .endsWith =>
    (match actual, expected with
      | .str a, .str e => strEndsWith a e
      | _, _ => false)
  | _ =>
    match actual, expected with
    | .num a, .num b => ordEval op a b
    | _, _ => false

/-- The shared tail of `matchesJoinFilter`: any-match over a value
list. -/
def joinValuesMatch (values : List JsonValue) (condition : JoinFilterCondition) : Bool :=
  if condition.operator == .existsOp then
    decide (values.length > 0) && values.any isNotNullish
  else
    values.any fun v => compareValuesJoin v condition.operator condition.value

/-- `matchesJoinFilter`: side `a` evaluates the left input, side `b`
the right input, and no side concatenates the values of both. -/
def matchesJoinFilter (left right : JsonValue) (condition : JoinFilterCondition) : Bool :=
  match condition.side with
  | some .a => joinValuesMatch (getValuesAtPath left condition.path) condition
  | some .b => joinValuesMatch (getValuesAtPath right condition.path) condition
  | none =>
    joinValuesMatch
      (getValuesAtPath left condition.path ++ getValuesAtPath right condition.path)
      condition

/-- `extractJoinFields`. -/
def extractJoinFields (left right : JsonValue) (select : List String) : JsonValue :=
  .obj (select.foldl
    (fun fields field =>
      let s := stripSide field
      let pathStr := s.2
      let fieldName := fieldNameOf pathStr
      let targetObj := match s.1 with
        | some .a => left
        | some .b => right
        | none => left
      if strEndsWith pathStr ".length" then
        setField fields fieldName
          (arrayLengthOrZero (getValueAtPath targetObj (replaceFirst pathStr ".length")))
      else
        setField fields fieldName (getValueAtPath targetObj pathStr))
    [])

/-- `index.get(key)!.push(value)` plus creation of a fresh entry. -/
def indexInsert : List (String × List JsonValue) → String → JsonValue →
    List (String × List JsonValue)
  | [], key, v => [(key, [v])]
  | (k, l) :: rest, key, v =>
    if k = key then (k, l ++ [v]) :: rest else (k, l) :: indexInsert rest key v

/-- `rightIndex.get(keyStr) ?? []`. -/
def indexLookup (index : List (String × List JsonValue)) (k : String) : List JsonValue :=
  match index.find? fun e => e.1 == k with
  | some e => e.2
  | none => []

/-- One element of the `buildRightIndex` loop. -/
def buildRightIndexStep (keyPath : String)
    (acc : List (String × List JsonValue) × Nat) (v : JsonValue) :
    List (String × List JsonValue) × Nat :=
  let keyValue := getValueAtPath v keyPath
  if isNotNullish keyValue then (indexInsert acc.1 (jsToString keyValue) v, acc.2 + 1)
  else (acc.1, acc.2 + 1)

/-- `buildRightIndex`: each right element is indexed under the
stringified first value of its key path (skipped when that value is
null or undefined); returns the index and the scanned count. -/
def buildRightIndex (elems : List JsonValue) (keyPath : String) :
    List (String × List JsonValue) × Nat :=
  elems.foldl (buildRightIndexStep keyPath) ([], 0)

structure JoinKeys where
  leftKey : String
  rightKey : String
  autoDetected : Bool
deriving Repr, DecidableEq

structure JoinResult where
  items : List JsonValue
  totalMatched : Nat
  leftScanned : Nat
  rightScanned : Nat
  joinKeys : JoinKeys
deriving Repr

structure JoinOptions where
  leftKey : Option String
  rightKey : Option String
  select : Option (List String)
  filter : Option String
  limit : Nat

/-- `!leftKey`: the option is absent or the string empty (falsy). -/
def isFalsyKey : Option String → Bool
  | none => true
  | some s => s = ""

/-- Innermost loop of `executeJoin`: one right match. -/
def joinRightStep (filterCondition : Option JoinFilterCondition)
    (select : Option (List String)) (limit : Nat) (leftEntity : JsonValue)
    (st : List JsonValue × Nat) (rightEntity : JsonValue) : List JsonValue × Nat :=
  if (match filterCondition with
      | some c => !matchesJoinFilter leftEntity rightEntity c
      | none => false) then st
  else
    let totalMatched := st.2 + 1
    if limit ≤ st.1.length then (st.1, totalMatched)
    else
      match select with
      | some sel =>
        if sel ≠ [] then (st.1 ++ [extractJoinFields leftEntity rightEntity sel], totalMatched)
        else (st.1 ++ [JsonValue.obj [("left", leftEntity), ("right", rightEntity)]], totalMatched)
      | none =>
        (st.1 ++ [JsonValue.obj [("left", leftEntity), ("right", rightEntity)]], totalMatched)

/-- The left-stream loop body of `executeJoin`. -/
def joinLeftStep (rightIndex : List (String × List JsonValue)) (leftKey : String)
    (filterCondition : Option JoinFilterCondition) (select : Option (List String))
    (limit : Nat) (st : List JsonValue × Nat × Nat) (leftEntity : JsonValue) :
    List JsonValue × Nat × Nat :=
  let leftKeys := getValuesAtPath leftEntity leftKey
  let inner := leftKeys.foldl
    (fun st2 lk =>
      if !isNotNullish lk then st2
      else
        (indexLookup rightIndex (jsToString lk)).foldl
          (joinRightStep filterCondition select limit leftEntity) st2)
    (st.1, st.2.1)
  (inner.1, inner.2, st.2.2 + 1)

/-- `executeJoin`: auto-detects missing join keys at 30% minimum
coverage through `findRelationships`, failing with the descriptive
error when nothing is detected; then indexes the right file and
streams the left file. -/
def executeJoin (leftElems rightElems : List JsonValue) (options : JoinOptions) :
    Except String JoinResult :=
  let keysE : Except String (String × String × Bool) :=
    if isFalsyKey options.leftKey || isFalsyKey options.rightKey then
      match (findRelationships leftElems rightElems 30 false).relationships with
      | [] => .error "No relationship detected between files. Please specify --left-key and --right-key explicitly."
      | bestMatch :: _ => .ok (bestMatch.leftPath, bestMatch.rightPath, true)
    else .ok (options.leftKey.getD "", options.rightKey.getD "", false)
  match keysE with
  | .error e => .error e
  | .ok (leftKey, rightKey, autoDetected) =>
    let filterCondition := match options.filter with
      | some f => if f = "" then none else parseJoinFilter f
      | none => none
    let built := buildRightIndex rightElems rightKey
    let final := leftElems.foldl
      (joinLeftStep built.1 leftKey filterCondition options.select options.limit)
      ([], 0, 0)
    .ok { items := final.1, totalMatched := final.2.1, leftScanned := final.2.2,
          rightScanned := built.2,
          joinKeys := { leftKey := leftKey, rightKey := rightKey, autoDetected := autoDetected } }

/-! ## Schema extractor
(src/json_genius/src/analyzer/schema-extractor.ts) -/

inductive JType where
  | object | array | string | number | boolean | nullType
deriving Repr, DecidableEq

structure ArrayLengthRange where
  min : Nat
  max : Nat
deriving Repr, DecidableEq

mutual

/-- `SchemaNode`.  Absent JavaScript members are `none`; the
`optional` member is only ever set to `true`, so it is a `Bool` whose
`false` stands for absent. -/
inductive SchemaNode where
  | mk (type : JType) (dollarType : Option String)
      (properties : Option SchemaProps)
      (items : Option SchemaNode)
      (arrayLength : Option ArrayLengthRange)
      (pattern : Option String)
      (examples : Option (List String))
      (optional : Bool)

/-- The own properties of an object schema's plain `properties`
object, in insertion order (a mutual inductive rather than a nested
list, keeping all recursion over schemas structural).  Besides schema
nodes, an own property can hold the inherited `Object.prototype`
function stored when a merged key name collides with it (`consFn`),
or the bare object produced by spreading such a function, possibly
carrying an `optional` flag (`consJunk`). -/
inductive SchemaProps where
  | nil
  | cons (key : String) (node : SchemaNode) (rest : SchemaProps)
  | consFn (key : String) (rest : SchemaProps)
  | consJunk (key : String) (optional : Bool) (rest : SchemaProps)

end

def SchemaNode.typeOf : SchemaNode → JType
  | .mk t _ _ _ _ _ _ _ => t

def SchemaNode.dollarTypeOf : SchemaNode → Option String
  | .mk _ dt _ _ _ _ _ _ => dt

def SchemaNode.propertiesOf : SchemaNode → Option SchemaProps
  | .mk _ _ p _ _ _ _ _ => p

def SchemaNode.itemsOf : SchemaNode → Option SchemaNode
  | .mk _ _ _ i _ _ _ _ => i

def SchemaNode.arrayLengthOf : SchemaNode → Option ArrayLengthRange
  | .mk _ _ _ _ al _ _ _ => al

def SchemaNode.patternOf : SchemaNode → Option String
  | .mk _ _ _ _ _ pat _ _ => pat

def SchemaNode.examplesOf : SchemaNode → Option (List String)
  | .mk _ _ _ _ _ _ ex _ => ex

def SchemaNode.optionalOf : SchemaNode → Bool
  | .mk _ _ _ _ _ _ _ o => o

def lookupSchemaProp : SchemaProps → String → Option SchemaNode
  | .nil, _ => none
  | .cons k' v rest, k =>
    if k' = k then some v else lookupSchemaProp rest k
  | .consFn k' rest, k =>
    if k' = k then none else lookupSchemaProp rest k
  | .consJunk k' _ rest, k =>
    if k' = k then none else lookupSchemaProp rest k

/-- Property lookup through a possibly-absent `properties` member
(reading off `undefined` yields nothing). -/
def lookupSchemaPropOpt : Option SchemaProps → String → Option SchemaNode
  | none, _ => none
  | some props, k => lookupSchemaProp props k

/-- Object property assignment: overwrite in place or append. -/
def setSchemaProp : SchemaProps → String → SchemaNode → SchemaProps
  | .nil, k, v => .cons k v .nil
  | .cons k' v' rest, k, v =>
    if k' = k then .cons k v rest else .cons k' v' (setSchemaProp rest k v)
  | .consFn k' rest, k, v =>
    if k' = k then .cons k v rest else .consFn k' (setSchemaProp rest k v)
  | .consJunk k' o rest, k, v =>
    if k' = k then .cons k v rest else .consJunk k' o (setSchemaProp rest k v)

/-- The keys of an object schema, in order. -/
def SchemaProps.keys : SchemaProps → List String
  | .nil => []
  | .cons k _ rest => k :: SchemaProps.keys rest
  | .consFn k rest => k :: SchemaProps.keys rest
  | .consJunk k _ rest => k :: SchemaProps.keys rest

/-- Appends a new binding at the end (object key insertion order). -/
def SchemaProps.append : SchemaProps → String → SchemaNode → SchemaProps
  | .nil, k, v => .cons k v .nil
  | .cons k' v' rest, k, v => .cons k' v' (SchemaProps.append rest k v)
  | .consFn k' rest, k, v => .consFn k' (SchemaProps.append rest k v)
  | .consJunk k' o rest, k, v => .consJunk k' o (SchemaProps.append rest k v)

/-- What an own property of the `properties` object holds: a schema
node, the inherited `Object.prototype` function stored by a colliding
merge, or the bare spread-copy object such a collision produces. -/
inductive OwnProp where
  | node (n : SchemaNode)
  | fn
  | junk (optional : Bool)

/-- The own-property read `properties[key]`, seeing every binding
kind. -/
def lookupOwnProp : SchemaProps → String → Option OwnProp
  | .nil, _ => none
  | .cons k' v rest, k => if k' = k then some (.node v) else lookupOwnProp rest k
  | .consFn k' rest, k => if k' = k then some .fn else lookupOwnProp rest k
  | .consJunk k' o rest, k => if k' = k then some (.junk o) else lookupOwnProp rest k

/-- The binding constructor for one own property. -/
def consOfProp (k : String) : OwnProp → SchemaProps → SchemaProps
  | .node n => .cons k n
  | .fn => .consFn k
  | .junk o => .consJunk k o

/-- The own-property assignment `properties[key] = v`: overwrite in
place or append (object key insertion order). -/
def setOwnProp : SchemaProps → String → OwnProp → SchemaProps
  | .nil, k, p => consOfProp k p .nil
  | .cons k' v' rest, k, p =>
    if k' = k then consOfProp k p rest else .cons k' v' (setOwnProp rest k p)
  | .consFn k' rest, k, p =>
    if k' = k then consOfProp k p rest else .consFn k' (setOwnProp rest k p)
  | .consJunk k' o rest, k, p =>
    if k' = k then consOfProp k p rest else .consJunk k' o (setOwnProp rest k p)

/-- `{ ...value, optional: true }`. -/
def SchemaNode.withOptional : SchemaNode → SchemaNode
  | .mk t dt p i al pat ex _ => .mk t dt p i al pat ex true

/-- JavaScript string truthiness (`undefined` and `""` are falsy). -/
def truthyStr : Option String → Bool
  | some t => t ≠ ""
  | none => false

/-- The example-collection loop of the string merge: add unseen
incoming examples while fewer than 3 are held. -/
def addExamples (cur : List String) : List String → List String
  | [] => cur
  | e :: rest =>
    if !(cur.contains e) && cur.length < 3 then addExamples (cur ++ [e]) rest
    else addExamples cur rest

mutual

/-- `mergeSchemas`: merges `incoming` into a copy of `existing`;
distinct types keep `existing` unchanged. -/
def mergeSchemas : SchemaNode → SchemaNode → SchemaNode
  | .mk et edt ep ei eal epat eex eopt, .mk it idt ip ii ial ipat iex _ =>
    if et ≠ it then .mk et edt ep ei eal epat eex eopt
    else
      let dt := if truthyStr idt && !truthyStr edt then idt else edt
      let p :=
        if et = .object then
          match ip with
          | some ipl => some (mergeIntoProps (ep.getD .nil) ipl)
          | none => some (ep.getD .nil)
        else ep
      let i :=
        if et = .array then
          match ii, ei with
          | some iiv, some eiv => some (mergeSchemas eiv iiv)
          | some iiv, none => some iiv
          | none, e => e
        else ei
      let al :=
        if et = .array then
          match ial, eal with
          | some iav, some eav =>
            some ⟨Nat.min eav.min iav.min, Nat.max eav.max iav.max⟩
          | some iav, none => some iav
          | none, e => e
        else eal
      let pat :=
        if et = .string then
          if truthyStr ipat && !truthyStr epat then ipat else epat
        else epat
      let ex :=
        if et = .string then
          match iex with
          | none => eex
          | some incEx => some (addExamples (eex.getD []) incEx)
        else eex
      .mk et dt p i al pat ex eopt

/-- The incoming-properties loop of the object merge.  The truthiness
read `if (merged.properties[key])` falls through to the prototype
chain of the plain `properties` object: an own binding is merged in
place (a node recursively; an inherited function or a spread-copy
object survives the merge unchanged through the type-mismatch
shortcut, since its `type` member is `undefined`); with no own
binding, the key `"__proto__"` reads the truthy inherited accessor
and its write is swallowed by the inherited setter, an
`Object.prototype` method name reads the truthy inherited function
which the merge then stores as an own property, and any other key is
copied with `optional: true`.  An incoming function or spread-copy
binding has `type` `undefined`, so merging it against an equally
`undefined`-typed occupant spreads it into a bare copy. -/
def mergeIntoProps : SchemaProps → SchemaProps → SchemaProps
  | acc, .nil => acc
  | acc, .cons k v rest =>
    (match lookupOwnProp acc k with
      | some (.node e) => mergeIntoProps (setOwnProp acc k (.node (mergeSchemas e v))) rest
      | some .fn => mergeIntoProps acc rest
      | some (.junk _) => mergeIntoProps acc rest
      | none =>
        if k = "__proto__" then mergeIntoProps acc rest
        else if objectProtoMembers.contains k then
          mergeIntoProps (setOwnProp acc k .fn) rest
        else mergeIntoProps (setOwnProp acc k (.node v.withOptional)) rest)
  | acc, .consFn k rest =>
    (match lookupOwnProp acc k with
      | some (.node _) => mergeIntoProps acc rest
      | some .fn => mergeIntoProps (setOwnProp acc k (.junk false)) rest
      | some (.junk _) => mergeIntoProps acc rest
      | none =>
        if k = "__proto__" then mergeIntoProps acc rest
        else if objectProtoMembers.contains k then
          mergeIntoProps (setOwnProp acc k (.junk false)) rest
        else mergeIntoProps (setOwnProp acc k (.junk true)) rest)
  | acc, .consJunk k _ rest =>
    (match lookupOwnProp acc k with
      | some (.node _) => mergeIntoProps acc rest
      | some .fn => mergeIntoProps (setOwnProp acc k (.junk false)) rest
      | some (.junk _) => mergeIntoProps acc rest
      | none =>
        if k = "__proto__" then mergeIntoProps acc rest
        else if objectProtoMembers.contains k then
          mergeIntoProps (setOwnProp acc k (.junk false)) rest
        else mergeIntoProps (setOwnProp acc k (.junk true)) rest)

end

/-- `ENTITY_ID_PATTERN = /^[A-Za-z]+:[A-Za-z0-9]+$/`. -/
def isSchemaEntityId (s : String) : Bool :=
  let cs := s.toList
  let letters := cs.takeWhile isAsciiLetter
  decide (letters ≠ []) &&
    (match cs.drop letters.length with
      | ':' :: rest => decide (rest ≠ []) && rest.all fun c => isAsciiLetter c || c.isDigit
      | _ => false)

/-- `DATE_PATTERN = /^\d{4}-\d{2}-\d{2}(T\d{2}:\d{2}:\d{2})?/` — an
unanchored-at-the-end test, so it holds exactly when the string starts
with four digits, a dash, two digits, a dash, two digits. -/
def isIsoDateLike (s : String) : Bool :=
  match s.toList with
  | y1 :: y2 :: y3 :: y4 :: '-' :: m1 :: m2 :: '-' :: d1 :: d2 :: _ =>
    y1.isDigit && y2.isDigit && y3.isDigit && y4.isDigit
      && m1.isDigit && m2.isDigit && d1.isDigit && d2.isDigit
  | _ => false

/-- `GUID_PATTERN`: five dash-separated hex runs of lengths
8-4-4-4-12. -/
def isGuidString (s : String) : Bool :=
  match (splitOnChar '-' s.toList).map (fun part => (part.length, part.all isHexChar)) with
  | [(8, h1), (4, h2), (4, h3), (4, h4), (12, h5)] => h1 && h2 && h3 && h4 && h5
  | _ => false

/-- `detectPattern`. -/
def detectPattern (value : String) : Option String :=
  if isSchemaEntityId value then some (headBeforeColon value ++ ":xxx")
  else if isIsoDateLike value then some "ISO date"
  else if isGuidString value then some "GUID"
  else none

/-- A parse event of the token stream feeding `extractSchema`. -/
inductive TokenEvent where
  | startObject | endObject | startArray | endArray
  | keyValue (s : String)
  | stringValue (s : String)
  | numberValue (q : JsNum)
  | trueValue | falseValue | nullValue
deriving Repr

def emptyObjectSchema : SchemaNode := .mk .object none (some .nil) none none none none false

def emptyArraySchema : SchemaNode := .mk .array none none none (some ⟨0, 0⟩) none none false

def bareObjectSchema : SchemaNode := .mk .object none none none none none none false

def bareArraySchema : SchemaNode := .mk .array none none none none none none false

def nullSchema : SchemaNode := .mk .nullType none none none none none none false

def stringSchema : SchemaNode := .mk .string none none none none none none false

def numberSchema : SchemaNode := .mk .number none none none none none none false

def booleanSchema : SchemaNode := .mk .boolean none none none none none none false

def stringSchemaWithPattern (p : String) : SchemaNode :=
  .mk .string none none none none (some p) none false

def stringSchemaWithExample (e : String) : SchemaNode :=
  .mk .string none none none none none (some [e]) false

/-- `createValueSchema`. -/
def createValueSchema (detectPatterns : Bool) : TokenEvent → SchemaNode
  | .stringValue s =>
    if detectPatterns then
      match detectPattern s with
      | some p => stringSchemaWithPattern p
      | none => if s.toList.length ≤ 50 then stringSchemaWithExample s else stringSchema
    else stringSchema
  | .numberValue _ => numberSchema
  | .trueValue => booleanSchema
  | .falseValue => booleanSchema
  | .nullValue => nullSchema
  | _ => stringSchema

inductive FrameType where
  | objectF
  | arrayF
deriving Repr, DecidableEq

/-- How a frame's schema is referenced by its parent: linked as the
property `k` of the parent object, linked as the parent array's first
`items`, the root schema itself, or not referenced at all (the source
links live object references at push time and then mutates them;
`discarded` frames are those whose mutations are invisible, because
the parent slot holds a merged snapshot or a sampling/depth dummy). -/
inductive LinkKind where
  | root
  | toProp (k : String)
  | toItemsFirst
  | discarded
deriving Repr

structure Frame where
  ftype : FrameType
  key : Option String
  schema : SchemaNode
  arrayIndex : Nat
  link : LinkKind

structure ExtractState where
  stack : List Frame
  root : Option SchemaNode
  currentKey : Option String
  samplesPerPath : List (String × Nat)

/-- `getCurrentPath` (the stack is held top-first here, so it is
reversed for display order). -/
def currentPathOf (stack : List Frame) : String :=
  String.intercalate "." (stack.reverse.map fun f =>
    match f.key with
    | some k => k
    | none => "[" ++ toString f.arrayIndex ++ "]")

def bumpSampleCount : List (String × Nat) → String → List (String × Nat)
  | [], path => [(path, 1)]
  | (p, c) :: rest, path =>
    if p = path then (p, c + 1) :: rest else (p, c) :: bumpSampleCount rest path

/-- `shouldSample`: at most `maxSamples` samples per structural path,
incrementing the count as a side effect when sampling proceeds. -/
def shouldSample (maxSamples : Nat) (st : ExtractState) : Bool × ExtractState :=
  let path := currentPathOf st.stack
  let c := match st.samplesPerPath.find? fun e => e.1 == path with
    | some e => e.2
    | none => 0
  if maxSamples ≤ c then (false, st)
  else (true, { st with samplesPerPath := bumpSampleCount st.samplesPerPath path })

/-- `frame.schema.properties![k] = v` (the non-null assertion over a
schema without `properties` is modelled as assignment into an empty
map). -/
def setPropSchema (s : SchemaNode) (k : String) (v : SchemaNode) : SchemaNode :=
  match s with
  | .mk t dt p i al pat ex o => .mk t dt (some (setSchemaProp (p.getD .nil) k v)) i al pat ex o

def setItemsSchema (s : SchemaNode) (v : SchemaNode) : SchemaNode :=
  match s with
  | .mk t dt p _ al pat ex o => .mk t dt p (some v) al pat ex o

def setArrayLengthSchema (s : SchemaNode) (al : ArrayLengthRange) : SchemaNode :=
  match s with
  | .mk t dt p i _ pat ex o => .mk t dt p i (some al) pat ex o

def setDollarTypeSchema (s : SchemaNode) (v : String) : SchemaNode :=
  match s with
  | .mk t _ p i al pat ex o => .mk t (some v) p i al pat ex o

/-- Replays a completed child's schema into its parent slot (the
source links the live object reference at push time; this is the
pure-state equivalent applied at pop time). -/
def linkChild (child : Frame) (cs : SchemaNode) (rest : List Frame)
    (root : Option SchemaNode) : List Frame × Option SchemaNode :=
  match child.link with
  | .discarded => (rest, root)
  | .root => (rest, some cs)
  | .toProp k =>
    (match rest with
      | parent :: rest2 =>
        (({ parent with schema := setPropSchema parent.schema k cs }) :: rest2, root)
      | [] => ([], root))
  | .toItemsFirst =>
    (match rest with
      | parent :: rest2 =>
        (({ parent with schema := setItemsSchema parent.schema cs }) :: rest2, root)
      | [] => ([], root))

/-- `startObject`/`startArray` share this push logic; `isObj` selects
which, `sampled` tells whether the sampled (linked) branch was taken. -/
def pushContainer (st : ExtractState) (isObj : Bool) (sampled : Bool) : ExtractState :=
  let schema := if isObj then emptyObjectSchema else emptyArraySchema
  let ft := if isObj then FrameType.objectF else FrameType.arrayF
  if sampled then
    match st.stack with
    | frame :: rest =>
      if frame.ftype = .objectF ∧ st.currentKey.isSome then
        let k := st.currentKey.getD ""
        let frame' := { frame with schema := setPropSchema frame.schema k schema }
        { st with
          stack := ⟨ft, some k, schema, 0, .toProp k⟩ :: frame' :: rest
          currentKey := none }
      else if frame.ftype = .arrayF then
        match frame.schema.itemsOf with
        | none =>
          let frame' := { frame with
            schema := setItemsSchema frame.schema schema
            arrayIndex := frame.arrayIndex + 1 }
          { st with stack := ⟨ft, none, schema, frame.arrayIndex, .toItemsFirst⟩ :: frame' :: rest }
        | some existingItems =>
          let frame' := { frame with
            schema :=
              if isObj then setItemsSchema frame.schema (mergeSchemas existingItems schema)
              else frame.schema
            arrayIndex := frame.arrayIndex + 1 }
          { st with stack := ⟨ft, none, schema, frame.arrayIndex, .discarded⟩ :: frame' :: rest }
      else st
    | [] => st
  else
    let dummy := if isObj then bareObjectSchema else bareArraySchema
    { st with stack := ⟨ft, none, dummy, 0, .discarded⟩ :: st.stack }

/-- `min || frame.arrayIndex` (0 is falsy), then the `Math.min` with
the index, and `max = frame.arrayIndex`. -/
def closeArrayLength (al : ArrayLengthRange) (arrayIndex : Nat) : ArrayLengthRange :=
  ⟨Nat.min (if al.min = 0 then arrayIndex else al.min) arrayIndex, arrayIndex⟩

/-- One token of the `extractSchema` loop. -/
def extractStep (maxDepth maxSamples : Nat) (detectPatterns : Bool)
    (st : ExtractState) (tok : TokenEvent) : ExtractState :=
  match tok with
  | .startObject =>
    if st.stack.isEmpty then
      { st with root := some emptyObjectSchema
                stack := [⟨.objectF, none, emptyObjectSchema, 0, .root⟩] }
    else if st.stack.length < maxDepth then
      let s := shouldSample maxSamples st
      pushContainer s.2 true s.1
    else pushContainer st true false
  | .endObject =>
    (match st.stack with
      | [] => st
      | child :: rest =>
        let lr := linkChild child child.schema rest st.root
        { st with stack := lr.1, root := lr.2 })
  | .startArray =>
    if st.stack.isEmpty then
      { st with root := some emptyArraySchema
                stack := [⟨.arrayF, none, emptyArraySchema, 0, .root⟩] }
    else if st.stack.length < maxDepth then
      pushContainer st false true
    else pushContainer st false false
  | .endArray =>
    (match st.stack with
      | [] => st
      | child :: rest =>
        match child.schema.arrayLengthOf with
        | none =>
          let lr := linkChild child child.schema rest st.root
          { st with stack := lr.1, root := lr.2 }
        | some al =>
          let cs := setArrayLengthSchema child.schema (closeArrayLength al child.arrayIndex)
          let lr := linkChild child cs rest st.root
          let st := { st with stack := lr.1, root := lr.2 }
          match st.stack with
          | parent :: rest2 =>
            if parent.ftype = .arrayF then
              match parent.schema.itemsOf with
              | some pItems =>
                if pItems.typeOf = .array then
                  match pItems.arrayLengthOf with
                  | some pal =>
                    let cal := closeArrayLength al child.arrayIndex
                    let pItems' := setArrayLengthSchema pItems
                      ⟨Nat.min pal.min cal.min, Nat.max pal.max cal.max⟩
                    { st with stack :=
                        ({ parent with schema := setItemsSchema parent.schema pItems' }) :: rest2 }
                  | none => st
                else st
              | none => st
            else st
          | [] => st)
  | .keyValue s => { st with currentKey := some s }
  | v =>
    if st.stack.isEmpty then
      { st with root := some (createValueSchema detectPatterns v) }
    else
      match st.stack with
      | frame :: rest =>
        if frame.ftype = .objectF ∧ st.currentKey.isSome then
          let k := st.currentKey.getD ""
          let st' :=
            if st.stack.length ≤ maxDepth then
              match v with
              | .stringValue sv =>
                if k = "$type" then
                  { st with stack := ({ frame with schema := setDollarTypeSchema frame.schema sv }) :: rest }
                else
                  let vs := createValueSchema detectPatterns v
                  let merged := match lookupSchemaPropOpt frame.schema.propertiesOf k with
                    | none => vs
                    | some e => mergeSchemas e vs
                  { st with stack := ({ frame with schema := setPropSchema frame.schema k merged }) :: rest }
              | _ =>
                let vs := createValueSchema detectPatterns v
                let merged := match lookupSchemaPropOpt frame.schema.propertiesOf k with
                  | none => vs
                  | some e => mergeSchemas e vs
                { st with stack := ({ frame with schema := setPropSchema frame.schema k merged }) :: rest }
            else st
          { st' with currentKey := none }
        else if frame.ftype = .arrayF then
          let frame := { frame with arrayIndex := frame.arrayIndex + 1 }
          let st := { st with stack := frame :: rest }
          if st.stack.length ≤ maxDepth then
            let s := shouldSample maxSamples st
            if s.1 then
              let st := s.2
              match st.stack with
              | fr :: rs =>
                let vs := createValueSchema detectPatterns v
                let newItems := match fr.schema.itemsOf with
                  | none => vs
                  | some e => mergeSchemas e vs
                { st with stack := ({ fr with schema := setItemsSchema fr.schema newItems }) :: rs }
              | [] => st
            else s.2
          else st
        else st
      | [] => st

/-- Replays the pending parent links of still-open frames, as the
source's live references make those mutations already visible in
`rootSchema` when the stream ends.  Fuel-structural on the stack
height. -/
def finalizeStackF : Nat → List Frame → Option SchemaNode → Option SchemaNode
  | 0, _, root => root
  | _ + 1, [], root => root
  | fuel + 1, frame :: rest, root =>
    match frame.link with
    | .discarded => finalizeStackF fuel rest root
    | .root => finalizeStackF fuel rest (some frame.schema)
    | .toProp k =>
      (match rest with
        | parent :: rest2 =>
          finalizeStackF fuel
            (({ parent with schema := setPropSchema parent.schema k frame.schema }) :: rest2) root
        | [] => root)
    | .toItemsFirst =>
      (match rest with
        | parent :: rest2 =>
          finalizeStackF fuel
            (({ parent with schema := setItemsSchema parent.schema frame.schema }) :: rest2) root
        | [] => root)

/-- `extractSchema` over the file's token events. -/
def extractSchema (tokens : List TokenEvent) (maxDepth maxSamples : Nat)
    (detectPatterns : Bool) : SchemaNode :=
  let st := tokens.foldl (extractStep maxDepth maxSamples detectPatterns) ⟨[], none, none, []⟩
  (finalizeStackF st.stack.length st.stack st.root).getD nullSchema

/-! ## Definitions used by the claim statements -/

/-- Modelled from the spec's words for the ordering comparison
("ordering operators attempt numeric comparison first, then attempt
both sides as parseable dates before declaring no match"), for
comparison with the source's `compareValues`. -/
def specOrderingCompare (dp : String → Option JsNum) (actual : JsonValue) (op : Op)
    (expected : JsonValue) : Bool :=
  match actual, expected with
  | .num a, .num b => ordEval op a b
  | _, _ =>
    match parseDate dp actual, parseDate dp expected with
    | some (some x), some (some y) => ordEval op x y
    | _, _ => false

/-- The key under which `buildRightIndex` files an element: the
stringified first value of the key path, none when that value is null
or undefined. -/
def firstKeyString (e : JsonValue) (keyPath : String) : Option String :=
  let kv := getValueAtPath e keyPath
  if isNotNullish kv then some (jsToString kv) else none

/-- `l.take n` with `none` as no bound (the JavaScript `Infinity`). -/
def takeLim (lim : Option Nat) (l : List α) : List α :=
  match lim with
  | none => l
  | some n => l.take n

def limSub (lim : Option Nat) (n : Nat) : Option Nat := lim.map (· - n)

/-- Every top-level property node of an observed object sample carries
no `optional` flag (observation builds nodes without it). -/
def SchemaProps.allPlain : SchemaProps → Bool
  | .nil => true
  | .cons _ v rest => !v.optionalOf && rest.allPlain
  | .consFn _ _ => false
  | .consJunk _ _ _ => false

mutual

/-- Every node of the schema holds at most 3 literal examples. -/
def examplesBounded : SchemaNode → Bool
  | .mk _ _ p i _ _ ex _ =>
    (match ex with | some l => decide (l.length ≤ 3) | none => true)
      && (match p with | some pr => examplesBoundedProps pr | none => true)
      && (match i with | some s => examplesBounded s | none => true)

def examplesBoundedProps : SchemaProps → Bool
  | .nil => true
  | .cons _ v rest => examplesBounded v && examplesBoundedProps rest
  | .consFn _ rest => examplesBoundedProps rest
  | .consJunk _ _ rest => examplesBoundedProps rest

end

/-- Proof-side numeric projection of a group value. -/
def groupValNum : GroupVal → Nat
  | .num n => n
  | .str _ => 0

/-- A group key that collides with nothing inherited from
`Object.prototype`. -/
def isSafeGroupKey (k : String) : Bool :=
  !(k == "__proto__") && !(objectProtoMembers.contains k)

/-- The `min` accumulation of the stats loop viewed on its own:
`min = Math.min(min, v)` with `none` as the `Infinity` start. -/
def optMinStep (o : Option JsNum) (q : JsNum) : Option JsNum :=
  some (match o with | none => q | some m => m.minOp q)

/-- The `max` accumulation of the stats loop viewed on its own. -/
def optMaxStep (o : Option JsNum) (q : JsNum) : Option JsNum :=
  some (match o with | none => q | some m => m.maxOp q)

/-- The optional flags of an accumulated property map agree with the
first observed sample: a held key is flagged optional exactly when it
is missing from the first sample's properties, and every key of the
first sample is still held. -/
def optionalMatchesFirst (firstProps acc : SchemaProps) : Prop :=
  ∀ k : String,
    (lookupOwnProp acc k = none → lookupOwnProp firstProps k = none)
    ∧ ∀ n, lookupOwnProp acc k = some (.node n) →
        (n.optionalOf = true ↔ lookupOwnProp firstProps k = none)

/-- The numeric values the stats and distribution passes consume: for
each passing element, the finite numbers among the values at the
path, in order. -/
def numericValuesOf (dp : String → Option JsNum) (cond : Option FilterCondition)
    (path : String) (elems : List JsonValue) : List JsNum :=
  (elems.filter (passesCond dp cond)).flatMap
    fun e => (getValuesAtPath e path).filterMap toFiniteNumber

/-! ## Supporting lemmas -/

theorem filterCondOf_eq_none {s : String} (h : parseFilter s = none) :
    filterCondOf (some s) = none := by
  by_cases hs : s = "" <;> simp [filterCondOf, hs, h]

/-! ### groupBy bookkeeping -/

theorem safe_not_proto {k : String} (hsafe : isSafeGroupKey k = true) :
    ¬ k = "__proto__" := by
  intro h
  subst h
  simp [isSafeGroupKey, objectProtoMembers] at hsafe

theorem safe_not_member {k : String} (hsafe : isSafeGroupKey k = true) :
    objectProtoMembers.contains k = false := by
  simp only [isSafeGroupKey, Bool.and_eq_true, Bool.not_eq_true'] at hsafe
  exact hsafe.2

theorem bumpGroup_nil_safe (k : String) (hsafe : isSafeGroupKey k = true) :
    bumpGroup [] k = [(k, GroupVal.num 1)] := by
  have hmem : k ∉ objectProtoMembers := by simpa using safe_not_member hsafe
  simp [bumpGroup, lookupGroup, setGroup, safe_not_proto hsafe, hmem]

theorem bumpGroup_cons_safe (k k' : String) (v : GroupVal) (rest : List (String × GroupVal))
    (hsafe : isSafeGroupKey k = true) :
    bumpGroup ((k', v) :: rest) k
      = if k' = k then (k, bumpVal v) :: rest else (k', v) :: bumpGroup rest k := by
  by_cases hk : k' = k
  · simp [bumpGroup, lookupGroup, setGroup, hk, safe_not_proto hsafe]
  · simp [bumpGroup, lookupGroup, setGroup, hk, safe_not_proto hsafe]

theorem bumpVal_num (n : Nat) : bumpVal (.num n) = .num (n + 1) := by
  cases n <;> simp [bumpVal]

theorem bumpGroup_snd_sum (g : List (String × GroupVal)) (k : String)
    (hsafe : isSafeGroupKey k = true)
    (hnum : ∀ kv ∈ g, ∃ n, kv.2 = GroupVal.num n) :
    ((bumpGroup g k).map (fun kv => groupValNum kv.2)).sum
      = (g.map (fun kv => groupValNum kv.2)).sum + 1 := by
  induction g with
  | nil => simp [bumpGroup_nil_safe k hsafe, groupValNum]
  | cons hd tl ih =>
    obtain ⟨k', v⟩ := hd
    obtain ⟨n, hn⟩ := hnum (k', v) (List.mem_cons_self _ _)
    rw [bumpGroup_cons_safe k k' v tl hsafe]
    by_cases hk : k' = k
    · rw [if_pos hk]
      cases hn
      simp only [List.map_cons, List.sum_cons, bumpVal_num, groupValNum]
      omega
    · rw [if_neg hk]
      simp only [List.map_cons, List.sum_cons,
        ih (fun kv hkv => hnum kv (List.mem_cons_of_mem _ hkv))]
      omega

theorem bumpGroup_keys (g : List (String × GroupVal)) (k : String)
    (hsafe : isSafeGroupKey k = true) :
    (bumpGroup g k).map (·.1) =
      if k ∈ g.map (·.1) then g.map (·.1) else g.map (·.1) ++ [k] := by
  induction g with
  | nil => simp [bumpGroup_nil_safe k hsafe]
  | cons hd tl ih =>
    obtain ⟨k', v⟩ := hd
    rw [bumpGroup_cons_safe k k' v tl hsafe]
    by_cases hk : k' = k
    · subst hk
      simp
    · by_cases hmem : k ∈ tl.map (·.1) <;> simp [hk, ih, hmem, Ne.symm hk]

theorem bumpGroup_keys_nodup {g : List (String × GroupVal)} (k : String)
    (hsafe : isSafeGroupKey k = true)
    (h : (g.map (·.1)).Nodup) : ((bumpGroup g k).map (·.1)).Nodup := by
  rw [bumpGroup_keys g k hsafe]
  by_cases hmem : k ∈ g.map (·.1) <;> simp [hmem, h, List.Nodup.append, List.nodup_append]

theorem bumpGroup_num_inv (g : List (String × GroupVal)) (k : String)
    (hsafe : isSafeGroupKey k = true)
    (hnum : ∀ kv ∈ g, ∃ n, kv.2 = GroupVal.num n) :
    ∀ kv ∈ bumpGroup g k, ∃ n, kv.2 = GroupVal.num n := by
  induction g with
  | nil =>
    rw [bumpGroup_nil_safe k hsafe]
    intro kv hkv
    rcases List.mem_cons.mp hkv with rfl | h2
    · exact ⟨1, rfl⟩
    · exact absurd h2 (List.not_mem_nil kv)
  | cons hd tl ih =>
    obtain ⟨k', v⟩ := hd
    obtain ⟨n, hn⟩ := hnum (k', v) (List.mem_cons_self _ _)
    rw [bumpGroup_cons_safe k k' v tl hsafe]
    by_cases hk : k' = k
    · rw [if_pos hk]
      intro kv hkv
      rcases List.mem_cons.mp hkv with rfl | h2
      · cases hn
        exact ⟨n + 1, by simp [bumpVal_num]⟩
      · exact hnum kv (List.mem_cons_of_mem _ h2)
    · rw [if_neg hk]
      intro kv hkv
      rcases List.mem_cons.mp hkv with rfl | h2
      · exact ⟨n, hn⟩
      · exact ih (fun kv2 hkv2 => hnum kv2 (List.mem_cons_of_mem _ hkv2)) kv h2

theorem groupValsFold_total (vs : List JsonValue) (st : GroupState) :
    (vs.foldl (fun s w =>
        { s with groups := bumpGroup s.groups (groupKeyOf w), total := s.total + 1 }) st).total
      = st.total + vs.length ∧
    (vs.foldl (fun s w =>
        { s with groups := bumpGroup s.groups (groupKeyOf w), total := s.total + 1 }) st).scanned
      = st.scanned := by
  induction vs generalizing st with
  | nil => simp
  | cons v rest ih =>
    simp only [List.foldl_cons, List.length_cons]
    obtain ⟨h1, h2⟩ := ih { st with groups := bumpGroup st.groups (groupKeyOf v), total := st.total + 1 }
    refine ⟨?_, ?_⟩
    · rw [h1]
      dsimp only
      omega
    · rw [h2]

theorem groupValsFold_groups (vs : List JsonValue) (st : GroupState)
    (hsafe : ∀ v ∈ vs, isSafeGroupKey (groupKeyOf v) = true)
    (hnum : ∀ kv ∈ st.groups, ∃ n, kv.2 = GroupVal.num n) :
    ((vs.foldl (fun s w =>
        { s with groups := bumpGroup s.groups (groupKeyOf w), total := s.total + 1 }) st).groups.map
          (fun kv => groupValNum kv.2)).sum
      = (st.groups.map (fun kv => groupValNum kv.2)).sum + vs.length ∧
    (∀ kv ∈ (vs.foldl (fun s w =>
        { s with groups := bumpGroup s.groups (groupKeyOf w), total := s.total + 1 }) st).groups,
        ∃ n, kv.2 = GroupVal.num n) ∧
    ((st.groups.map (·.1)).Nodup →
      ((vs.foldl (fun s w =>
        { s with groups := bumpGroup s.groups (groupKeyOf w), total := s.total + 1 }) st).groups.map
          (·.1)).Nodup) := by
  induction vs generalizing st with
  | nil => exact ⟨by simp, hnum, fun h => h⟩
  | cons v rest ih =>
    simp only [List.foldl_cons, List.length_cons]
    have hv : isSafeGroupKey (groupKeyOf v) = true := hsafe v (List.mem_cons_self _ _)
    have hrest : ∀ w ∈ rest, isSafeGroupKey (groupKeyOf w) = true := fun w hw =>
      hsafe w (List.mem_cons_of_mem _ hw)
    obtain ⟨h1, h2, h3⟩ := ih { st with groups := bumpGroup st.groups (groupKeyOf v), total := st.total + 1 }
      hrest (bumpGroup_num_inv st.groups (groupKeyOf v) hv hnum)
    refine ⟨?_, h2, ?_⟩
    · rw [h1]
      dsimp only
      rw [bumpGroup_snd_sum st.groups (groupKeyOf v) hv hnum]
      omega
    · intro hnd
      exact h3 (bumpGroup_keys_nodup (groupKeyOf v) hv hnd)

theorem groupFold_total (dp : String → Option JsNum) (cond : Option FilterCondition)
    (path : String) (elems : List JsonValue) (st : GroupState) :
    (elems.foldl (groupStep dp cond path) st).total
      = st.total
        + ((elems.filter (passesCond dp cond)).map
            (fun e => (getValuesAtPath e path).length)).sum ∧
    (elems.foldl (groupStep dp cond path) st).scanned = st.scanned + elems.length := by
  induction elems generalizing st with
  | nil => simp
  | cons e rest ih =>
    simp only [List.foldl_cons, List.length_cons, List.filter_cons]
    by_cases hp : passesCond dp cond e
    · simp only [hp, if_pos, List.map_cons, List.sum_cons]
      have hstep : groupStep dp cond path st e =
          (getValuesAtPath e path).foldl
            (fun s w => { s with groups := bumpGroup s.groups (groupKeyOf w), total := s.total + 1 })
            { st with scanned := st.scanned + 1 } := by
        simp [groupStep, hp]
      rw [hstep]
      obtain ⟨v1, v2⟩ := groupValsFold_total (getValuesAtPath e path)
        { st with scanned := st.scanned + 1 }
      obtain ⟨h1, h2⟩ := ih ((getValuesAtPath e path).foldl
        (fun s w => { s with groups := bumpGroup s.groups (groupKeyOf w), total := s.total + 1 })
        { st with scanned := st.scanned + 1 })
      refine ⟨?_, ?_⟩
      · rw [h1, v1]
        simp
        omega
      · rw [h2, v2]
        simp
        omega
    · have hstep : groupStep dp cond path st e = { st with scanned := st.scanned + 1 } := by
        simp [groupStep, hp]
      rw [hstep]
      obtain ⟨h1, h2⟩ := ih { st with scanned := st.scanned + 1 }
      simp only [hp]
      refine ⟨?_, ?_⟩
      · simpa using h1
      · simp at h2 ⊢
        omega

theorem groupFold_groups (dp : String → Option JsNum) (cond : Option FilterCondition)
    (path : String) (elems : List JsonValue) (st : GroupState)
    (hsafe : ∀ e ∈ elems, passesCond dp cond e = true →
      ∀ v ∈ getValuesAtPath e path, isSafeGroupKey (groupKeyOf v) = true)
    (hnum : ∀ kv ∈ st.groups, ∃ n, kv.2 = GroupVal.num n) :
    ((elems.foldl (groupStep dp cond path) st).groups.map (fun kv => groupValNum kv.2)).sum
      = (st.groups.map (fun kv => groupValNum kv.2)).sum
        + ((elems.filter (passesCond dp cond)).map
            (fun e => (getValuesAtPath e path).length)).sum ∧
    (∀ kv ∈ (elems.foldl (groupStep dp cond path) st).groups, ∃ n, kv.2 = GroupVal.num n) ∧
    ((st.groups.map (·.1)).Nodup →
      ((elems.foldl (groupStep dp cond path) st).groups.map (·.1)).Nodup) := by
  induction elems generalizing st with
  | nil => exact ⟨by simp, hnum, fun h => h⟩
  | cons e rest ih =>
    simp only [List.foldl_cons, List.filter_cons]
    have hrest : ∀ e2 ∈ rest, passesCond dp cond e2 = true →
        ∀ v ∈ getValuesAtPath e2 path, isSafeGroupKey (groupKeyOf v) = true := fun e2 he2 =>
      hsafe e2 (List.mem_cons_of_mem _ he2)
    by_cases hp : passesCond dp cond e
    · simp only [hp, if_pos, List.map_cons, List.sum_cons]
      have hstep : groupStep dp cond path st e =
          (getValuesAtPath e path).foldl
            (fun s w => { s with groups := bumpGroup s.groups (groupKeyOf w), total := s.total + 1 })
            { st with scanned := st.scanned + 1 } := by
        simp [groupStep, hp]
      rw [hstep]
      obtain ⟨v1, v2, v3⟩ := groupValsFold_groups (getValuesAtPath e path)
        { st with scanned := st.scanned + 1 } (hsafe e (List.mem_cons_self _ _) hp) hnum
      obtain ⟨h1, h2, h3⟩ := ih ((getValuesAtPath e path).foldl
        (fun s w => { s with groups := bumpGroup s.groups (groupKeyOf w), total := s.total + 1 })
        { st with scanned := st.scanned + 1 }) hrest v2
      refine ⟨?_, h2, ?_⟩
      · rw [h1, v1]
        simp
        omega
      · intro hnd
        exact h3 (v3 hnd)
    · have hstep : groupStep dp cond path st e = { st with scanned := st.scanned + 1 } := by
        simp [groupStep, hp]
      rw [hstep]
      obtain ⟨h1, h2, h3⟩ := ih { st with scanned := st.scanned + 1 } hrest hnum
      simp only [hp]
      exact ⟨by simpa using h1, h2, h3⟩

/-! ## Claim theorems -/

/-- C5: for every filter string the parser cannot parse, `count`,
`groupBy`, `stats`, `distribution` and `executeQuery` return exactly
what the same call with no filter returns. -/
theorem C5_unparseable_filter_is_no_filter
    (dp : String → Option JsNum) (elems : List JsonValue) (s path : String)
    (sel : Option (List String)) (lim : Option Nat) (off bc : Nat)
    (h : parseFilter s = none) :
    count dp elems (some s) = count dp elems none ∧
    groupBy dp elems path (some s) = groupBy dp elems path none ∧
    stats dp elems path (some s) = stats dp elems path none ∧
    distribution dp elems path (some s) bc = distribution dp elems path none bc ∧
    executeQuery dp elems ⟨sel, some s, lim, off⟩ = executeQuery dp elems ⟨sel, none, lim, off⟩ := by
  have hc : filterCondOf (some s) = none := filterCondOf_eq_none h
  have hnone : filterCondOf none = none := rfl
  have hstats : stats dp elems path (some s) = stats dp elems path none := by
    simp only [stats, hc, hnone]
  refine ⟨?_, ?_, hstats, ?_, ?_⟩
  · simp only [count, hc, hnone]
  · simp only [groupBy, hc, hnone]
  · simp only [distribution, hstats, hc, hnone]
  · simp only [executeQuery, hc, hnone]

/-- C5 witness: the concrete unparseable filter string `"@@@"`. -/
theorem C5_unparseable_filter_is_no_filter_witness :
    parseFilter "@@@" = none ∧
    (count (fun _ => none) [JsonValue.obj [("x", JsonValue.num 1)]] (some "@@@")
        = count (fun _ => none) [JsonValue.obj [("x", JsonValue.num 1)]] none ∧
      groupBy (fun _ => none) [JsonValue.obj [("x", JsonValue.num 1)]] "x" (some "@@@")
        = groupBy (fun _ => none) [JsonValue.obj [("x", JsonValue.num 1)]] "x" none ∧
      stats (fun _ => none) [JsonValue.obj [("x", JsonValue.num 1)]] "x" (some "@@@")
        = stats (fun _ => none) [JsonValue.obj [("x", JsonValue.num 1)]] "x" none ∧
      distribution (fun _ => none) [JsonValue.obj [("x", JsonValue.num 1)]] "x" (some "@@@") 10
        = distribution (fun _ => none) [JsonValue.obj [("x", JsonValue.num 1)]] "x" none 10 ∧
      executeQuery (fun _ => none) [JsonValue.obj [("x", JsonValue.num 1)]]
          ⟨none, some "@@@", some 100, 0⟩
        = executeQuery (fun _ => none) [JsonValue.obj [("x", JsonValue.num 1)]]
          ⟨none, none, some 100, 0⟩) :=
  ⟨rfl, C5_unparseable_filter_is_no_filter (fun _ => none)
    [JsonValue.obj [("x", JsonValue.num 1)]] "@@@" "x" none (some 100) 0 10 rfl⟩

/-- C10 counterexample: a single path value `"__proto__"` is counted
by `total` but recorded in no group — the read of
`groups["__proto__"]` hits the inherited accessor and the write hits
the inherited setter, which creates no own property — so the
per-group counts sum to 0 against a `total` of 1 and `uniqueValues`
is 0 although one value was grouped. -/
theorem C10_counterexample :
    (groupBy (fun _ => none) [JsonValue.obj [("k", JsonValue.str "__proto__")]] "k" none).groups
      = []
    ∧ (groupBy (fun _ => none) [JsonValue.obj [("k", JsonValue.str "__proto__")]] "k" none).total
      = 1
    ∧ (groupBy (fun _ => none)
        [JsonValue.obj [("k", JsonValue.str "__proto__")]] "k" none).uniqueValues = 0
    ∧ (groupBy (fun _ => none) [JsonValue.obj [("k", JsonValue.str "__proto__")]] "k" none).scanned
      = 1 :=
  ⟨rfl, rfl, rfl, rfl⟩

/-- C10 (amended): `scanned` counts every element and `total` counts
one increment per value the path yields on each passing element,
unconditionally; and when no produced group key collides with
`"__proto__"` or an inherited `Object.prototype` member, the groups
record holds numeric counts that sum to `total`, with distinct keys
counted by `uniqueValues`. -/
theorem C10_amended (dp : String → Option JsNum) (elems : List JsonValue)
    (path : String) (filter : Option String) :
    (groupBy dp elems path filter).scanned = elems.length
    ∧ (groupBy dp elems path filter).total
        = ((elems.filter (passesCond dp (filterCondOf filter))).map
            (fun e => (getValuesAtPath e path).length)).sum
    ∧ ((∀ e ∈ elems, passesCond dp (filterCondOf filter) e = true →
          ∀ v ∈ getValuesAtPath e path, isSafeGroupKey (groupKeyOf v) = true) →
        ((groupBy dp elems path filter).groups.map (fun kv => groupValNum kv.2)).sum
            = (groupBy dp elems path filter).total
        ∧ (∀ kv ∈ (groupBy dp elems path filter).groups, ∃ n, kv.2 = GroupVal.num n)
        ∧ ((groupBy dp elems path filter).groups.map (·.1)).Nodup
        ∧ (groupBy dp elems path filter).uniqueValues
            = (groupBy dp elems path filter).groups.length) := by
  obtain ⟨t1, t2⟩ := groupFold_total dp (filterCondOf filter) path elems ⟨[], 0, 0⟩
  simp only [groupBy]
  refine ⟨by simpa using t2, by simpa using t1, ?_⟩
  intro hsafe
  obtain ⟨g1, g2, g3⟩ :=
    groupFold_groups dp (filterCondOf filter) path elems ⟨[], 0, 0⟩ hsafe (by simp)
  refine ⟨?_, g2, g3 (by simp), trivial⟩
  rw [g1, t1]
  simp

/-- C10 witness: the amended theorem at three elements producing the
safe keys `"x"`, `"x"`, `"y"`, with the safety hypothesis of the
groups part discharged concretely. -/
theorem C10_amended_witness :
    ((groupBy (fun _ => none)
        [JsonValue.obj [("k", JsonValue.str "x")], JsonValue.obj [("k", JsonValue.str "x")],
          JsonValue.obj [("k", JsonValue.str "y")]] "k" none).scanned = 3)
    ∧ (∀ e ∈ [JsonValue.obj [("k", JsonValue.str "x")], JsonValue.obj [("k", JsonValue.str "x")],
          JsonValue.obj [("k", JsonValue.str "y")]],
        passesCond (fun _ => none) (filterCondOf none) e = true →
          ∀ v ∈ getValuesAtPath e "k", isSafeGroupKey (groupKeyOf v) = true)
    ∧ ((groupBy (fun _ => none)
        [JsonValue.obj [("k", JsonValue.str "x")], JsonValue.obj [("k", JsonValue.str "x")],
          JsonValue.obj [("k", JsonValue.str "y")]] "k" none).groups.map
            (fun kv => groupValNum kv.2)).sum
        = (groupBy (fun _ => none)
        [JsonValue.obj [("k", JsonValue.str "x")], JsonValue.obj [("k", JsonValue.str "x")],
          JsonValue.obj [("k", JsonValue.str "y")]] "k" none).total
    ∧ ((groupBy (fun _ => none)
        [JsonValue.obj [("k", JsonValue.str "x")], JsonValue.obj [("k", JsonValue.str "x")],
          JsonValue.obj [("k", JsonValue.str "y")]] "k" none).groups.map (·.1)).Nodup :=
  ⟨(C10_amended (fun _ => none)
      [JsonValue.obj [("k", JsonValue.str "x")], JsonValue.obj [("k", JsonValue.str "x")],
        JsonValue.obj [("k", JsonValue.str "y")]] "k" none).1,
    by decide,
    ((C10_amended (fun _ => none)
      [JsonValue.obj [("k", JsonValue.str "x")], JsonValue.obj [("k", JsonValue.str "x")],
        JsonValue.obj [("k", JsonValue.str "y")]] "k" none).2.2 (by decide)).1,
    ((C10_amended (fun _ => none)
      [JsonValue.obj [("k", JsonValue.str "x")], JsonValue.obj [("k", JsonValue.str "x")],
        JsonValue.obj [("k", JsonValue.str "y")]] "k" none).2.2 (by decide)).2.2.1⟩

/-- C1 counterexample: at the numeric pair `(10^16, 0)` under `>`,
numeric comparison applies and says `true` (and the spec's
numeric-first semantics says `true`), yet `compareValues` declares no
match, because the ordering branch interprets dates first and 10^16
exceeds the valid epoch range. -/
theorem C1_counterexample :
    specOrderingCompare (fun _ => none) (.num ⟨10000000000000000, 0⟩) .gt (.num 0) = true ∧
    ordEval .gt ⟨10000000000000000, 0⟩ 0 = true ∧
    compareValues (fun _ => none) (.num ⟨10000000000000000, 0⟩) .gt (.num 0) = false :=
  ⟨rfl, rfl, rfl⟩

/-- C4 counterexample: with no `a.`/`b.` prefix the join filter
matches on the strength of the right element alone — the left element
yields no value at the path, which under the claim's left-only
semantics would mean no match. -/
theorem C4_counterexample :
    matchesJoinFilter (.obj []) (.obj [("x", .num 1)])
      { path := "x", operator := .eq, value := .num 1, side := none } = true ∧
    getValuesAtPath (.obj []) "x" = [] :=
  ⟨rfl, rfl⟩

theorem joinValuesMatch_append (X Y : List JsonValue) (c : JoinFilterCondition) :
    joinValuesMatch (X ++ Y) c = (joinValuesMatch X c || joinValuesMatch Y c) := by
  by_cases hex : c.operator == .existsOp
  · simp only [joinValuesMatch, hex, if_pos, List.any_append, List.length_append]
    by_cases hX : X.any isNotNullish
    · have : 0 < X.length := by
        obtain ⟨x, hx, _⟩ := List.any_eq_true.mp hX
        exact List.length_pos.mpr (by rintro rfl; simp at hx)
      simp [hX, this]
    · by_cases hY : Y.any isNotNullish
      · have : 0 < Y.length := by
          obtain ⟨y, hy, _⟩ := List.any_eq_true.mp hY
          exact List.length_pos.mpr (by rintro rfl; simp at hy)
        simp [hX, hY, this]
      · simp [hX, hY]
  · simp [joinValuesMatch, hex, List.any_append]

/-- C4 amended: a condition with no side prefix is evaluated against
BOTH inputs — it matches exactly when evaluating it against the left
input alone or against the right input alone matches; the right
element is not ignored. -/
theorem C4_amended (left right : JsonValue) (c : JoinFilterCondition)
    (hside : c.side = none) :
    matchesJoinFilter left right c =
      (matchesJoinFilter left left c || matchesJoinFilter right right c) := by
  simp only [matchesJoinFilter, hside]
  rw [joinValuesMatch_append, joinValuesMatch_append, joinValuesMatch_append]
  cases joinValuesMatch (getValuesAtPath left c.path) c <;>
    cases joinValuesMatch (getValuesAtPath right c.path) c <;> rfl

/-- C4 amended, witnessed at the counterexample's inputs. -/
theorem C4_amended_witness :
    ({ path := "x", operator := .eq, value := .num 1, side := none } : JoinFilterCondition).side
        = none ∧
    matchesJoinFilter (.obj []) (.obj [("x", .num 1)])
        { path := "x", operator := .eq, value := .num 1, side := none }
      = (matchesJoinFilter (.obj []) (.obj [])
            { path := "x", operator := .eq, value := .num 1, side := none }
          || matchesJoinFilter (.obj [("x", .num 1)]) (.obj [("x", .num 1)])
            { path := "x", operator := .eq, value := .num 1, side := none }) :=
  ⟨rfl, C4_amended (.obj []) (.obj [("x", .num 1)])
    { path := "x", operator := .eq, value := .num 1, side := none } rfl⟩

/-- C2 counterexample: a right element whose key path yields the two
values `"a"` and `"b"` is reachable only under `"a"` — the index has
no entry for the observed key value `"b"`. -/
theorem C2_counterexample :
    getValuesAtPath (.obj [("ids", .arr [.str "a", .str "b"])]) "ids[*]"
      = [.str "a", .str "b"] ∧
    indexLookup (buildRightIndex [.obj [("ids", .arr [.str "a", .str "b"])]] "ids[*]").1 "b"
      = [] ∧
    indexLookup (buildRightIndex [.obj [("ids", .arr [.str "a", .str "b"])]] "ids[*]").1 "a"
      = [.obj [("ids", .arr [.str "a", .str "b"])]] :=
  ⟨rfl, rfl, rfl⟩

theorem indexLookup_cons (k' : String) (l : List JsonValue)
    (rest : List (String × List JsonValue)) (k : String) :
    indexLookup ((k', l) :: rest) k = if k' = k then l else indexLookup rest k := by
  by_cases h : k' = k <;> simp [indexLookup, List.find?_cons, h]

theorem indexLookup_indexInsert (idx : List (String × List JsonValue))
    (key : String) (v : JsonValue) (k : String) :
    indexLookup (indexInsert idx key v) k =
      if key = k then indexLookup idx k ++ [v] else indexLookup idx k := by
  induction idx with
  | nil =>
    by_cases hk : key = k <;> simp [indexInsert, indexLookup, hk]
  | cons hd tl ih =>
    obtain ⟨k', l⟩ := hd
    by_cases h1 : k' = key
    · subst h1
      have hins : indexInsert ((k', l) :: tl) k' v = (k', l ++ [v]) :: tl := by
        simp [indexInsert]
      rw [hins, indexLookup_cons, indexLookup_cons]
      by_cases h2 : k' = k <;> simp [h2]
    · have hins : indexInsert ((k', l) :: tl) key v = (k', l) :: indexInsert tl key v := by
        simp [indexInsert, h1]
      rw [hins, indexLookup_cons, indexLookup_cons, ih]
      by_cases h2 : k' = k
      · subst h2
        have : ¬ key = k' := fun h => h1 h.symm
        simp [this]
      · simp [h2]

theorem buildRightIndexFold_spec (keyPath : String) (elems : List JsonValue)
    (acc : List (String × List JsonValue)) (n : Nat) (k : String) :
    indexLookup (elems.foldl (buildRightIndexStep keyPath) (acc, n)).1 k
      = indexLookup acc k ++ elems.filter (fun e => firstKeyString e keyPath == some k) ∧
    (elems.foldl (buildRightIndexStep keyPath) (acc, n)).2 = n + elems.length := by
  induction elems generalizing acc n with
  | nil => simp
  | cons e rest ih =>
    simp only [List.foldl_cons, List.filter_cons]
    by_cases hnn : isNotNullish (getValueAtPath e keyPath)
    · have hstep : buildRightIndexStep keyPath (acc, n) e
          = (indexInsert acc (jsToString (getValueAtPath e keyPath)) e, n + 1) := by
        simp [buildRightIndexStep, hnn]
      rw [hstep]
      obtain ⟨h1, h2⟩ := ih (indexInsert acc (jsToString (getValueAtPath e keyPath)) e) (n + 1)
      by_cases hk : jsToString (getValueAtPath e keyPath) = k
      · have hpred : (firstKeyString e keyPath == some k) = true := by
          simp [firstKeyString, hnn, hk]
        refine ⟨?_, by rw [h2]; simp [List.length_cons]; omega⟩
        rw [h1, indexLookup_indexInsert]
        simp [hk, hpred]
      · have hpred : (firstKeyString e keyPath == some k) = false := by
          simp [firstKeyString, hnn, hk]
        refine ⟨?_, by rw [h2]; simp [List.length_cons]; omega⟩
        rw [h1, indexLookup_indexInsert]
        simp [hk, hpred]
    · have hstep : buildRightIndexStep keyPath (acc, n) e = (acc, n + 1) := by
        simp [buildRightIndexStep, hnn]
      rw [hstep]
      obtain ⟨h1, h2⟩ := ih acc (n + 1)
      have hpred : (firstKeyString e keyPath == some k) = false := by
        simp [firstKeyString, hnn]
      refine ⟨by rw [h1]; simp [hpred], by rw [h2]; simp [List.length_cons]; omega⟩

/-- C2 amended: the right index is keyed by the stringified FIRST
value of the key path only (`getValueAtPath`): the bucket for `k`
holds exactly the right elements whose first, non-nullish key value
stringifies to `k`, in stream order; further values of a
multi-valued key path produce no entries. -/
theorem C2_amended (elems : List JsonValue) (keyPath : String) (k : String) :
    indexLookup (buildRightIndex elems keyPath).1 k
      = elems.filter (fun e => firstKeyString e keyPath == some k) ∧
    (buildRightIndex elems keyPath).2 = elems.length := by
  have h := buildRightIndexFold_spec keyPath elems [] 0 k
  simpa [buildRightIndex, indexLookup] using h

/-! ### executeQuery loop characterization -/

theorem takeLim_nil (lim : Option Nat) : takeLim lim ([] : List α) = [] := by
  cases lim <;> simp [takeLim]

theorem queryFold_spec (dp : String → Option JsNum) (cond : Option FilterCondition)
    (sel : Option (List String)) (lim : Option Nat) (off : Nat)
    (elems : List JsonValue) (st : QueryState) :
    (elems.foldl (queryStep dp cond sel lim off) st).items
      = st.items ++ takeLim (limSub lim st.items.length)
          (((elems.filter (passesCond dp cond)).drop (off - st.totalMatched)).map
            (projectSelect sel)) ∧
    (elems.foldl (queryStep dp cond sel lim off) st).totalMatched
      = st.totalMatched + (elems.filter (passesCond dp cond)).length ∧
    (elems.foldl (queryStep dp cond sel lim off) st).totalScanned
      = st.totalScanned + elems.length := by
  induction elems generalizing st with
  | nil => simp [takeLim_nil]
  | cons e rest ih =>
    simp only [List.foldl_cons, List.filter_cons, List.length_cons]
    by_cases hp : passesCond dp cond e
    · rw [if_pos hp]
      simp only [List.length_cons]
      by_cases hoff : st.totalMatched + 1 ≤ off
      · have hstep : queryStep dp cond sel lim off st e =
            { st with totalScanned := st.totalScanned + 1, totalMatched := st.totalMatched + 1 } := by
          simp [queryStep, hp, hoff]
        rw [hstep]
        obtain ⟨h1, h2, h3⟩ := ih { st with totalScanned := st.totalScanned + 1, totalMatched := st.totalMatched + 1 }
        have hdrop : off - st.totalMatched = (off - (st.totalMatched + 1)) + 1 := by omega
        refine ⟨?_, ?_, ?_⟩
        · rw [h1]; dsimp only
          rw [hdrop, List.drop_succ_cons]
        · rw [h2]; dsimp only; omega
        · rw [h3]; dsimp only; omega
      · have hdrop : off - st.totalMatched = 0 := by omega
        have hdrop2 : off - (st.totalMatched + 1) = 0 := by omega
        by_cases hlim : limitReached lim st.items.length
        · have hstep : queryStep dp cond sel lim off st e =
              { st with totalScanned := st.totalScanned + 1, totalMatched := st.totalMatched + 1 } := by
            simp [queryStep, hp, hoff, hlim]
          rw [hstep]
          obtain ⟨h1, h2, h3⟩ := ih { st with totalScanned := st.totalScanned + 1, totalMatched := st.totalMatched + 1 }
          obtain ⟨n, hn⟩ : ∃ n, lim = some n := by
            cases lim with
            | none => simp [limitReached] at hlim
            | some n => exact ⟨n, rfl⟩
          have hle : n ≤ st.items.length := by
            simpa [limitReached, hn] using hlim
          have hzero : n - st.items.length = 0 := by omega
          refine ⟨?_, ?_, ?_⟩
          · rw [h1]; dsimp only
            simp [hn, limSub, takeLim, hzero, hdrop, hdrop2]
          · rw [h2]; dsimp only; omega
          · rw [h3]; dsimp only; omega
        · have hstep : queryStep dp cond sel lim off st e =
              { items := st.items ++ [projectSelect sel e],
                totalMatched := st.totalMatched + 1,
                totalScanned := st.totalScanned + 1 } := by
            simp [queryStep, hp, hoff, hlim]
          rw [hstep]
          obtain ⟨h1, h2, h3⟩ := ih { items := st.items ++ [projectSelect sel e], totalMatched := st.totalMatched + 1, totalScanned := st.totalScanned + 1 }
          refine ⟨?_, ?_, ?_⟩
          · rw [h1]; dsimp only
            rw [hdrop, hdrop2, List.drop_zero, List.drop_zero, List.map_cons]
            cases lim with
            | none => simp [takeLim, limSub]
            | some n =>
              have hlt : st.items.length < n := by
                simpa [limitReached, Nat.not_le] using hlim
              have hsub : n - st.items.length = (n - (st.items.length + 1)) + 1 := by omega
              simp [takeLim, limSub, List.length_append, hsub, List.take_succ_cons]
          · rw [h2]; dsimp only; omega
          · rw [h3]; dsimp only; omega
    · rw [if_neg hp]
      have hstep : queryStep dp cond sel lim off st e =
          { st with totalScanned := st.totalScanned + 1 } := by
        simp [queryStep, hp]
      rw [hstep]
      obtain ⟨h1, h2, h3⟩ := ih { st with totalScanned := st.totalScanned + 1 }
      refine ⟨?_, ?_, ?_⟩
      · simpa using h1
      · simpa using h2
      · simp at h3 ⊢; omega

/-! ### JsNum order transfer -/

theorem JsNum.den_pos (a : JsNum) : 0 < a.den := by
  show (0 : Int) < ((a.denPred + 1 : Nat) : Int)
  exact_mod_cast Nat.succ_pos a.denPred

theorem JsNum.ble_iff {a b : JsNum} : a.ble b = true ↔ a.toRat ≤ b.toRat := by
  rw [JsNum.toRat, JsNum.toRat, Rat.divInt_le_divInt a.den_pos b.den_pos]
  simp [JsNum.ble]

theorem JsNum.minOp_le_left (a b : JsNum) : (a.minOp b).toRat ≤ a.toRat := by
  unfold JsNum.minOp
  by_cases h : a.ble b = true
  · rw [if_pos h]
  · rw [if_neg h]
    exact le_of_not_le fun hc => h (JsNum.ble_iff.mpr hc)

theorem JsNum.minOp_le_right (a b : JsNum) : (a.minOp b).toRat ≤ b.toRat := by
  unfold JsNum.minOp
  by_cases h : a.ble b = true
  · rw [if_pos h]
    exact JsNum.ble_iff.mp h
  · rw [if_neg h]

theorem JsNum.le_maxOp_left (a b : JsNum) : a.toRat ≤ (a.maxOp b).toRat := by
  unfold JsNum.maxOp
  by_cases h : a.ble b = true
  · rw [if_pos h]
    exact JsNum.ble_iff.mp h
  · rw [if_neg h]

theorem JsNum.le_maxOp_right (a b : JsNum) : b.toRat ≤ (a.maxOp b).toRat := by
  unfold JsNum.maxOp
  by_cases h : a.ble b = true
  · rw [if_pos h]
  · rw [if_neg h]
    exact le_of_not_le fun hc => h (JsNum.ble_iff.mpr hc)

theorem JsNum.sub_num (a b : JsNum) : (a - b).num = a.num * b.den - b.num * a.den := rfl

theorem JsNum.sub_num_nonneg {a b : JsNum} (h : b.toRat ≤ a.toRat) : 0 ≤ (a - b).num := by
  have hb : b.ble a = true := JsNum.ble_iff.mpr h
  have hc : b.num * a.den ≤ a.num * b.den := by simpa [JsNum.ble] using hb
  rw [JsNum.sub_num]
  omega

theorem JsNum.div_def (a b : JsNum) (h0 : 0 < b.num) :
    a / b = ⟨a.num * b.den, (a.denPred + 1) * b.num.natAbs - 1⟩ := by
  show (if b.num = 0 then (⟨0, 0⟩ : JsNum)
      else if b.num < 0 then ⟨-(a.num * b.den), (a.denPred + 1) * b.num.natAbs - 1⟩
      else ⟨a.num * b.den, (a.denPred + 1) * b.num.natAbs - 1⟩) = _
  rw [if_neg (by omega), if_neg (by omega)]

theorem JsNum.beq_zero_iff (q : JsNum) : q.beq 0 = true ↔ q.num = 0 := by
  show (q.num * (1 : Int) == 0 * q.den) = true ↔ q.num = 0
  simp

theorem JsNum.floor_nonneg {q : JsNum} (h : 0 ≤ q.num) : 0 ≤ q.floor :=
  Int.fdiv_nonneg h (le_of_lt q.den_pos)

/-- Boolean comparisons through the rational value. -/
theorem JsNum.blt_iff {a b : JsNum} : a.blt b = true ↔ a.toRat < b.toRat := by
  have hb : a.blt b = !(b.ble a) := by
    simp only [JsNum.blt, JsNum.ble]
    by_cases h : a.num * b.den < b.num * a.den <;> simp [h] <;> omega
  constructor
  · intro h
    rw [hb, Bool.not_eq_true'] at h
    refine lt_of_not_le fun hc => ?_
    rw [JsNum.ble_iff.mpr hc] at h
    cases h
  · intro h
    rw [hb, Bool.not_eq_true']
    cases hc : b.ble a
    · rfl
    · exact absurd (JsNum.ble_iff.mp hc) (not_le.mpr h)

theorem JsNum.ble_eq_decide (a b : JsNum) : a.ble b = decide (a.toRat ≤ b.toRat) := by
  by_cases h : a.toRat ≤ b.toRat
  · rw [JsNum.ble_iff.mpr h, decide_eq_true h]
  · have h1 : a.ble b ≠ true := fun hc => h (JsNum.ble_iff.mp hc)
    rw [decide_eq_false h]
    exact Bool.eq_false_iff.mpr h1

theorem JsNum.blt_eq_decide (a b : JsNum) : a.blt b = decide (a.toRat < b.toRat) := by
  by_cases h : a.toRat < b.toRat
  · rw [JsNum.blt_iff.mpr h, decide_eq_true h]
  · have h1 : a.blt b ≠ true := fun hc => h (JsNum.blt_iff.mp hc)
    rw [decide_eq_false h]
    exact Bool.eq_false_iff.mpr h1

/-- The ordering evaluation only depends on the rational values of
its operands. -/
theorem ordEval_congr {a a2 b b2 : JsNum} (op : Op) (ha : a.toRat = a2.toRat)
    (hb : b.toRat = b2.toRat) : ordEval op a b = ordEval op a2 b2 := by
  cases op <;> simp [ordEval, JsNum.ble_eq_decide, JsNum.blt_eq_decide, ha, hb]

/-- Truncation is the identity on integer-valued numbers. -/
theorem timeClip_integral {a : JsNum} (h : a.num % a.den = 0) :
    (timeClipTrunc a).toRat = a.toRat := by
  obtain ⟨k, hk⟩ := Int.dvd_of_emod_eq_zero h
  have hden : a.den ≠ 0 := ne_of_gt a.den_pos
  have ht : a.num.tdiv a.den = k := by
    rw [hk, Int.mul_tdiv_cancel_left k hden]
  show Rat.divInt (a.num.tdiv a.den) 1 = Rat.divInt a.num a.den
  rw [ht, hk, Int.mul_comm]
  rw [show Rat.divInt (k * a.den) a.den = Rat.divInt (k * a.den) (1 * a.den) from by
    rw [Int.one_mul]]
  rw [Rat.divInt_mul_right hden]

/-- C1 amended: the ordering operators attempt date interpretation
first (numbers as epoch values put through `TimeClip`), falling back
to numeric comparison only when a side is not date-interpretable; for
numeric operands within the valid epoch range (at most 8.64e15 in
magnitude) the comparison is applied to the truncated integer epoch
values — fractional milliseconds are dropped — so it coincides with
numeric comparison exactly on integer-valued operands, while the
join-filter variant of `compareValues` compares numbers numerically
with no date attempt at all. -/
theorem C1_amended (dp : String → Option JsNum) (op : Op) (a b : JsNum)
    (hop : isOrdering op = true) :
    ((((-maxDateMs).ble a && a.ble maxDateMs) = true →
      ((-maxDateMs).ble b && b.ble maxDateMs) = true →
        compareValues dp (.num a) op (.num b)
          = ordEval op (timeClipTrunc a) (timeClipTrunc b)) ∧
    (((-maxDateMs).ble a && a.ble maxDateMs) = true →
      ((-maxDateMs).ble b && b.ble maxDateMs) = true →
        a.num % a.den = 0 → b.num % b.den = 0 →
          compareValues dp (.num a) op (.num b) = ordEval op a b) ∧
    compareValuesJoin (.num a) op (.num b) = ordEval op a b) := by
  have hdate : (((-maxDateMs).ble a && a.ble maxDateMs) = true →
      ((-maxDateMs).ble b && b.ble maxDateMs) = true →
        compareValues dp (.num a) op (.num b)
          = ordEval op (timeClipTrunc a) (timeClipTrunc b)) := by
    intro ha hb
    cases op <;> simp_all [compareValues, compareOrdering, parseDate, isOrdering]
  refine ⟨hdate, ?_, ?_⟩
  · intro ha hb hia hib
    rw [hdate ha hb]
    exact ordEval_congr op (timeClip_integral hia) (timeClip_integral hib)
  · cases op <;> simp_all [compareValuesJoin, isOrdering]

/-- C1 amended, witnessed at the fractional pair `3/2 > 6/5` (both
truncate to epoch value 1, so the program says `false` although the
numbers compare `true`) and at the integer pair `20 > 10`, with a
date parser accepting nothing. -/
theorem C1_amended_witness :
    isOrdering .gt = true ∧
    ((-maxDateMs).ble ⟨3, 1⟩ && JsNum.ble ⟨3, 1⟩ maxDateMs) = true ∧
    ((-maxDateMs).ble ⟨6, 4⟩ && JsNum.ble ⟨6, 4⟩ maxDateMs) = true ∧
    compareValues (fun _ => none) (.num ⟨3, 1⟩) .gt (.num ⟨6, 4⟩)
      = ordEval .gt (timeClipTrunc ⟨3, 1⟩) (timeClipTrunc ⟨6, 4⟩) ∧
    compareValues (fun _ => none) (.num ⟨3, 1⟩) .gt (.num ⟨6, 4⟩) = false ∧
    ordEval .gt (⟨3, 1⟩ : JsNum) ⟨6, 4⟩ = true ∧
    compareValues (fun _ => none) (.num 20) .gt (.num 10) = ordEval .gt 20 10 ∧
    compareValuesJoin (.num 20) .gt (.num 10) = ordEval .gt 20 10 := by
  have h1 := C1_amended (fun _ => none) .gt ⟨3, 1⟩ ⟨6, 4⟩ rfl
  have h2 := C1_amended (fun _ => none) .gt 20 10 rfl
  exact ⟨rfl, by decide, by decide, h1.1 (by decide) (by decide), rfl, by decide,
    h2.2.1 (by decide) (by decide) (by decide) (by decide), h2.2.2⟩

/-! ### stats fold characterization -/

theorem statsValFold_count (vals : List JsNum) (s : StatsState) :
    (vals.foldl statsValStep s).count = s.count + vals.length := by
  induction vals generalizing s with
  | nil => simp
  | cons q rest ih =>
    rw [List.foldl_cons, ih]
    simp [statsValStep]
    omega

theorem statsValFold_scanned (vals : List JsNum) (s : StatsState) :
    (vals.foldl statsValStep s).scanned = s.scanned := by
  induction vals generalizing s with
  | nil => rfl
  | cons q rest ih =>
    rw [List.foldl_cons, ih]
    rfl

theorem statsValFold_min (vals : List JsNum) (s : StatsState) :
    (vals.foldl statsValStep s).min = vals.foldl optMinStep s.min := by
  induction vals generalizing s with
  | nil => rfl
  | cons q rest ih =>
    rw [List.foldl_cons, List.foldl_cons, ih]
    rfl

theorem statsValFold_max (vals : List JsNum) (s : StatsState) :
    (vals.foldl statsValStep s).max = vals.foldl optMaxStep s.max := by
  induction vals generalizing s with
  | nil => rfl
  | cons q rest ih =>
    rw [List.foldl_cons, List.foldl_cons, ih]
    rfl

theorem optMinFold_some (vals : List JsNum) (m0 : JsNum) :
    ∃ m, vals.foldl optMinStep (some m0) = some m := by
  induction vals generalizing m0 with
  | nil => exact ⟨m0, rfl⟩
  | cons q rest ih => simpa [optMinStep] using ih (m0.minOp q)

theorem optMaxFold_some (vals : List JsNum) (m0 : JsNum) :
    ∃ m, vals.foldl optMaxStep (some m0) = some m := by
  induction vals generalizing m0 with
  | nil => exact ⟨m0, rfl⟩
  | cons q rest ih => simpa [optMaxStep] using ih (m0.maxOp q)

theorem optMinFold_le (vals : List JsNum) :
    ∀ (o : Option JsNum) (m : JsNum), vals.foldl optMinStep o = some m →
      (∀ v ∈ vals, m.toRat ≤ v.toRat) ∧ (∀ m0, o = some m0 → m.toRat ≤ m0.toRat) := by
  induction vals with
  | nil =>
    intro o m h
    refine ⟨by simp, ?_⟩
    intro m0 h0
    rw [h0] at h
    cases h
    exact le_rfl
  | cons q rest ih =>
    intro o m h
    rw [List.foldl_cons] at h
    obtain ⟨h1, h2⟩ := ih (optMinStep o q) m h
    have hq : m.toRat ≤ (match o with | none => q | some n => n.minOp q).toRat := h2 _ rfl
    constructor
    · intro v hv
      rcases List.mem_cons.mp hv with rfl | hv
      · cases o with
        | none => exact hq
        | some n => exact le_trans hq (JsNum.minOp_le_right n v)
      · exact h1 v hv
    · intro m0 h0
      subst h0
      exact le_trans hq (JsNum.minOp_le_left m0 q)

theorem optMaxFold_ge (vals : List JsNum) :
    ∀ (o : Option JsNum) (m : JsNum), vals.foldl optMaxStep o = some m →
      (∀ v ∈ vals, v.toRat ≤ m.toRat) ∧ (∀ m0, o = some m0 → m0.toRat ≤ m.toRat) := by
  induction vals with
  | nil =>
    intro o m h
    refine ⟨by simp, ?_⟩
    intro m0 h0
    rw [h0] at h
    cases h
    exact le_rfl
  | cons q rest ih =>
    intro o m h
    rw [List.foldl_cons] at h
    obtain ⟨h1, h2⟩ := ih (optMaxStep o q) m h
    have hq : (match o with | none => q | some n => n.maxOp q).toRat ≤ m.toRat := h2 _ rfl
    constructor
    · intro v hv
      rcases List.mem_cons.mp hv with rfl | hv
      · cases o with
        | none => exact hq
        | some n => exact le_trans (JsNum.le_maxOp_right n v) hq
      · exact h1 v hv
    · intro m0 h0
      subst h0
      exact le_trans (JsNum.le_maxOp_left m0 q) hq

/-! ### The stats and distribution loops as folds over the numeric values -/

theorem statsValFold_scanned_set (vals : List JsNum) (s : StatsState) (k : Nat) :
    vals.foldl statsValStep { s with scanned := k }
      = { vals.foldl statsValStep s with scanned := k } := by
  induction vals generalizing s with
  | nil => rfl
  | cons q rest ih =>
    rw [List.foldl_cons, List.foldl_cons,
      show statsValStep { s with scanned := k } q = { statsValStep s q with scanned := k } from rfl,
      ih]

theorem statsStep_fold (dp : String → Option JsNum) (cond : Option FilterCondition)
    (path : String) (elems : List JsonValue) (s : StatsState) :
    elems.foldl (statsStep dp cond path) s
      = { (numericValuesOf dp cond path elems).foldl statsValStep s with
          scanned := s.scanned + elems.length } := by
  induction elems generalizing s with
  | nil => simp [numericValuesOf]
  | cons e rest ih =>
    have hnv : numericValuesOf dp cond path (e :: rest)
        = (if passesCond dp cond e then (getValuesAtPath e path).filterMap toFiniteNumber else [])
            ++ numericValuesOf dp cond path rest := by
      by_cases hp : passesCond dp cond e <;> simp [numericValuesOf, List.filter_cons, hp]
    rw [List.foldl_cons, hnv]
    by_cases hp : passesCond dp cond e
    · have hstep : statsStep dp cond path s e
          = ((getValuesAtPath e path).filterMap toFiniteNumber).foldl statsValStep
              { s with scanned := s.scanned + 1 } := by
        simp [statsStep, hp]
      rw [hstep, statsValFold_scanned_set, ih, if_pos hp, List.foldl_append,
        statsValFold_scanned_set]
      dsimp only
      rw [List.length_cons]
      congr 1
      omega
    · have hstep : statsStep dp cond path s e = { s with scanned := s.scanned + 1 } := by
        simp [statsStep, hp]
      rw [hstep, ih, if_neg hp, statsValFold_scanned_set]
      dsimp only
      rw [List.nil_append, List.length_cons]
      congr 1
      omega

theorem sum_set_getD (l : List Nat) (i : Nat) (h : i < l.length) :
    (l.set i (l.getD i 0 + 1)).sum = l.sum + 1 := by
  induction l generalizing i with
  | nil => simp at h
  | cons a t ih =>
    cases i with
    | zero =>
      simp only [List.set, List.getD_cons_zero, List.sum_cons]
      omega
    | succ n =>
      have hn : n < t.length := by simpa using h
      have hrec := ih n hn
      simp only [List.set, List.getD_cons_succ, List.sum_cons]
      omega

theorem distValStep_counts_len (mv bs : JsNum) (bc : Nat) (st : DistState) (q : JsNum) :
    (distValStep mv bs bc st q).counts.length = st.counts.length := by
  unfold distValStep
  dsimp only
  split <;> simp [List.length_set]

theorem distValFold_total (mv bs : JsNum) (bc : Nat) (vals : List JsNum) (st : DistState) :
    (vals.foldl (distValStep mv bs bc) st).total = st.total + vals.length := by
  induction vals generalizing st with
  | nil => simp
  | cons q rest ih =>
    rw [List.foldl_cons, ih]
    show (distValStep mv bs bc st q).total + rest.length = _
    rw [show (distValStep mv bs bc st q).total = st.total + 1 from rfl, List.length_cons]
    omega

theorem distValFold_scanned (mv bs : JsNum) (bc : Nat) (vals : List JsNum) (st : DistState) :
    (vals.foldl (distValStep mv bs bc) st).scanned = st.scanned := by
  induction vals generalizing st with
  | nil => rfl
  | cons q rest ih =>
    rw [List.foldl_cons, ih]
    rfl

theorem distValFold_counts_len (mv bs : JsNum) (bc : Nat) (vals : List JsNum) (st : DistState) :
    (vals.foldl (distValStep mv bs bc) st).counts.length = st.counts.length := by
  induction vals generalizing st with
  | nil => rfl
  | cons q rest ih =>
    rw [List.foldl_cons, ih, distValStep_counts_len]

theorem distValFold_sum (mv bs : JsNum) (bc : Nat) (vals : List JsNum) (st : DistState)
    (h : ∀ v ∈ vals, 0 ≤ bucketIndexOf mv bs bc v
      ∧ (bucketIndexOf mv bs bc v).toNat < st.counts.length) :
    (vals.foldl (distValStep mv bs bc) st).counts.sum = st.counts.sum + vals.length := by
  induction vals generalizing st with
  | nil => simp
  | cons q rest ih =>
    have hq := h q (List.mem_cons_self q rest)
    rw [List.foldl_cons, ih _ (fun v hv => by
      rw [distValStep_counts_len]
      exact h v (List.mem_cons_of_mem q hv))]
    have hsum : (distValStep mv bs bc st q).counts.sum = st.counts.sum + 1 := by
      unfold distValStep
      dsimp only
      rw [if_pos ⟨hq.1, hq.2⟩]
      exact sum_set_getD _ _ hq.2
    rw [hsum, List.length_cons]
    omega

theorem distValFold_scanned_set (mv bs : JsNum) (bc : Nat) (vals : List JsNum)
    (st : DistState) (k : Nat) :
    vals.foldl (distValStep mv bs bc) { st with scanned := k }
      = { vals.foldl (distValStep mv bs bc) st with scanned := k } := by
  induction vals generalizing st with
  | nil => rfl
  | cons q rest ih =>
    rw [List.foldl_cons, List.foldl_cons,
      show distValStep mv bs bc { st with scanned := k } q
        = { distValStep mv bs bc st q with scanned := k } from rfl,
      ih]

theorem distStep_fold (dp : String → Option JsNum) (cond : Option FilterCondition)
    (path : String) (mv bs : JsNum) (bc : Nat) (elems : List JsonValue) (st : DistState) :
    elems.foldl (distStep dp cond path mv bs bc) st
      = { (numericValuesOf dp cond path elems).foldl (distValStep mv bs bc) st with
          scanned := st.scanned + elems.length } := by
  induction elems generalizing st with
  | nil => simp [numericValuesOf]
  | cons e rest ih =>
    have hnv : numericValuesOf dp cond path (e :: rest)
        = (if passesCond dp cond e then (getValuesAtPath e path).filterMap toFiniteNumber else [])
            ++ numericValuesOf dp cond path rest := by
      by_cases hp : passesCond dp cond e <;> simp [numericValuesOf, List.filter_cons, hp]
    rw [List.foldl_cons, hnv]
    by_cases hp : passesCond dp cond e
    · have hstep : distStep dp cond path mv bs bc st e
          = ((getValuesAtPath e path).filterMap toFiniteNumber).foldl (distValStep mv bs bc)
              { st with scanned := st.scanned + 1 } := by
        simp [distStep, hp]
      rw [hstep, distValFold_scanned_set, ih, if_pos hp, List.foldl_append,
        distValFold_scanned_set]
      dsimp only
      rw [List.length_cons]
      congr 1
      omega
    · have hstep : distStep dp cond path mv bs bc st e = { st with scanned := st.scanned + 1 } := by
        simp [distStep, hp]
      rw [hstep, ih, if_neg hp, distValFold_scanned_set]
      dsimp only
      rw [List.nil_append, List.length_cons]
      congr 1
      omega

/-! ### Bucket index bounds -/

theorem bucketIndexOf_range {mv bs : JsNum} {bc : Nat} {v : JsNum}
    (hbc : 0 < bc) (hbs : 0 < bs.num) (hle : mv.toRat ≤ v.toRat) :
    0 ≤ bucketIndexOf mv bs bc v ∧ (bucketIndexOf mv bs bc v).toNat < bc := by
  have hnum : 0 ≤ (v - mv).num := JsNum.sub_num_nonneg hle
  have hdiv : (v - mv) / bs
      = ⟨(v - mv).num * bs.den, ((v - mv).denPred + 1) * bs.num.natAbs - 1⟩ :=
    JsNum.div_def _ _ hbs
  have hfl : 0 ≤ ((v - mv) / bs).floor := by
    apply JsNum.floor_nonneg
    rw [hdiv]
    exact mul_nonneg hnum (le_of_lt (JsNum.den_pos bs))
  have h0 : 0 ≤ bucketIndexOf mv bs bc v := le_min hfl (by omega)
  refine ⟨h0, ?_⟩
  have h2 : bucketIndexOf mv bs bc v ≤ (bc : Int) - 1 := min_le_right _ _
  omega

theorem bucketSize_num_pos {mv mxv : JsNum} {bc : Nat} (hbc : 0 < bc)
    (hle : mv.toRat ≤ mxv.toRat) :
    0 < (if ((mxv - mv) / JsNum.ofNat bc).beq 0 then (1 : JsNum)
         else (mxv - mv) / JsNum.ofNat bc).num := by
  have hdnum : 0 ≤ (mxv - mv).num := JsNum.sub_num_nonneg hle
  have hbnum : 0 < (JsNum.ofNat bc).num := by
    show (0 : Int) < (bc : Int)
    exact_mod_cast hbc
  have hdiv := JsNum.div_def (mxv - mv) (JsNum.ofNat bc) hbnum
  have hqnum : ((mxv - mv) / JsNum.ofNat bc).num = (mxv - mv).num * (JsNum.ofNat bc).den := by
    rw [hdiv]
  by_cases hz : ((mxv - mv) / JsNum.ofNat bc).beq 0 = true
  · rw [if_pos hz]
    show (0 : Int) < 1
    omega
  · rw [if_neg hz]
    have hnz : ((mxv - mv) / JsNum.ofNat bc).num ≠ 0 :=
      fun h => hz ((JsNum.beq_zero_iff _).mpr h)
    have hge : 0 ≤ ((mxv - mv) / JsNum.ofNat bc).num := by
      rw [hqnum]
      exact mul_nonneg hdnum (le_of_lt (JsNum.den_pos _))
    omega

theorem map_count_enum (l : List Nat) (f : Nat × Nat → DistributionBucket)
    (hf : ∀ ic, (f ic).count = ic.2) :
    ((l.enum.map f).map DistributionBucket.count).sum = l.sum := by
  rw [List.map_map]
  have hcongr : l.enum.map (DistributionBucket.count ∘ f) = l.enum.map Prod.snd :=
    List.map_congr_left (fun a _ => hf a)
  rw [hcongr, List.enum_map_snd]

/-! ### stats results against the numeric value list -/

theorem stats_count_eq (dp : String → Option JsNum) (elems : List JsonValue)
    (path : String) (filter : Option String) :
    (stats dp elems path filter).count
      = (numericValuesOf dp (filterCondOf filter) path elems).length := by
  simp only [stats]
  rw [statsStep_fold]
  dsimp only
  rw [statsValFold_count]
  simp

theorem stats_minmax_le (dp : String → Option JsNum) (elems : List JsonValue)
    (path : String) (filter : Option String)
    (hne : numericValuesOf dp (filterCondOf filter) path elems ≠ []) :
    ∀ v ∈ numericValuesOf dp (filterCondOf filter) path elems,
      (stats dp elems path filter).min.toRat ≤ v.toRat
        ∧ v.toRat ≤ (stats dp elems path filter).max.toRat := by
  obtain ⟨q, vs, hc⟩ := List.exists_cons_of_ne_nil hne
  obtain ⟨m, hm⟩ := optMinFold_some vs q
  obtain ⟨mx, hmx⟩ := optMaxFold_some vs q
  have hsome : (numericValuesOf dp (filterCondOf filter) path elems).foldl optMinStep none
      = some m := by
    rw [hc, List.foldl_cons]
    exact hm
  have hsomeMax : (numericValuesOf dp (filterCondOf filter) path elems).foldl optMaxStep none
      = some mx := by
    rw [hc, List.foldl_cons]
    exact hmx
  have hposc : ((numericValuesOf dp (filterCondOf filter) path elems).foldl statsValStep
      (⟨0, 0, none, none, 0⟩ : StatsState)).count > 0 := by
    rw [statsValFold_count, hc]
    simp
  have hminval : (stats dp elems path filter).min = m := by
    simp only [stats]
    rw [statsStep_fold]
    dsimp only
    rw [if_pos hposc, statsValFold_min]
    dsimp only
    rw [hsome]
    rfl
  have hmaxval : (stats dp elems path filter).max = mx := by
    simp only [stats]
    rw [statsStep_fold]
    dsimp only
    rw [if_pos hposc, statsValFold_max]
    dsimp only
    rw [hsomeMax]
    rfl
  intro v hv
  rw [hminval, hmaxval]
  exact ⟨(optMinFold_le _ none m hsome).1 v hv, (optMaxFold_ge _ none mx hsomeMax).1 v hv⟩

/-- C3: pagination law — with a fixed filter and selection, the items
of `executeQuery` at `{limit := L, offset := O}` are exactly the slice
`[O, O+L)` of the items of the unbounded run (`limit = Infinity`,
`offset = 0`); and in every call, `totalScanned` counts every element
and `totalMatched` every passing element, independent of limit and
offset. -/
theorem C3_pagination_law (dp : String → Option JsNum) (elems : List JsonValue)
    (f : Option String) (sel : Option (List String)) (L O : Nat) :
    (executeQuery dp elems ⟨sel, f, some L, O⟩).items
      = (((executeQuery dp elems ⟨sel, f, none, 0⟩).items).drop O).take L ∧
    (∀ (lim : Option Nat) (off : Nat),
      (executeQuery dp elems ⟨sel, f, lim, off⟩).totalScanned = elems.length ∧
      (executeQuery dp elems ⟨sel, f, lim, off⟩).totalMatched
        = (elems.filter (passesCond dp (filterCondOf f))).length) := by
  constructor
  · obtain ⟨h1, _, _⟩ := queryFold_spec dp (filterCondOf f) sel (some L) O elems ⟨[], 0, 0⟩
    obtain ⟨g1, _, _⟩ := queryFold_spec dp (filterCondOf f) sel none 0 elems ⟨[], 0, 0⟩
    simp only [executeQuery]
    rw [h1, g1]
    simp [takeLim, limSub, List.map_drop]
  · intro lim off
    obtain ⟨_, h2, h3⟩ := queryFold_spec dp (filterCondOf f) sel lim off elems ⟨[], 0, 0⟩
    simp only [executeQuery]
    rw [h2, h3]
    simp

/-- C6 counterexample: with bucket count 0 (and one numeric value at
the path), the per-bucket counts of `distribution` sum to 0 while
`stats` counts 1 and `distribution.total` is 1 — the claimed equality
of the bucket-count sum with the stats count and with `total` fails at
bucket count 0. -/
theorem C6_counterexample :
    ((distribution (fun _ => none) [JsonValue.obj [("v", JsonValue.num 5)]] "v" none 0).buckets.map
        DistributionBucket.count).sum = 0
    ∧ (distribution (fun _ => none) [JsonValue.obj [("v", JsonValue.num 5)]] "v" none 0).total = 1
    ∧ (stats (fun _ => none) [JsonValue.obj [("v", JsonValue.num 5)]] "v" none).count = 1 :=
  ⟨rfl, rfl, rfl⟩

/-- C6 (amended): for every positive bucket count, the per-bucket
counts of `distribution` sum to `stats.count` on the same file, path
and filter, `distribution.total` equals that count as well, and a zero
count yields an empty bucket list with total 0 (the bucket size having
fallen back to 1 when `max = min` keeps every index in range). -/
theorem C6_amended (dp : String → Option JsNum) (elems : List JsonValue)
    (path : String) (filter : Option String) (bc : Nat) (hbc : 0 < bc) :
    (((distribution dp elems path filter bc).buckets.map DistributionBucket.count).sum
        = (stats dp elems path filter).count)
    ∧ (distribution dp elems path filter bc).total = (stats dp elems path filter).count
    ∧ ((stats dp elems path filter).count = 0 →
        (distribution dp elems path filter bc).buckets = []
          ∧ (distribution dp elems path filter bc).total = 0) := by
  by_cases hz : (stats dp elems path filter).count = 0
  · have hd : distribution dp elems path filter bc
        = { buckets := [], total := 0, scanned := (stats dp elems path filter).scanned } := by
      simp only [distribution]
      rw [if_pos hz]
    rw [hd, hz]
    simp
  · have hcount := stats_count_eq dp elems path filter
    have hne : numericValuesOf dp (filterCondOf filter) path elems ≠ [] := by
      intro h
      apply hz
      rw [hcount, h]
      rfl
    obtain ⟨q, vs, hc⟩ := List.exists_cons_of_ne_nil hne
    have hmem_q : q ∈ numericValuesOf dp (filterCondOf filter) path elems := by
      rw [hc]
      exact List.mem_cons_self q vs
    have hminmax := stats_minmax_le dp elems path filter hne
    have hmm2 : (stats dp elems path filter).min.toRat
        ≤ (stats dp elems path filter).max.toRat :=
      le_trans (hminmax q hmem_q).1 (hminmax q hmem_q).2
    have hbs : 0 < (if (((stats dp elems path filter).max - (stats dp elems path filter).min)
            / JsNum.ofNat bc).beq 0 then (1 : JsNum)
          else ((stats dp elems path filter).max - (stats dp elems path filter).min)
            / JsNum.ofNat bc).num :=
      bucketSize_num_pos hbc hmm2
    have hrange : ∀ v ∈ numericValuesOf dp (filterCondOf filter) path elems,
        0 ≤ bucketIndexOf (stats dp elems path filter).min
            (if (((stats dp elems path filter).max - (stats dp elems path filter).min)
                / JsNum.ofNat bc).beq 0 then (1 : JsNum)
              else ((stats dp elems path filter).max - (stats dp elems path filter).min)
                / JsNum.ofNat bc) bc v
          ∧ (bucketIndexOf (stats dp elems path filter).min
            (if (((stats dp elems path filter).max - (stats dp elems path filter).min)
                / JsNum.ofNat bc).beq 0 then (1 : JsNum)
              else ((stats dp elems path filter).max - (stats dp elems path filter).min)
                / JsNum.ofNat bc) bc v).toNat
            < ((⟨List.replicate bc 0, 0, 0⟩ : DistState)).counts.length := by
      intro v hv
      have hb := bucketIndexOf_range hbc hbs (hminmax v hv).1
      exact ⟨hb.1, by simpa using hb.2⟩
    simp only [distribution]
    rw [if_neg hz, distStep_fold]
    dsimp only
    refine ⟨?_, ?_, fun h => absurd h hz⟩
    · rw [map_count_enum _ _ (fun ic => rfl), distValFold_sum _ _ _ _ _ hrange, hcount]
      simp
    · rw [distValFold_total, hcount]
      simp

/-- C6 witness: the amended theorem applied at two numeric values and
bucket count 2. -/
theorem C6_amended_witness :
    0 < 2
    ∧ ((((distribution (fun _ => none)
          [JsonValue.obj [("v", JsonValue.num 5)], JsonValue.obj [("v", JsonValue.num 9)]]
          "v" none 2).buckets.map DistributionBucket.count).sum
        = (stats (fun _ => none)
          [JsonValue.obj [("v", JsonValue.num 5)], JsonValue.obj [("v", JsonValue.num 9)]]
          "v" none).count)
    ∧ (distribution (fun _ => none)
          [JsonValue.obj [("v", JsonValue.num 5)], JsonValue.obj [("v", JsonValue.num 9)]]
          "v" none 2).total
        = (stats (fun _ => none)
          [JsonValue.obj [("v", JsonValue.num 5)], JsonValue.obj [("v", JsonValue.num 9)]]
          "v" none).count
    ∧ ((stats (fun _ => none)
          [JsonValue.obj [("v", JsonValue.num 5)], JsonValue.obj [("v", JsonValue.num 9)]]
          "v" none).count = 0 →
        (distribution (fun _ => none)
          [JsonValue.obj [("v", JsonValue.num 5)], JsonValue.obj [("v", JsonValue.num 9)]]
          "v" none 2).buckets = []
          ∧ (distribution (fun _ => none)
          [JsonValue.obj [("v", JsonValue.num 5)], JsonValue.obj [("v", JsonValue.num 9)]]
          "v" none 2).total = 0)) :=
  ⟨by decide,
    C6_amended (fun _ => none)
      [JsonValue.obj [("v", JsonValue.num 5)], JsonValue.obj [("v", JsonValue.num 9)]]
      "v" none 2 (by decide)⟩

/-! ### mergeSchemas and the optional flag -/

theorem propsInd {motive : SchemaProps → Prop} (hnil : motive .nil)
    (hcons : ∀ k v rest, motive rest → motive (.cons k v rest))
    (hfn : ∀ k rest, motive rest → motive (.consFn k rest))
    (hjunk : ∀ k o rest, motive rest → motive (.consJunk k o rest)) :
    ∀ p, motive p
  | .nil => hnil
  | .cons k v rest => hcons k v rest (propsInd hnil hcons hfn hjunk rest)
  | .consFn k rest => hfn k rest (propsInd hnil hcons hfn hjunk rest)
  | .consJunk k o rest => hjunk k o rest (propsInd hnil hcons hfn hjunk rest)

theorem withOptional_optionalOf (v : SchemaNode) : v.withOptional.optionalOf = true := by
  cases v
  rfl

theorem mergeSchemas_optionalOf (e v : SchemaNode) :
    (mergeSchemas e v).optionalOf = e.optionalOf := by
  cases e with
  | mk et edt ep ei eal epat eex eopt =>
    cases v with
    | mk it idt ip ii ial ipat iex iopt =>
      unfold mergeSchemas
      split <;> rfl

theorem lookupOwn_consOfProp (k : String) (p : OwnProp) (rest : SchemaProps) (k2 : String) :
    lookupOwnProp (consOfProp k p rest) k2
      = if k = k2 then some p else lookupOwnProp rest k2 := by
  cases p <;> rfl

theorem lookupOwn_setOwnProp (acc : SchemaProps) (k : String) (p : OwnProp) (k2 : String) :
    lookupOwnProp (setOwnProp acc k p) k2
      = if k = k2 then some p else lookupOwnProp acc k2 := by
  induction acc using propsInd with
  | hnil => exact lookupOwn_consOfProp k p .nil k2
  | hcons k' v' rest ih =>
    simp only [setOwnProp]
    by_cases h1 : k' = k
    · rw [if_pos h1, lookupOwn_consOfProp]
      subst h1
      simp only [lookupOwnProp]
      by_cases h2 : k' = k2 <;> simp [h2]
    · rw [if_neg h1]
      simp only [lookupOwnProp, ih]
      by_cases h2 : k = k2
      · subst h2
        rw [if_pos rfl, if_neg h1, if_pos rfl]
      · rw [if_neg h2, if_neg h2]
  | hfn k' rest ih =>
    simp only [setOwnProp]
    by_cases h1 : k' = k
    · rw [if_pos h1, lookupOwn_consOfProp]
      subst h1
      simp only [lookupOwnProp]
      by_cases h2 : k' = k2 <;> simp [h2]
    · rw [if_neg h1]
      simp only [lookupOwnProp, ih]
      by_cases h2 : k = k2
      · subst h2
        rw [if_pos rfl, if_neg h1, if_pos rfl]
      · rw [if_neg h2, if_neg h2]
  | hjunk k' o rest ih =>
    simp only [setOwnProp]
    by_cases h1 : k' = k
    · rw [if_pos h1, lookupOwn_consOfProp]
      subst h1
      simp only [lookupOwnProp]
      by_cases h2 : k' = k2 <;> simp [h2]
    · rw [if_neg h1]
      simp only [lookupOwnProp, ih]
      by_cases h2 : k = k2
      · subst h2
        rw [if_pos rfl, if_neg h1, if_pos rfl]
      · rw [if_neg h2, if_neg h2]

theorem allPlain_lookupOwn (props : SchemaProps) (h : props.allPlain = true) (k : String)
    (p : OwnProp) (hl : lookupOwnProp props k = some p) :
    ∃ n, p = OwnProp.node n ∧ n.optionalOf = false := by
  induction props using propsInd with
  | hnil => cases hl
  | hcons k' v rest ih =>
    simp only [SchemaProps.allPlain, Bool.and_eq_true, Bool.not_eq_true'] at h
    simp only [lookupOwnProp] at hl
    by_cases hk : k' = k
    · rw [if_pos hk] at hl
      cases hl
      exact ⟨v, rfl, h.1⟩
    · rw [if_neg hk] at hl
      exact ih h.2 hl
  | hfn k' rest ih => cases h
  | hjunk k' o rest ih => cases h

/-- Storing a non-node own binding preserves the correspondence of
optional flags with the first sample. -/
theorem inv_setOwnProp_nonnode (firstProps acc : SchemaProps) (k : String) (p : OwnProp)
    (hp : ∀ n, ¬ p = OwnProp.node n)
    (h : optionalMatchesFirst firstProps acc) :
    optionalMatchesFirst firstProps (setOwnProp acc k p) := by
  intro k2
  constructor
  · intro hnone
    rw [lookupOwn_setOwnProp] at hnone
    by_cases hk2 : k = k2
    · rw [if_pos hk2] at hnone
      cases hnone
    · rw [if_neg hk2] at hnone
      exact (h k2).1 hnone
  · intro n hn
    rw [lookupOwn_setOwnProp] at hn
    by_cases hk2 : k = k2
    · rw [if_pos hk2] at hn
      cases hn
      exact absurd rfl (hp n)
    · rw [if_neg hk2] at hn
      exact (h k2).2 n hn

theorem mergeIntoProps_inv (firstProps : SchemaProps) (inc : SchemaProps) :
    ∀ acc, optionalMatchesFirst firstProps acc →
      optionalMatchesFirst firstProps (mergeIntoProps acc inc) := by
  induction inc using propsInd with
  | hnil =>
    intro acc h
    exact h
  | hcons k v rest ih =>
    intro acc h
    cases hl : lookupOwnProp acc k with
    | some p =>
      cases p with
      | node e =>
        have hstep : mergeIntoProps acc (.cons k v rest)
            = mergeIntoProps (setOwnProp acc k (.node (mergeSchemas e v))) rest := by
          simp only [mergeIntoProps, hl]
        rw [hstep]
        apply ih
        intro k2
        constructor
        · intro hnone
          rw [lookupOwn_setOwnProp] at hnone
          by_cases hk : k = k2
          · rw [if_pos hk] at hnone
            cases hnone
          · rw [if_neg hk] at hnone
            exact (h k2).1 hnone
        · intro n hn
          rw [lookupOwn_setOwnProp] at hn
          by_cases hk : k = k2
          · rw [if_pos hk] at hn
            cases hn
            rw [mergeSchemas_optionalOf]
            exact (h k2).2 e (hk ▸ hl)
          · rw [if_neg hk] at hn
            exact (h k2).2 n hn
      | fn =>
        have hstep : mergeIntoProps acc (.cons k v rest) = mergeIntoProps acc rest := by
          simp only [mergeIntoProps, hl]
        rw [hstep]
        exact ih acc h
      | junk o =>
        have hstep : mergeIntoProps acc (.cons k v rest) = mergeIntoProps acc rest := by
          simp only [mergeIntoProps, hl]
        rw [hstep]
        exact ih acc h
    | none =>
      by_cases hk : k = "__proto__"
      · have hstep : mergeIntoProps acc (.cons k v rest) = mergeIntoProps acc rest := by
          simp only [mergeIntoProps, hl]
          rw [if_pos hk]
        rw [hstep]
        exact ih acc h
      · by_cases hm : objectProtoMembers.contains k = true
        · have hstep : mergeIntoProps acc (.cons k v rest)
              = mergeIntoProps (setOwnProp acc k .fn) rest := by
            simp only [mergeIntoProps, hl]
            rw [if_neg hk, if_pos hm]
          rw [hstep]
          exact ih _ (inv_setOwnProp_nonnode firstProps acc k .fn (by intro n hc; cases hc) h)
        · have hstep : mergeIntoProps acc (.cons k v rest)
              = mergeIntoProps (setOwnProp acc k (.node v.withOptional)) rest := by
            simp only [mergeIntoProps, hl]
            rw [if_neg hk, if_neg hm]
          rw [hstep]
          apply ih
          intro k2
          constructor
          · intro hnone
            rw [lookupOwn_setOwnProp] at hnone
            by_cases hk2 : k = k2
            · rw [if_pos hk2] at hnone
              cases hnone
            · rw [if_neg hk2] at hnone
              exact (h k2).1 hnone
          · intro n hn
            rw [lookupOwn_setOwnProp] at hn
            by_cases hk2 : k = k2
            · rw [if_pos hk2] at hn
              cases hn
              simp [withOptional_optionalOf, (h k2).1 (hk2 ▸ hl)]
            · rw [if_neg hk2] at hn
              exact (h k2).2 n hn
  | hfn k rest ih =>
    intro acc h
    cases hl : lookupOwnProp acc k with
    | some p =>
      cases p with
      | node e =>
        have hstep : mergeIntoProps acc (.consFn k rest) = mergeIntoProps acc rest := by
          simp only [mergeIntoProps, hl]
        rw [hstep]
        exact ih acc h
      | fn =>
        have hstep : mergeIntoProps acc (.consFn k rest)
            = mergeIntoProps (setOwnProp acc k (.junk false)) rest := by
          simp only [mergeIntoProps, hl]
        rw [hstep]
        exact ih _ (inv_setOwnProp_nonnode firstProps acc k (.junk false)
          (by intro n hc; cases hc) h)
      | junk o =>
        have hstep : mergeIntoProps acc (.consFn k rest) = mergeIntoProps acc rest := by
          simp only [mergeIntoProps, hl]
        rw [hstep]
        exact ih acc h
    | none =>
      by_cases hk : k = "__proto__"
      · have hstep : mergeIntoProps acc (.consFn k rest) = mergeIntoProps acc rest := by
          simp only [mergeIntoProps, hl]
          rw [if_pos hk]
        rw [hstep]
        exact ih acc h
      · by_cases hm : objectProtoMembers.contains k = true
        · have hstep : mergeIntoProps acc (.consFn k rest)
              = mergeIntoProps (setOwnProp acc k (.junk false)) rest := by
            simp only [mergeIntoProps, hl]
            rw [if_neg hk, if_pos hm]
          rw [hstep]
          exact ih _ (inv_setOwnProp_nonnode firstProps acc k (.junk false)
            (by intro n hc; cases hc) h)
        · have hstep : mergeIntoProps acc (.consFn k rest)
              = mergeIntoProps (setOwnProp acc k (.junk true)) rest := by
            simp only [mergeIntoProps, hl]
            rw [if_neg hk, if_neg hm]
          rw [hstep]
          exact ih _ (inv_setOwnProp_nonnode firstProps acc k (.junk true)
            (by intro n hc; cases hc) h)
  | hjunk k o2 rest ih =>
    intro acc h
    cases hl : lookupOwnProp acc k with
    | some p =>
      cases p with
      | node e =>
        have hstep : mergeIntoProps acc (.consJunk k o2 rest) = mergeIntoProps acc rest := by
          simp only [mergeIntoProps, hl]
        rw [hstep]
        exact ih acc h
      | fn =>
        have hstep : mergeIntoProps acc (.consJunk k o2 rest)
            = mergeIntoProps (setOwnProp acc k (.junk false)) rest := by
          simp only [mergeIntoProps, hl]
        rw [hstep]
        exact ih _ (inv_setOwnProp_nonnode firstProps acc k (.junk false)
          (by intro n hc; cases hc) h)
      | junk o3 =>
        have hstep : mergeIntoProps acc (.consJunk k o2 rest) = mergeIntoProps acc rest := by
          simp only [mergeIntoProps, hl]
        rw [hstep]
        exact ih acc h
    | none =>
      by_cases hk : k = "__proto__"
      · have hstep : mergeIntoProps acc (.consJunk k o2 rest) = mergeIntoProps acc rest := by
          simp only [mergeIntoProps, hl]
          rw [if_pos hk]
        rw [hstep]
        exact ih acc h
      · by_cases hm : objectProtoMembers.contains k = true
        · have hstep : mergeIntoProps acc (.consJunk k o2 rest)
              = mergeIntoProps (setOwnProp acc k (.junk false)) rest := by
            simp only [mergeIntoProps, hl]
            rw [if_neg hk, if_pos hm]
          rw [hstep]
          exact ih _ (inv_setOwnProp_nonnode firstProps acc k (.junk false)
            (by intro n hc; cases hc) h)
        · have hstep : mergeIntoProps acc (.consJunk k o2 rest)
              = mergeIntoProps (setOwnProp acc k (.junk true)) rest := by
            simp only [mergeIntoProps, hl]
            rw [if_neg hk, if_neg hm]
          rw [hstep]
          exact ih _ (inv_setOwnProp_nonnode firstProps acc k (.junk true)
            (by intro n hc; cases hc) h)

theorem mergeSchemas_props_inv (firstProps : SchemaProps) (cur inc : SchemaNode)
    (h : optionalMatchesFirst firstProps (cur.propertiesOf.getD .nil)) :
    optionalMatchesFirst firstProps ((mergeSchemas cur inc).propertiesOf.getD .nil) := by
  cases cur with
  | mk et edt ep ei eal epat eex eopt =>
    cases inc with
    | mk it idt ip ii ial ipat iex iopt =>
      unfold mergeSchemas
      split
      · exact h
      · dsimp only [SchemaNode.propertiesOf]
        by_cases ho : et = JType.object
        · rw [if_pos ho]
          cases ip with
          | some ipl =>
            dsimp only [Option.getD]
            exact mergeIntoProps_inv firstProps ipl (ep.getD .nil) h
          | none =>
            dsimp only [Option.getD]
            exact h
        · rw [if_neg ho]
          exact h

theorem foldl_mergeSchemas_inv (firstProps : SchemaProps) (samples : List SchemaNode)
    (cur : SchemaNode) (h : optionalMatchesFirst firstProps (cur.propertiesOf.getD .nil)) :
    optionalMatchesFirst firstProps
      ((samples.foldl mergeSchemas cur).propertiesOf.getD .nil) := by
  induction samples generalizing cur with
  | nil => exact h
  | cons s rest ih =>
    rw [List.foldl_cons]
    exact ih _ (mergeSchemas_props_inv firstProps cur s h)

/-- C7 counterexample: the key `a` occurs in the first observed object
sample and is absent from the second, yet after merging the second
sample's (empty) property map into the first, `a` carries no
`optional` flag — a key absent from a later sample is not flagged. -/
theorem C7_counterexample :
    lookupOwnProp
        ((mergeSchemas
            (SchemaNode.mk JType.object none
              (some (SchemaProps.cons "a" numberSchema SchemaProps.nil)) none none none none false)
            (SchemaNode.mk JType.object none (some SchemaProps.nil)
              none none none none false)).propertiesOf.getD SchemaProps.nil) "a"
      = some (OwnProp.node numberSchema)
    ∧ numberSchema.optionalOf = false
    ∧ lookupOwnProp SchemaProps.nil "a" = none :=
  ⟨rfl, rfl, rfl⟩

/-- C7 (amended): after merging any sequence of observed samples into
a first observed sample whose property nodes carry no `optional`
flag, an own property that holds a schema node carries the flag
exactly when its key is absent from the FIRST observed sample —
absence from a later sample alone never sets it.  A key first seen in
a later sample is flagged optional unless its name collides with
`"__proto__"` (such a binding is swallowed by the inherited setter)
or with an inherited `Object.prototype` member (such a binding ends
up holding the inherited function, not a flagged schema node). -/
theorem C7_amended (first : SchemaNode) (samples : List SchemaNode)
    (hplain : (first.propertiesOf.getD .nil).allPlain = true)
    (k : String) (n : SchemaNode)
    (hlook : lookupOwnProp
        ((samples.foldl mergeSchemas first).propertiesOf.getD .nil) k
          = some (OwnProp.node n)) :
    (n.optionalOf = true
      ↔ lookupOwnProp (first.propertiesOf.getD .nil) k = none) := by
  have hbase : optionalMatchesFirst (first.propertiesOf.getD .nil)
      (first.propertiesOf.getD .nil) := by
    intro k2
    refine ⟨fun h => h, ?_⟩
    intro m hm
    obtain ⟨m2, hm2, hopt⟩ := allPlain_lookupOwn _ hplain k2 _ hm
    cases hm2
    simp [hopt, hm]
  exact (foldl_mergeSchemas_inv _ samples first hbase k).2 n hlook

/-- C7 witness: the amended theorem applied to a first sample `{a}`
and one later sample `{b}` — `b` is flagged optional and is indeed
absent from the first sample. -/
theorem C7_amended_witness :
    (((SchemaNode.mk JType.object none
        (some (SchemaProps.cons "a" numberSchema SchemaProps.nil))
        none none none none false).propertiesOf.getD SchemaProps.nil).allPlain = true)
    ∧ lookupOwnProp
        (([SchemaNode.mk JType.object none
            (some (SchemaProps.cons "b" numberSchema SchemaProps.nil))
            none none none none false].foldl mergeSchemas
          (SchemaNode.mk JType.object none
            (some (SchemaProps.cons "a" numberSchema SchemaProps.nil))
            none none none none false)).propertiesOf.getD SchemaProps.nil) "b"
        = some (OwnProp.node numberSchema.withOptional)
    ∧ (numberSchema.withOptional.optionalOf = true
        ↔ lookupOwnProp
            ((SchemaNode.mk JType.object none
              (some (SchemaProps.cons "a" numberSchema SchemaProps.nil))
              none none none none false).propertiesOf.getD SchemaProps.nil) "b" = none) :=
  ⟨rfl, rfl,
    C7_amended
      (SchemaNode.mk JType.object none
        (some (SchemaProps.cons "a" numberSchema SchemaProps.nil))
        none none none none false)
      [SchemaNode.mk JType.object none
        (some (SchemaProps.cons "b" numberSchema SchemaProps.nil))
        none none none none false]
      rfl "b" numberSchema.withOptional rfl⟩

/-! ### Example lists stay capped at 3 -/

theorem addExamples_le (inc : List String) :
    ∀ cur : List String, cur.length ≤ 3 → (addExamples cur inc).length ≤ 3 := by
  induction inc with
  | nil =>
    intro cur h
    exact h
  | cons e rest ih =>
    intro cur h
    unfold addExamples
    by_cases hc : !(cur.contains e) && cur.length < 3
    · rw [if_pos hc]
      apply ih
      simp only [Bool.and_eq_true, decide_eq_true_eq] at hc
      simp only [List.length_append, List.length_cons, List.length_nil]
      omega
    · rw [if_neg hc]
      exact ih cur h

theorem examplesBounded_mk {t : JType} {dt : Option String} {p : Option SchemaProps}
    {i : Option SchemaNode} {al : Option ArrayLengthRange} {pat : Option String}
    {ex : Option (List String)} {o : Bool}
    (hex : ∀ l, ex = some l → l.length ≤ 3)
    (hp : ∀ pr, p = some pr → examplesBoundedProps pr = true)
    (hi : ∀ s, i = some s → examplesBounded s = true) :
    examplesBounded (.mk t dt p i al pat ex o) = true := by
  unfold examplesBounded
  simp only [Bool.and_eq_true]
  refine ⟨⟨?_, ?_⟩, ?_⟩
  · cases hx : ex with
    | none => rfl
    | some l => simpa using hex l hx
  · cases hpp : p with
    | none => rfl
    | some pr => exact hp pr hpp
  · cases hii : i with
    | none => rfl
    | some s => exact hi s hii

theorem examplesBounded_parts {t : JType} {dt : Option String} {p : Option SchemaProps}
    {i : Option SchemaNode} {al : Option ArrayLengthRange} {pat : Option String}
    {ex : Option (List String)} {o : Bool}
    (h : examplesBounded (.mk t dt p i al pat ex o) = true) :
    (∀ l, ex = some l → l.length ≤ 3)
    ∧ (∀ pr, p = some pr → examplesBoundedProps pr = true)
    ∧ (∀ s, i = some s → examplesBounded s = true) := by
  unfold examplesBounded at h
  simp only [Bool.and_eq_true] at h
  refine ⟨?_, ?_, ?_⟩
  · intro l hl
    subst hl
    simpa using h.1.1
  · intro pr hpr
    subst hpr
    exact h.1.2
  · intro s hs
    subst hs
    exact h.2

theorem boundedProps_lookup (pr : SchemaProps) :
    ∀ (k : String) (n : SchemaNode), examplesBoundedProps pr = true →
      lookupSchemaProp pr k = some n → examplesBounded n = true := by
  induction pr using propsInd with
  | hnil =>
    intro k n _ hl
    cases hl
  | hcons k' v rest ih =>
    intro k n h hl
    unfold examplesBoundedProps at h
    simp only [Bool.and_eq_true] at h
    simp only [lookupSchemaProp] at hl
    by_cases hk : k' = k
    · rw [if_pos hk] at hl
      cases hl
      exact h.1
    · rw [if_neg hk] at hl
      exact ih k n h.2 hl
  | hfn k' rest ih =>
    intro k n h hl
    unfold examplesBoundedProps at h
    simp only [lookupSchemaProp] at hl
    by_cases hk : k' = k
    · rw [if_pos hk] at hl
      cases hl
    · rw [if_neg hk] at hl
      exact ih k n h hl
  | hjunk k' o rest ih =>
    intro k n h hl
    unfold examplesBoundedProps at h
    simp only [lookupSchemaProp] at hl
    by_cases hk : k' = k
    · rw [if_pos hk] at hl
      cases hl
    · rw [if_neg hk] at hl
      exact ih k n h hl

theorem boundedProps_lookupOwn (pr : SchemaProps) :
    ∀ (k : String) (e : SchemaNode), examplesBoundedProps pr = true →
      lookupOwnProp pr k = some (OwnProp.node e) → examplesBounded e = true := by
  induction pr using propsInd with
  | hnil =>
    intro k e _ hl
    cases hl
  | hcons k' v rest ih =>
    intro k e h hl
    unfold examplesBoundedProps at h
    simp only [Bool.and_eq_true] at h
    simp only [lookupOwnProp] at hl
    by_cases hk : k' = k
    · rw [if_pos hk] at hl
      cases hl
      exact h.1
    · rw [if_neg hk] at hl
      exact ih k e h.2 hl
  | hfn k' rest ih =>
    intro k e h hl
    unfold examplesBoundedProps at h
    simp only [lookupOwnProp] at hl
    by_cases hk : k' = k
    · rw [if_pos hk] at hl
      cases hl
    · rw [if_neg hk] at hl
      exact ih k e h hl
  | hjunk k' o rest ih =>
    intro k e h hl
    unfold examplesBoundedProps at h
    simp only [lookupOwnProp] at hl
    by_cases hk : k' = k
    · rw [if_pos hk] at hl
      cases hl
    · rw [if_neg hk] at hl
      exact ih k e h hl

theorem boundedProps_set (k : String) (v : SchemaNode) (hv : examplesBounded v = true) :
    ∀ pr : SchemaProps, examplesBoundedProps pr = true →
      examplesBoundedProps (setSchemaProp pr k v) = true := by
  intro pr
  induction pr using propsInd with
  | hnil =>
    intro _
    unfold setSchemaProp examplesBoundedProps examplesBoundedProps
    rw [hv]
    rfl
  | hcons k' v' rest ih =>
    intro h
    unfold examplesBoundedProps at h
    simp only [Bool.and_eq_true] at h
    unfold setSchemaProp
    by_cases hk : k' = k
    · rw [if_pos hk]
      unfold examplesBoundedProps
      rw [hv, h.2]
      rfl
    · rw [if_neg hk]
      unfold examplesBoundedProps
      rw [h.1, ih h.2]
      rfl
  | hfn k' rest ih =>
    intro h
    unfold examplesBoundedProps at h
    unfold setSchemaProp
    by_cases hk : k' = k
    · rw [if_pos hk]
      unfold examplesBoundedProps
      rw [hv, h]
      rfl
    · rw [if_neg hk]
      unfold examplesBoundedProps
      exact ih h
  | hjunk k' o rest ih =>
    intro h
    unfold examplesBoundedProps at h
    unfold setSchemaProp
    by_cases hk : k' = k
    · rw [if_pos hk]
      unfold examplesBoundedProps
      rw [hv, h]
      rfl
    · rw [if_neg hk]
      unfold examplesBoundedProps
      exact ih h

theorem boundedProps_consOf (k : String) (p : OwnProp)
    (hp : ∀ n2, p = OwnProp.node n2 → examplesBounded n2 = true) :
    ∀ pr : SchemaProps, examplesBoundedProps pr = true →
      examplesBoundedProps (consOfProp k p pr) = true := by
  intro pr h
  cases p with
  | node n =>
    unfold consOfProp examplesBoundedProps
    rw [hp n rfl, h]
    rfl
  | fn =>
    unfold consOfProp examplesBoundedProps
    exact h
  | junk o =>
    unfold consOfProp examplesBoundedProps
    exact h

theorem boundedProps_setOwn (k : String) (p : OwnProp)
    (hp : ∀ n2, p = OwnProp.node n2 → examplesBounded n2 = true) :
    ∀ pr : SchemaProps, examplesBoundedProps pr = true →
      examplesBoundedProps (setOwnProp pr k p) = true := by
  intro pr
  induction pr using propsInd with
  | hnil =>
    intro h
    unfold setOwnProp
    exact boundedProps_consOf k p hp .nil h
  | hcons k' v' rest ih =>
    intro h
    unfold examplesBoundedProps at h
    simp only [Bool.and_eq_true] at h
    unfold setOwnProp
    by_cases hk : k' = k
    · rw [if_pos hk]
      exact boundedProps_consOf k p hp rest h.2
    · rw [if_neg hk]
      unfold examplesBoundedProps
      rw [h.1, ih h.2]
      rfl
  | hfn k' rest ih =>
    intro h
    unfold examplesBoundedProps at h
    unfold setOwnProp
    by_cases hk : k' = k
    · rw [if_pos hk]
      exact boundedProps_consOf k p hp rest h
    · rw [if_neg hk]
      unfold examplesBoundedProps
      exact ih h
  | hjunk k' o rest ih =>
    intro h
    unfold examplesBoundedProps at h
    unfold setOwnProp
    by_cases hk : k' = k
    · rw [if_pos hk]
      exact boundedProps_consOf k p hp rest h
    · rw [if_neg hk]
      unfold examplesBoundedProps
      exact ih h

theorem withOptional_bounded (v : SchemaNode) (hv : examplesBounded v = true) :
    examplesBounded v.withOptional = true := by
  cases v with
  | mk t dt p i al pat ex o =>
    unfold SchemaNode.withOptional
    unfold examplesBounded at hv ⊢
    exact hv

mutual

theorem mergeSchemas_bounded : ∀ (e v : SchemaNode), examplesBounded e = true →
    examplesBounded v = true → examplesBounded (mergeSchemas e v) = true
  | .mk et edt ep ei eal epat eex eopt, .mk it idt ip ii ial ipat iex iopt, he, hv => by
    obtain ⟨heex, hepp, heii⟩ := examplesBounded_parts he
    obtain ⟨hiex, hipp, hiii⟩ := examplesBounded_parts hv
    unfold mergeSchemas
    split
    · exact he
    · apply examplesBounded_mk
      · intro l hl
        by_cases hs : et = JType.string
        · rw [if_pos hs] at hl
          cases hiex2 : iex with
          | none =>
            rw [hiex2] at hl
            exact heex l hl
          | some incEx =>
            rw [hiex2] at hl
            cases hl
            apply addExamples_le
            cases hex2 : eex with
            | none => simp
            | some l2 => simpa using heex l2 hex2
        · rw [if_neg hs] at hl
          exact heex l hl
      · intro pr hpr
        by_cases ho : et = JType.object
        · rw [if_pos ho] at hpr
          cases hip2 : ip with
          | some ipl =>
            rw [hip2] at hpr
            cases hpr
            apply mergeIntoProps_bounded (ep.getD .nil) ipl
            · cases hep2 : ep with
              | none => rfl
              | some epl => exact hepp epl hep2
            · exact hipp ipl hip2
          | none =>
            rw [hip2] at hpr
            cases hpr
            cases hep2 : ep with
            | none => rfl
            | some epl => exact hepp epl hep2
        · rw [if_neg ho] at hpr
          exact hepp pr hpr
      · intro s hs2
        by_cases ha : et = JType.array
        · rw [if_pos ha] at hs2
          cases hii2 : ii with
          | some iiv =>
            rw [hii2] at hs2
            cases hei2 : ei with
            | some eiv =>
              rw [hei2] at hs2
              cases hs2
              exact mergeSchemas_bounded eiv iiv (heii eiv hei2) (hiii iiv hii2)
            | none =>
              rw [hei2] at hs2
              cases hs2
              exact hiii s hii2
          | none =>
            rw [hii2] at hs2
            exact heii s hs2
        · rw [if_neg ha] at hs2
          exact heii s hs2

theorem mergeIntoProps_bounded : ∀ (acc inc : SchemaProps),
    examplesBoundedProps acc = true → examplesBoundedProps inc = true →
    examplesBoundedProps (mergeIntoProps acc inc) = true
  | acc, .nil, ha, _ => ha
  | acc, .cons k v rest, ha, hi => by
    unfold examplesBoundedProps at hi
    simp only [Bool.and_eq_true] at hi
    unfold mergeIntoProps
    cases hl : lookupOwnProp acc k with
    | some p =>
      cases p with
      | node e =>
        exact mergeIntoProps_bounded _ rest
          (boundedProps_setOwn k (.node (mergeSchemas e v))
            (fun n2 hn2 => by
              cases hn2
              exact mergeSchemas_bounded e v (boundedProps_lookupOwn acc k e ha hl) hi.1)
            acc ha) hi.2
      | fn => exact mergeIntoProps_bounded acc rest ha hi.2
      | junk o => exact mergeIntoProps_bounded acc rest ha hi.2
    | none =>
      by_cases hk : k = "__proto__"
      · rw [if_pos hk]
        exact mergeIntoProps_bounded acc rest ha hi.2
      · rw [if_neg hk]
        by_cases hm : objectProtoMembers.contains k = true
        · rw [if_pos hm]
          exact mergeIntoProps_bounded _ rest
            (boundedProps_setOwn k .fn (fun n2 hn2 => by cases hn2) acc ha) hi.2
        · rw [if_neg hm]
          exact mergeIntoProps_bounded _ rest
            (boundedProps_setOwn k (.node v.withOptional)
              (fun n2 hn2 => by
                cases hn2
                exact withOptional_bounded v hi.1) acc ha) hi.2
  | acc, .consFn k rest, ha, hi => by
    unfold examplesBoundedProps at hi
    unfold mergeIntoProps
    cases hl : lookupOwnProp acc k with
    | some p =>
      cases p with
      | node e => exact mergeIntoProps_bounded acc rest ha hi
      | fn =>
        exact mergeIntoProps_bounded _ rest
          (boundedProps_setOwn k (.junk false) (fun n2 hn2 => by cases hn2) acc ha) hi
      | junk o => exact mergeIntoProps_bounded acc rest ha hi
    | none =>
      by_cases hk : k = "__proto__"
      · rw [if_pos hk]
        exact mergeIntoProps_bounded acc rest ha hi
      · rw [if_neg hk]
        by_cases hm : objectProtoMembers.contains k = true
        · rw [if_pos hm]
          exact mergeIntoProps_bounded _ rest
            (boundedProps_setOwn k (.junk false) (fun n2 hn2 => by cases hn2) acc ha) hi
        · rw [if_neg hm]
          exact mergeIntoProps_bounded _ rest
            (boundedProps_setOwn k (.junk true) (fun n2 hn2 => by cases hn2) acc ha) hi
  | acc, .consJunk k o2 rest, ha, hi => by
    unfold examplesBoundedProps at hi
    unfold mergeIntoProps
    cases hl : lookupOwnProp acc k with
    | some p =>
      cases p with
      | node e => exact mergeIntoProps_bounded acc rest ha hi
      | fn =>
        exact mergeIntoProps_bounded _ rest
          (boundedProps_setOwn k (.junk false) (fun n2 hn2 => by cases hn2) acc ha) hi
      | junk o3 => exact mergeIntoProps_bounded acc rest ha hi
    | none =>
      by_cases hk : k = "__proto__"
      · rw [if_pos hk]
        exact mergeIntoProps_bounded acc rest ha hi
      · rw [if_neg hk]
        by_cases hm : objectProtoMembers.contains k = true
        · rw [if_pos hm]
          exact mergeIntoProps_bounded _ rest
            (boundedProps_setOwn k (.junk false) (fun n2 hn2 => by cases hn2) acc ha) hi
        · rw [if_neg hm]
          exact mergeIntoProps_bounded _ rest
            (boundedProps_setOwn k (.junk true) (fun n2 hn2 => by cases hn2) acc ha) hi

end

/-! ### Boundedness through the extraction machine -/

theorem itemsOf_bounded {s e : SchemaNode} (hs : examplesBounded s = true)
    (hi : s.itemsOf = some e) : examplesBounded e = true := by
  cases s with
  | mk t dt p i al pat ex o =>
    exact (examplesBounded_parts hs).2.2 e hi

theorem propertiesOf_bounded {s : SchemaNode} {pr : SchemaProps}
    (hs : examplesBounded s = true) (hp : s.propertiesOf = some pr) :
    examplesBoundedProps pr = true := by
  cases s with
  | mk t dt p i al pat ex o =>
    exact (examplesBounded_parts hs).2.1 pr hp

theorem lookupOpt_bounded {s : SchemaNode} {k : String} {n : SchemaNode}
    (hs : examplesBounded s = true)
    (hl : lookupSchemaPropOpt s.propertiesOf k = some n) : examplesBounded n = true := by
  cases hp : s.propertiesOf with
  | none =>
    rw [hp] at hl
    cases hl
  | some pr =>
    rw [hp] at hl
    exact boundedProps_lookup pr k n (propertiesOf_bounded hs hp) hl

theorem setPropSchema_bounded {s v : SchemaNode} (k : String)
    (hs : examplesBounded s = true) (hv : examplesBounded v = true) :
    examplesBounded (setPropSchema s k v) = true := by
  cases s with
  | mk t dt p i al pat ex o =>
    obtain ⟨hex, hp, hi⟩ := examplesBounded_parts hs
    unfold setPropSchema
    apply examplesBounded_mk hex
    · intro pr hpr
      cases hpr
      apply boundedProps_set k v hv
      cases hp2 : p with
      | none => rfl
      | some pl => exact hp pl hp2
    · exact hi

theorem setItemsSchema_bounded {s v : SchemaNode}
    (hs : examplesBounded s = true) (hv : examplesBounded v = true) :
    examplesBounded (setItemsSchema s v) = true := by
  cases s with
  | mk t dt p i al pat ex o =>
    obtain ⟨hex, hp, hi⟩ := examplesBounded_parts hs
    unfold setItemsSchema
    apply examplesBounded_mk hex hp
    intro s2 hs2
    cases hs2
    exact hv

theorem setArrayLengthSchema_bounded {s : SchemaNode} (al : ArrayLengthRange)
    (hs : examplesBounded s = true) :
    examplesBounded (setArrayLengthSchema s al) = true := by
  cases s with
  | mk t dt p i al0 pat ex o =>
    obtain ⟨hex, hp, hi⟩ := examplesBounded_parts hs
    exact examplesBounded_mk hex hp hi

theorem setDollarTypeSchema_bounded {s : SchemaNode} (v : String)
    (hs : examplesBounded s = true) :
    examplesBounded (setDollarTypeSchema s v) = true := by
  cases s with
  | mk t dt p i al pat ex o =>
    obtain ⟨hex, hp, hi⟩ := examplesBounded_parts hs
    exact examplesBounded_mk hex hp hi

theorem createValueSchema_bounded (dP : Bool) (v : TokenEvent) :
    examplesBounded (createValueSchema dP v) = true := by
  cases v with
  | stringValue s =>
    show examplesBounded
      (if dP = true then
        match detectPattern s with
        | some p => stringSchemaWithPattern p
        | none => if s.toList.length ≤ 50 then stringSchemaWithExample s else stringSchema
      else stringSchema) = true
    by_cases hd : dP = true
    · rw [if_pos hd]
      cases hpat : detectPattern s with
      | some p => rfl
      | none =>
        by_cases hlen : s.toList.length ≤ 50
        · rw [if_pos hlen]
          rfl
        · rw [if_neg hlen]
          rfl
    · rw [if_neg hd]
      rfl
  | keyValue s => rfl
  | numberValue q => rfl
  | trueValue => rfl
  | falseValue => rfl
  | nullValue => rfl
  | startObject => rfl
  | endObject => rfl
  | startArray => rfl
  | endArray => rfl

theorem shouldSample_stack (maxSamples : Nat) (st : ExtractState) :
    (shouldSample maxSamples st).2.stack = st.stack
    ∧ (shouldSample maxSamples st).2.root = st.root
    ∧ (shouldSample maxSamples st).2.currentKey = st.currentKey := by
  unfold shouldSample
  dsimp only
  split <;> exact ⟨rfl, rfl, rfl⟩

theorem linkChild_inv (child : Frame) (cs : SchemaNode) (rest : List Frame)
    (root : Option SchemaNode) (hcs : examplesBounded cs = true)
    (hrest : ∀ f ∈ rest, examplesBounded f.schema = true)
    (hroot : ∀ r, root = some r → examplesBounded r = true) :
    (∀ f ∈ (linkChild child cs rest root).1, examplesBounded f.schema = true)
    ∧ (∀ r, (linkChild child cs rest root).2 = some r → examplesBounded r = true) := by
  cases hl : child.link with
  | discarded =>
    simp only [linkChild, hl]
    exact ⟨hrest, hroot⟩
  | root =>
    simp only [linkChild, hl]
    refine ⟨hrest, ?_⟩
    intro r hr
    cases hr
    exact hcs
  | toProp k =>
    simp only [linkChild, hl]
    cases rest with
    | nil => exact ⟨by simp, hroot⟩
    | cons parent rest2 =>
      refine ⟨?_, hroot⟩
      intro f hf
      rcases List.mem_cons.mp hf with rfl | hf2
      · exact setPropSchema_bounded k (hrest parent (List.mem_cons_self _ _)) hcs
      · exact hrest f (List.mem_cons_of_mem _ hf2)
  | toItemsFirst =>
    simp only [linkChild, hl]
    cases rest with
    | nil => exact ⟨by simp, hroot⟩
    | cons parent rest2 =>
      refine ⟨?_, hroot⟩
      intro f hf
      rcases List.mem_cons.mp hf with rfl | hf2
      · exact setItemsSchema_bounded (hrest parent (List.mem_cons_self _ _)) hcs
      · exact hrest f (List.mem_cons_of_mem _ hf2)

theorem pushContainer_inv (st : ExtractState) (isObj sampled : Bool)
    (hstack : ∀ f ∈ st.stack, examplesBounded f.schema = true) :
    (∀ f ∈ (pushContainer st isObj sampled).stack, examplesBounded f.schema = true)
    ∧ (pushContainer st isObj sampled).root = st.root := by
  have hsch : examplesBounded (if isObj = true then emptyObjectSchema else emptyArraySchema) = true := by
    cases isObj <;> rfl
  have hdum : examplesBounded (if isObj = true then bareObjectSchema else bareArraySchema) = true := by
    cases isObj <;> rfl
  unfold pushContainer
  dsimp only
  by_cases hsam : sampled = true
  · rw [if_pos hsam]
    cases hst : st.stack with
    | nil => exact ⟨hstack, rfl⟩
    | cons frame rest =>
      dsimp only
      have hframe : examplesBounded frame.schema = true :=
        hstack frame (by rw [hst]; exact List.mem_cons_self _ _)
      have hrest : ∀ f ∈ rest, examplesBounded f.schema = true := fun f hf =>
        hstack f (by rw [hst]; exact List.mem_cons_of_mem _ hf)
      split
      · refine ⟨?_, rfl⟩
        dsimp only
        intro f hf
        rcases List.mem_cons.mp hf with rfl | hf2
        · exact hsch
        · rcases List.mem_cons.mp hf2 with rfl | hf3
          · exact setPropSchema_bounded _ hframe hsch
          · exact hrest f hf3
      · split
        · cases hit : frame.schema.itemsOf with
          | none =>
            dsimp only
            refine ⟨?_, rfl⟩
            dsimp only
            intro f hf
            rcases List.mem_cons.mp hf with rfl | hf2
            · exact hsch
            · rcases List.mem_cons.mp hf2 with rfl | hf3
              · exact setItemsSchema_bounded hframe hsch
              · exact hrest f hf3
          | some existingItems =>
            dsimp only
            refine ⟨?_, rfl⟩
            dsimp only
            intro f hf
            rcases List.mem_cons.mp hf with rfl | hf2
            · exact hsch
            · rcases List.mem_cons.mp hf2 with rfl | hf3
              · dsimp only
                by_cases hio : isObj = true
                · rw [if_pos hio]
                  exact setItemsSchema_bounded hframe
                    (mergeSchemas_bounded _ _ (itemsOf_bounded hframe hit) hsch)
                · rw [if_neg hio]
                  exact hframe
              · exact hrest f hf3
        · exact ⟨hstack, rfl⟩
  · rw [if_neg hsam]
    refine ⟨?_, rfl⟩
    dsimp only
    intro f hf
    rcases List.mem_cons.mp hf with rfl | hf2
    · exact hdum
    · exact hstack f hf2

theorem extractStep_inv (maxDepth maxSamples : Nat) (dP : Bool) (st : ExtractState)
    (tok : TokenEvent)
    (hstack : ∀ f ∈ st.stack, examplesBounded f.schema = true)
    (hroot : ∀ r, st.root = some r → examplesBounded r = true) :
    (∀ f ∈ (extractStep maxDepth maxSamples dP st tok).stack,
        examplesBounded f.schema = true)
    ∧ (∀ r, (extractStep maxDepth maxSamples dP st tok).root = some r →
        examplesBounded r = true) := by
  unfold extractStep
  split
  · -- startObject
    dsimp only
    split
    · refine ⟨?_, ?_⟩
      · intro f hf
        rcases List.mem_cons.mp hf with rfl | hf2
        · rfl
        · exact absurd hf2 (List.not_mem_nil f)
      · intro r hr
        cases hr
        rfl
    · split
      · have hss := shouldSample_stack maxSamples st
        have hstack2 : ∀ f ∈ (shouldSample maxSamples st).2.stack,
            examplesBounded f.schema = true := by
          rw [hss.1]
          exact hstack
        have hp := pushContainer_inv (shouldSample maxSamples st).2 true
          (shouldSample maxSamples st).1 hstack2
        refine ⟨hp.1, ?_⟩
        intro r hr
        rw [hp.2, hss.2.1] at hr
        exact hroot r hr
      · have hp := pushContainer_inv st true false hstack
        refine ⟨hp.1, ?_⟩
        intro r hr
        rw [hp.2] at hr
        exact hroot r hr
  · -- endObject
    dsimp only
    cases hst : st.stack with
    | nil => exact ⟨hstack, hroot⟩
    | cons child rest =>
      dsimp only
      have hchild : examplesBounded child.schema = true :=
        hstack child (by rw [hst]; exact List.mem_cons_self _ _)
      have hrest : ∀ f ∈ rest, examplesBounded f.schema = true := fun f hf =>
        hstack f (by rw [hst]; exact List.mem_cons_of_mem _ hf)
      have hl := linkChild_inv child child.schema rest st.root hchild hrest hroot
      exact ⟨hl.1, hl.2⟩
  · -- startArray
    split
    · refine ⟨?_, ?_⟩
      · intro f hf
        rcases List.mem_cons.mp hf with rfl | hf2
        · rfl
        · exact absurd hf2 (List.not_mem_nil f)
      · intro r hr
        cases hr
        rfl
    · split
      · have hp := pushContainer_inv st false true hstack
        refine ⟨hp.1, ?_⟩
        intro r hr
        rw [hp.2] at hr
        exact hroot r hr
      · have hp := pushContainer_inv st false false hstack
        refine ⟨hp.1, ?_⟩
        intro r hr
        rw [hp.2] at hr
        exact hroot r hr
  · -- endArray
    dsimp only
    cases hst : st.stack with
    | nil => exact ⟨hstack, hroot⟩
    | cons child rest =>
      dsimp only
      have hchild : examplesBounded child.schema = true :=
        hstack child (by rw [hst]; exact List.mem_cons_self _ _)
      have hrest : ∀ f ∈ rest, examplesBounded f.schema = true := fun f hf =>
        hstack f (by rw [hst]; exact List.mem_cons_of_mem _ hf)
      cases hal : child.schema.arrayLengthOf with
      | none =>
        dsimp only
        have hl := linkChild_inv child child.schema rest st.root hchild hrest hroot
        exact ⟨hl.1, hl.2⟩
      | some al =>
        dsimp only
        have hcs : examplesBounded
            (setArrayLengthSchema child.schema (closeArrayLength al child.arrayIndex)) = true :=
          setArrayLengthSchema_bounded _ hchild
        have hl := linkChild_inv child
          (setArrayLengthSchema child.schema (closeArrayLength al child.arrayIndex))
          rest st.root hcs hrest hroot
        cases hlr : (linkChild child
            (setArrayLengthSchema child.schema (closeArrayLength al child.arrayIndex))
            rest st.root).1 with
        | nil =>
          dsimp only
          refine ⟨?_, hl.2⟩
          intro f hf
          exact absurd hf (List.not_mem_nil f)
        | cons parent rest2 =>
          dsimp only
          have hparent : examplesBounded parent.schema = true := by
            have h1 := hl.1
            rw [hlr] at h1
            exact h1 parent (List.mem_cons_self _ _)
          have hrest2 : ∀ f ∈ rest2, examplesBounded f.schema = true := by
            intro f hf
            have h1 := hl.1
            rw [hlr] at h1
            exact h1 f (List.mem_cons_of_mem _ hf)
          split
          · cases hpi : parent.schema.itemsOf with
            | some pItems =>
              dsimp only
              split
              · cases hpal : pItems.arrayLengthOf with
                | some pal =>
                  dsimp only
                  refine ⟨?_, hl.2⟩
                  intro f hf
                  rcases List.mem_cons.mp hf with rfl | hf2
                  · exact setItemsSchema_bounded hparent
                      (setArrayLengthSchema_bounded _ (itemsOf_bounded hparent hpi))
                  · exact hrest2 f hf2
                | none =>
                  dsimp only
                  refine ⟨?_, hl.2⟩
                  intro f hf
                  rcases List.mem_cons.mp hf with rfl | hf2
                  · exact hparent
                  · exact hrest2 f hf2
              · refine ⟨?_, hl.2⟩
                intro f hf
                rcases List.mem_cons.mp hf with rfl | hf2
                · exact hparent
                · exact hrest2 f hf2
            | none =>
              dsimp only
              refine ⟨?_, hl.2⟩
              intro f hf
              rcases List.mem_cons.mp hf with rfl | hf2
              · exact hparent
              · exact hrest2 f hf2
          · refine ⟨?_, hl.2⟩
            intro f hf
            rcases List.mem_cons.mp hf with rfl | hf2
            · exact hparent
            · exact hrest2 f hf2
  · -- keyValue
    exact ⟨hstack, hroot⟩
  · -- primitive value
    dsimp only
    split
    · refine ⟨hstack, ?_⟩
      intro r hr
      cases hr
      exact createValueSchema_bounded dP _
    · cases hst : st.stack with
      | nil => exact ⟨hstack, hroot⟩
      | cons frame rest =>
        dsimp only
        have hframe : examplesBounded frame.schema = true :=
          hstack frame (by rw [hst]; exact List.mem_cons_self _ _)
        have hrest : ∀ f ∈ rest, examplesBounded f.schema = true := fun f hf =>
          hstack f (by rw [hst]; exact List.mem_cons_of_mem _ hf)
        have hmerged : ∀ (v2 : TokenEvent),
            examplesBounded
              (match lookupSchemaPropOpt frame.schema.propertiesOf (st.currentKey.getD "") with
                | none => createValueSchema dP v2
                | some e => mergeSchemas e (createValueSchema dP v2)) = true := by
          intro v2
          cases hlk : lookupSchemaPropOpt frame.schema.propertiesOf (st.currentKey.getD "") with
          | none => exact createValueSchema_bounded dP v2
          | some e =>
            exact mergeSchemas_bounded _ _ (lookupOpt_bounded hframe hlk)
              (createValueSchema_bounded dP v2)
        split
        · -- object frame with a pending key
          dsimp only
          split
          · -- within depth
            split
            · -- stringValue
              split
              · -- the $type key
                refine ⟨?_, hroot⟩
                dsimp only
                intro f hf
                rcases List.mem_cons.mp hf with rfl | hf2
                · exact setDollarTypeSchema_bounded _ hframe
                · exact hrest f hf2
              · refine ⟨?_, hroot⟩
                dsimp only
                intro f hf
                rcases List.mem_cons.mp hf with rfl | hf2
                · exact setPropSchema_bounded _ hframe (hmerged _)
                · exact hrest f hf2
            · refine ⟨?_, hroot⟩
              dsimp only
              intro f hf
              rcases List.mem_cons.mp hf with rfl | hf2
              · exact setPropSchema_bounded _ hframe (hmerged _)
              · exact hrest f hf2
          · -- beyond depth: state unchanged but for currentKey
            refine ⟨?_, hroot⟩
            intro f hf
            exact hstack f hf

        · split
          · -- array frame
            split
            · -- within depth: sampling decision
              split
              · -- sampled: merge into items
                rw [(shouldSample_stack maxSamples _).1]
                dsimp only
                refine ⟨?_, ?_⟩
                · intro f hf
                  rcases List.mem_cons.mp hf with rfl | hf2
                  · apply setItemsSchema_bounded hframe
                    cases hit : frame.schema.itemsOf with
                    | none => exact createValueSchema_bounded dP _
                    | some e =>
                      exact mergeSchemas_bounded _ _ (itemsOf_bounded hframe hit)
                        (createValueSchema_bounded dP _)
                  · exact hrest f hf2
                · intro r hr
                  rw [(shouldSample_stack maxSamples _).2.1] at hr
                  exact hroot r hr
              · -- not sampled
                have hss := shouldSample_stack maxSamples
                  { st with stack := { frame with arrayIndex := frame.arrayIndex + 1 } :: rest }
                refine ⟨?_, ?_⟩
                · intro f hf
                  rw [hss.1] at hf
                  rcases List.mem_cons.mp hf with rfl | hf2
                  · exact hframe
                  · exact hrest f hf2
                · intro r hr
                  rw [hss.2.1] at hr
                  exact hroot r hr
            · -- beyond depth
              refine ⟨?_, hroot⟩
              intro f hf
              rcases List.mem_cons.mp hf with rfl | hf2
              · exact hframe
              · exact hrest f hf2
          · refine ⟨?_, hroot⟩
            intro f hf
            exact hstack f hf

theorem finalizeStackF_inv : ∀ (fuel : Nat) (stack : List Frame) (root : Option SchemaNode),
    (∀ f ∈ stack, examplesBounded f.schema = true) →
    (∀ r, root = some r → examplesBounded r = true) →
    ∀ r, finalizeStackF fuel stack root = some r → examplesBounded r = true := by
  intro fuel
  induction fuel with
  | zero =>
    intro stack root hstack hroot r hr
    exact hroot r hr
  | succ n ih =>
    intro stack root hstack hroot r hr
    cases stack with
    | nil => exact hroot r hr
    | cons frame rest =>
      have hframe : examplesBounded frame.schema = true :=
        hstack frame (List.mem_cons_self _ _)
      have hrest : ∀ f ∈ rest, examplesBounded f.schema = true := fun f hf =>
        hstack f (List.mem_cons_of_mem _ hf)
      cases hl : frame.link with
      | discarded =>
        have heq : finalizeStackF (n + 1) (frame :: rest) root = finalizeStackF n rest root := by
          simp only [finalizeStackF, hl]
        rw [heq] at hr
        exact ih rest root hrest hroot r hr
      | root =>
        have heq : finalizeStackF (n + 1) (frame :: rest) root
            = finalizeStackF n rest (some frame.schema) := by
          simp only [finalizeStackF, hl]
        rw [heq] at hr
        refine ih rest (some frame.schema) hrest ?_ r hr
        intro r2 hr2
        cases hr2
        exact hframe
      | toProp k =>
        cases rest with
        | nil =>
          have heq : finalizeStackF (n + 1) [frame] root = root := by
            simp only [finalizeStackF, hl]
          rw [heq] at hr
          exact hroot r hr
        | cons parent rest2 =>
          have heq : finalizeStackF (n + 1) (frame :: parent :: rest2) root
              = finalizeStackF n
                  (({ parent with schema := setPropSchema parent.schema k frame.schema }) :: rest2)
                  root := by
            simp only [finalizeStackF, hl]
          rw [heq] at hr
          refine ih _ root ?_ hroot r hr
          intro f hf
          rcases List.mem_cons.mp hf with rfl | hf2
          · exact setPropSchema_bounded _ (hrest parent (List.mem_cons_self _ _)) hframe
          · exact hrest f (List.mem_cons_of_mem _ hf2)
      | toItemsFirst =>
        cases rest with
        | nil =>
          have heq : finalizeStackF (n + 1) [frame] root = root := by
            simp only [finalizeStackF, hl]
          rw [heq] at hr
          exact hroot r hr
        | cons parent rest2 =>
          have heq : finalizeStackF (n + 1) (frame :: parent :: rest2) root
              = finalizeStackF n
                  (({ parent with schema := setItemsSchema parent.schema frame.schema }) :: rest2)
                  root := by
            simp only [finalizeStackF, hl]
          rw [heq] at hr
          refine ih _ root ?_ hroot r hr
          intro f hf
          rcases List.mem_cons.mp hf with rfl | hf2
          · exact setItemsSchema_bounded (hrest parent (List.mem_cons_self _ _)) hframe
          · exact hrest f (List.mem_cons_of_mem _ hf2)

/-- C9: every schema node produced by `extractSchema` holds at most 3
literal examples (so in particular every string-typed node carries a
pattern tag or at most 3 examples), for every token stream and every
`maxDepth`/`maxSamples`/`detectPatterns` setting. -/
theorem C9_examples_bounded (tokens : List TokenEvent) (maxDepth maxSamples : Nat)
    (dP : Bool) :
    examplesBounded (extractSchema tokens maxDepth maxSamples dP) = true := by
  have hfold : ∀ (st : ExtractState),
      (∀ f ∈ st.stack, examplesBounded f.schema = true) →
      (∀ r, st.root = some r → examplesBounded r = true) →
      (∀ f ∈ (tokens.foldl (extractStep maxDepth maxSamples dP) st).stack,
          examplesBounded f.schema = true)
      ∧ (∀ r, (tokens.foldl (extractStep maxDepth maxSamples dP) st).root = some r →
          examplesBounded r = true) := by
    induction tokens with
    | nil =>
      intro st h1 h2
      exact ⟨h1, h2⟩
    | cons t rest ih =>
      intro st h1 h2
      rw [List.foldl_cons]
      have hstep := extractStep_inv maxDepth maxSamples dP st t h1 h2
      exact ih _ hstep.1 hstep.2
  unfold extractSchema
  dsimp only
  have h := hfold ⟨[], none, none, []⟩
    (by intro f hf; exact absurd hf (List.not_mem_nil f))
    (by intro r hr; cases hr)
  cases hr : finalizeStackF
      (tokens.foldl (extractStep maxDepth maxSamples dP) ⟨[], none, none, []⟩).stack.length
      (tokens.foldl (extractStep maxDepth maxSamples dP) ⟨[], none, none, []⟩).stack
      (tokens.foldl (extractStep maxDepth maxSamples dP) ⟨[], none, none, []⟩).root with
  | none => rfl
  | some r => exact finalizeStackF_inv _ _ _ h.1 h.2 r hr

/-! ### The sorted relationship list is led by a maximal-coverage entry -/

theorem insertStable_mem (le : α → α → Bool) (x : α) :
    ∀ (l : List α) (y : α), y ∈ insertStable le x l → y = x ∨ y ∈ l := by
  intro l
  induction l with
  | nil =>
    intro y hy
    rcases List.mem_cons.mp hy with rfl | hy2
    · exact Or.inl rfl
    · exact absurd hy2 (List.not_mem_nil y)
  | cons z rest ih =>
    intro y hy
    unfold insertStable at hy
    by_cases hc : le z x && !(le x z)
    · rw [if_pos hc] at hy
      rcases List.mem_cons.mp hy with rfl | hy2
      · exact Or.inr (List.mem_cons_self _ _)
      · rcases ih y hy2 with rfl | hy3
        · exact Or.inl rfl
        · exact Or.inr (List.mem_cons_of_mem _ hy3)
    · rw [if_neg hc] at hy
      rcases List.mem_cons.mp hy with rfl | hy2
      · exact Or.inl rfl
      · exact Or.inr hy2

theorem insertStable_headDom (le : α → α → Bool)
    (htot : ∀ a b, le a b = true ∨ le b a = true)
    (htrans : ∀ a b c, le a b = true → le b c = true → le a c = true)
    (a : α) (l : List α)
    (hP : ∀ x rest, l = x :: rest → ∀ y ∈ l, le x y = true) :
    ∀ x rest, insertStable le a l = x :: rest → ∀ y ∈ insertStable le a l, le x y = true := by
  have hrefl : ∀ b : α, le b b = true := fun b => by
    rcases htot b b with h | h <;> exact h
  cases l with
  | nil =>
    intro x rest hx y hy
    unfold insertStable at hx hy
    cases hx
    rcases List.mem_cons.mp hy with rfl | hy2
    · exact hrefl y
    · exact absurd hy2 (List.not_mem_nil y)
  | cons z tail =>
    have hzdom : ∀ y ∈ z :: tail, le z y = true := hP z tail rfl
    intro x rest hx y hy
    unfold insertStable at hx hy
    by_cases hc : le z a && !(le a z)
    · rw [if_pos hc] at hx hy
      cases hx
      rcases List.mem_cons.mp hy with rfl | hy2
      · exact hrefl y
      · rcases insertStable_mem le a tail y hy2 with rfl | hy3
        · simp only [Bool.and_eq_true] at hc
          exact hc.1
        · exact hzdom y (List.mem_cons_of_mem _ hy3)
    · rw [if_neg hc] at hx hy
      cases hx
      have haz : le a z = true := by
        cases hb : le a z with
        | true => rfl
        | false =>
          exfalso
          apply hc
          rcases htot a z with h | h
          · rw [hb] at h
            cases h
          · rw [h, hb]
            rfl
      rcases List.mem_cons.mp hy with rfl | hy2
      · exact hrefl y
      · rcases List.mem_cons.mp hy2 with rfl | hy3
        · exact haz
        · exact htrans a z y haz (hzdom y (List.mem_cons_of_mem _ hy3))

theorem stableSortBy_headDom (le : α → α → Bool)
    (htot : ∀ a b, le a b = true ∨ le b a = true)
    (htrans : ∀ a b c, le a b = true → le b c = true → le a c = true) :
    ∀ (l : List α) (x : α) (rest : List α), stableSortBy le l = x :: rest →
      ∀ y ∈ stableSortBy le l, le x y = true := by
  intro l
  induction l with
  | nil =>
    intro x rest hx
    cases hx
  | cons a tail ih =>
    intro x rest hx y hy
    exact insertStable_headDom le htot htrans a (stableSortBy le tail)
      (fun x2 rest2 h2 => ih x2 rest2 h2) x rest hx y hy

/-- C8: when either join key is missing, `executeJoin` runs
relationship inference at the 30% coverage threshold; with no detected
relationship it fails with the descriptive recoverable error asking
for explicit keys, and otherwise it adopts the first — and
maximal-coverage — detected relationship as the auto-detected join
keys. -/
theorem C8_auto_detection (leftElems rightElems : List JsonValue) (options : JoinOptions)
    (hmissing : (isFalsyKey options.leftKey || isFalsyKey options.rightKey) = true) :
    ((findRelationships leftElems rightElems 30 false).relationships = [] →
      executeJoin leftElems rightElems options
        = .error "No relationship detected between files. Please specify --left-key and --right-key explicitly.")
    ∧ (∀ best rest2,
        (findRelationships leftElems rightElems 30 false).relationships = best :: rest2 →
        (∃ res, executeJoin leftElems rightElems options = .ok res
          ∧ res.joinKeys = ⟨best.leftPath, best.rightPath, true⟩)
        ∧ ∀ rel ∈ (findRelationships leftElems rightElems 30 false).relationships,
            rel.coverage.toRat ≤ best.coverage.toRat) := by
  have htot : ∀ a b : DetectedRelationship,
      coverageDescLe a b = true ∨ coverageDescLe b a = true := by
    intro a b
    rcases le_total b.coverage.toRat a.coverage.toRat with h | h
    · exact Or.inl (JsNum.ble_iff.mpr h)
    · exact Or.inr (JsNum.ble_iff.mpr h)
  have htrans : ∀ a b c : DetectedRelationship, coverageDescLe a b = true →
      coverageDescLe b c = true → coverageDescLe a c = true := by
    intro a b c h1 h2
    exact JsNum.ble_iff.mpr (le_trans (JsNum.ble_iff.mp h2) (JsNum.ble_iff.mp h1))
  constructor
  · intro hnil
    simp only [executeJoin]
    rw [if_pos hmissing, hnil]
  · intro best rest2 hcons
    constructor
    · simp only [executeJoin]
      rw [if_pos hmissing, hcons]
      exact ⟨_, rfl, rfl⟩
    · intro rel hrel
      have hsort : (findRelationships leftElems rightElems 30 false).relationships
          = stableSortBy coverageDescLe
              (relationshipsOf (scanFileForIds leftElems).1 (scanFileForIds rightElems).1 30) := by
        simp only [findRelationships]
      rw [hsort] at hcons hrel
      exact JsNum.ble_iff.mp
        (stableSortBy_headDom coverageDescLe htot htrans _ best rest2 hcons rel hrel)

/-- C8 witness: the theorem applied to one-element files; the missing
keys are discharged concretely. -/
theorem C8_auto_detection_witness :
    (isFalsyKey (none : Option String) || isFalsyKey (none : Option String)) = true
    ∧ (((findRelationships [JsonValue.obj [("playerId", JsonValue.str "Player:1")]]
          [JsonValue.obj [("id", JsonValue.str "Player:1")]] 30 false).relationships = [] →
        executeJoin [JsonValue.obj [("playerId", JsonValue.str "Player:1")]]
          [JsonValue.obj [("id", JsonValue.str "Player:1")]] ⟨none, none, none, none, 100⟩
          = .error "No relationship detected between files. Please specify --left-key and --right-key explicitly.")
      ∧ (∀ best rest2,
          (findRelationships [JsonValue.obj [("playerId", JsonValue.str "Player:1")]]
            [JsonValue.obj [("id", JsonValue.str "Player:1")]] 30 false).relationships
              = best :: rest2 →
          (∃ res, executeJoin [JsonValue.obj [("playerId", JsonValue.str "Player:1")]]
              [JsonValue.obj [("id", JsonValue.str "Player:1")]] ⟨none, none, none, none, 100⟩
              = .ok res
            ∧ res.joinKeys = ⟨best.leftPath, best.rightPath, true⟩)
          ∧ ∀ rel ∈ (findRelationships [JsonValue.obj [("playerId", JsonValue.str "Player:1")]]
              [JsonValue.obj [("id", JsonValue.str "Player:1")]] 30 false).relationships,
              rel.coverage.toRat ≤ best.coverage.toRat)) :=
  ⟨rfl,
    C8_auto_detection [JsonValue.obj [("playerId", JsonValue.str "Player:1")]]
      [JsonValue.obj [("id", JsonValue.str "Player:1")]] ⟨none, none, none, none, 100⟩ rfl⟩

end JsonGenius
